import Mathlib

/-!
Verification development for the universal-netlist repository.

This file gives a shallow embedding, in Lean 4, of the data model and the
operations of the universal-netlist code base (the circuit traversal engine
of src/circuit-traversal.ts, the query layer of src/service.ts, the Altium
record-stream parser of src/parsers/altium/record-parser.ts and the Cadence
text parsers of src/parsers/cadence), and proves or refutes the frozen
claims about them.

Modelling conventions, used throughout:
- JavaScript objects and Maps are modelled as association lists
  (`List (String × _)`) in insertion order; assignment replaces the first
  matching key in place, else appends (`setAssoc`), exactly the JS key
  update behaviour for objects without duplicate keys.
- JavaScript `Array.prototype.sort(cmp)` (a stable sort returning a
  permutation ordered by the comparator) is modelled by a stable insertion
  sort with `le a b := cmp a b ≤ 0` (for a consistent comparator, stability
  and sortedness determine the output uniquely, so any stable sort is the
  same function there).
- Strings are Lean `String`s, manipulated through their character lists;
  the repository compares and cases only ASCII data, where the Lean
  character operations agree with the JavaScript ones used in the source.
- `String.prototype.localeCompare` is modelled as code-point comparison
  (the default collator restricted to the ASCII net names the code cares
  about is an order refining it; only its sign is ever used).
- Numbers parsed with `parseInt` on digit runs are modelled as `Nat`.
-/

set_option maxRecDepth 100000

namespace UNetlist

/-! ## Association-list model of JavaScript objects and Maps -/

/-- Lookup of `m[k]` for a JS object modelled as an association list. -/
def lookupAssoc {β : Type} (m : List (String × β)) (k : String) : Option β :=
  (m.find? (fun p => p.1 == k)).map (fun p => p.2)

/-- Assignment `m[k] = v` for a JS object modelled as an association list:
replace the first matching key in place, else append. -/
def setAssoc {β : Type} : List (String × β) → String → β → List (String × β)
  | [], k, v => [(k, v)]
  | (k', v') :: rest, k, v =>
    if k' == k then (k, v) :: rest else (k', v') :: setAssoc rest k v

/-! ## List-based string helpers

Lean core string functions such as `String.toUpper` recurse on byte
positions and do not reduce inside the kernel; the JS string operations
are therefore modelled directly on the character list `String.data`
(identical in meaning for the ASCII data of this repository). -/

/-- JS `toUpperCase()` (ASCII). -/
def jsToUpper (s : String) : String := String.mk (s.data.map Char.toUpper)

/-- JS `toLowerCase()` (ASCII). -/
def jsToLower (s : String) : String := String.mk (s.data.map Char.toLower)

/-- JS `trim()`. -/
def jsTrim (s : String) : String :=
  String.mk (((s.data.dropWhile Char.isWhitespace).reverse.dropWhile
    Char.isWhitespace).reverse)

/-- JS `startsWith`. -/
def strStartsWith (s p : String) : Bool := p.data.isPrefixOf s.data

/-- JS `endsWith`. -/
def strEndsWith (s p : String) : Bool := p.data.reverse.isPrefixOf s.data.reverse

/-- Join with a separator (JS `Array.prototype.join`). -/
def joinSep (sep : String) : List String → String
  | [] => ""
  | [x] => x
  | x :: y :: rest => x ++ sep ++ joinSep sep (y :: rest)

/-! ## Classification predicates (src/circuit-traversal.ts lines 14-91) -/

/-- The character class of the JS regex `\w`: `[A-Za-z0-9_]`. -/
def isWordChar (c : Char) : Bool := c.isAlphanum || c = '_'

/-- The character class of the JS regex `\s` (the whitespace the DNS pattern
can meet in ASCII component fields). -/
def isSpaceChar (c : Char) : Bool :=
  c = ' ' || c = '\t' || c = '\n' || c = '\r' || c = '\x0b' || c = '\x0c'

/-- A character the JS regex `.` matches (anything but a line terminator). -/
def isDotChar (c : Char) : Bool :=
  c ≠ '\n' && c ≠ '\r' && c ≠ '\u2028' && c ≠ '\u2029'

/-- GROUND_NET_PATTERN: `^(GND|VSS|AGND|DGND|PGND|SGND|CGND)$` case-insensitive. -/
def isGroundNet (netName : String) : Bool :=
  let u := jsToUpper netName
  u = "GND" || u = "VSS" || u = "AGND" || u = "DGND" || u = "PGND" ||
    u = "SGND" || u = "CGND"

/-- Matches `P\w*` style alternatives: the (uppercased) name starts with the
given literal and every remaining character is a word character. -/
def matchWordTail (u : String) (lit : String) : Bool :=
  lit.data.isPrefixOf u.data && (u.data.drop lit.data.length).all isWordChar

/-- Matches `P\w+` style alternatives: as `matchWordTail` but the tail must
be non-empty. -/
def matchWordTail1 (u : String) (lit : String) : Bool :=
  lit.data.isPrefixOf u.data && (u.data.drop lit.data.length).length ≥ 1 &&
    (u.data.drop lit.data.length).all isWordChar

/-- Matches the voltage-literal alternative `[+-]?\d+V\d*\w*` (on the
uppercased name; the language of `\d*\w*` is that of `\w*`). -/
def matchVoltage (u : String) : Bool :=
  let cs := u.toList
  let cs := match cs with
    | c :: rest => if c = '+' || c = '-' then rest else c :: rest
    | [] => []
  let ds := cs.takeWhile Char.isDigit
  let rest := cs.dropWhile Char.isDigit
  ds ≠ [] && (match rest with
    | 'V' :: tail => tail.all isWordChar
    | _ => false)

/-- Matches the rail alternative `[+-].+`: a sign followed by at least one
non-line-terminator character. -/
def matchSignedRail (u : String) : Bool :=
  match u.toList with
  | c :: rest => (c = '+' || c = '-') && rest ≠ [] && rest.all isDotChar
  | [] => false

/-- POWER_NET_PATTERN of src/circuit-traversal.ts (case-insensitive, matched
against the uppercased name; every alternative is anchored `^...$`). -/
def isPowerNet (netName : String) : Bool :=
  let u := jsToUpper netName
  matchWordTail u "VCC" || matchWordTail u "VDD" || matchWordTail u "VIN" ||
    matchWordTail u "VOUT" || matchWordTail u "VBAT" || matchWordTail u "VBUS" ||
    matchWordTail u "VSYS" || matchWordTail1 u "PWR_" || matchWordTail1 u "RAIL_" ||
    matchWordTail u "PP" || matchWordTail u "PN" || matchWordTail u "LD_PP" ||
    matchWordTail u "LD_PN" || matchVoltage u || matchSignedRail u

/-- STOP_NET_PATTERN is literally the union of the ground and power
alternatives, so `isStopNet` is their disjunction. -/
def isStopNet (netName : String) : Bool :=
  isGroundNet netName || isPowerNet netName

/-- Determine if a component is a traversable passive (R/RS, L, C, FB). -/
def isPassive (refdes : String) : Bool :=
  let refdesUpper := jsToUpper refdes
  strStartsWith refdesUpper "RS" || strStartsWith refdesUpper "R" ||
    strStartsWith refdesUpper "FR" || strStartsWith refdesUpper "L" ||
    strStartsWith refdesUpper "C" || strStartsWith refdesUpper "FB"

/-- `^[A-Z][A-Z0-9_]*$` case-insensitive: a valid reference designator. -/
def isValidRefdes (refdes : String) : Bool :=
  match refdes.toList with
  | [] => false
  | c :: rest => c.isAlpha && rest.all (fun d => d.isAlphanum || d = '_')

/-- Check if a refdes matches a prefix filter (both sides uppercased). -/
def matchesRefdesType (refdes : String) (ty : String) : Bool :=
  strStartsWith (jsToUpper refdes) (jsToUpper ty)

/-! ## The DNS (do-not-stuff) pattern

`\b(DNS|DNP|DNF|DNI)\b|DO\s*NOT\s*(STUFF|POPULATE|INSTALL)|NOT\s*POPULATED|NO\s*POP`
case-insensitive, searched anywhere in the haystack. The haystack is
uppercased once and the literals are matched uppercase. -/

/-- Strip an expected literal from the front of the text, if present. -/
def dropLit : List Char → List Char → Option (List Char)
  | [], cs => some cs
  | _ :: _, [] => none
  | l :: ls, c :: cs => if c = l then dropLit ls cs else none

/-- Word alternative `(DNS|DNP|DNF|DNI)\b` at the current position (the
left boundary is checked by the caller). -/
def dnsWordAlt (cs : List Char) : Bool :=
  ["DNS", "DNP", "DNF", "DNI"].any (fun w =>
    match dropLit w.toList cs with
    | some rest =>
      match rest with
      | [] => true
      | c :: _ => !isWordChar c
    | none => false)

/-- `DO\s*NOT\s*(STUFF|POPULATE|INSTALL)` at the current position. -/
def dnsDoNotAlt (cs : List Char) : Bool :=
  match dropLit ['D', 'O'] cs with
  | some r1 =>
    match dropLit ['N', 'O', 'T'] (r1.dropWhile isSpaceChar) with
    | some r3 =>
      let r4 := r3.dropWhile isSpaceChar
      (dropLit "STUFF".toList r4).isSome ||
        (dropLit "POPULATE".toList r4).isSome ||
        (dropLit "INSTALL".toList r4).isSome
    | none => false
  | none => false

/-- `NOT\s*POPULATED` at the current position. -/
def dnsNotPopAlt (cs : List Char) : Bool :=
  match dropLit ['N', 'O', 'T'] cs with
  | some r1 => (dropLit "POPULATED".toList (r1.dropWhile isSpaceChar)).isSome
  | none => false

/-- `NO\s*POP` at the current position. -/
def dnsNoPopAlt (cs : List Char) : Bool :=
  match dropLit ['N', 'O'] cs with
  | some r1 => (dropLit "POP".toList (r1.dropWhile isSpaceChar)).isSome
  | none => false

/-- Any alternative of the DNS pattern at the current position; `prevWord`
says whether the character before this position is a word character (for
the `\b` of the first alternative). -/
def dnsMatchAt (prevWord : Bool) (cs : List Char) : Bool :=
  (!prevWord && dnsWordAlt cs) || dnsDoNotAlt cs || dnsNotPopAlt cs ||
    dnsNoPopAlt cs

/-- Regex search: try the pattern at every position. -/
def dnsScan (prevWord : Bool) (cs : List Char) : Bool :=
  dnsMatchAt prevWord cs ||
    match cs with
    | [] => false
    | c :: rest => dnsScan (isWordChar c) rest

/-! ## The universal data model (src/types.ts) -/

/-- A JS value of TS type `string | null | undefined` (the `mpn` field). -/
inductive MpnVal where
  | undef
  | nul
  | str (s : String)
deriving Repr, DecidableEq

/-- A JS value of TS type `string | string[]` (pins of a net connection). -/
inductive PinsVal where
  | one (p : String)
  | many (ps : List String)
deriving Repr, DecidableEq

/-- `Array.isArray(pins) ? pins : [pins]`. -/
def pinsArray : PinsVal → List String
  | .one p => [p]
  | .many ps => ps

/-- Pin entry for component pin mappings: a bare net-name string, or an
object `\x7b name, net \x7d` when the pin name adds meaning. -/
inductive PinEntry where
  | bare (net : String)
  | named (name : String) (net : String)
deriving Repr, DecidableEq

/-- Extract the net name from a pin entry. -/
def getPinNet : PinEntry → String
  | .bare net => net
  | .named _ net => net

/-- Create a pin entry, using an object only when the trimmed pin name is
non-empty and differs from the pin number. -/
def createPinEntry (pinNumber : String) (pinName : Option String)
    (netName : String) : PinEntry :=
  match pinName.map jsTrim with
  | some nm =>
    if nm ≠ "" && nm ≠ pinNumber then .named nm netName else .bare netName
  | none => .bare netName

/-- A component record of `ComponentDetails` (mpn, description, comment,
value, pins). -/
structure Component where
  mpn : MpnVal := .undef
  description : Option String := none
  comment : Option String := none
  value : Option String := none
  pins : List (String × PinEntry) := []
deriving Repr, DecidableEq

/-- Net connections: net name to (refdes to pins). -/
abbrev NetConnections : Type := List (String × List (String × PinsVal))

/-- Component details: refdes to component record. -/
abbrev ComponentDetails : Type := List (String × Component)

/-- A parsed netlist: the universal model. -/
structure ParsedNetlist where
  nets : NetConnections
  components : ComponentDetails
deriving Repr, DecidableEq

/-- `comp?.mpn` for a possibly absent component. -/
def compMpn : Option Component → MpnVal
  | none => .undef
  | some c => c.mpn

/-- `comp?.description` for a possibly absent component. -/
def compDescription : Option Component → Option String
  | none => none
  | some c => c.description

/-- `comp?.comment` for a possibly absent component. -/
def compComment : Option Component → Option String
  | none => none
  | some c => c.comment

/-- `comp?.value` for a possibly absent component. -/
def compValue : Option Component → Option String
  | none => none
  | some c => c.value

/-- Detect Do Not Stuff components using common markers: the DNS pattern is
searched in the haystack `mpn ?? "" ++ " " ++ description ?? "" ++ " " ++
comment ?? ""` (an absent component is not DNS). -/
def isDnsComponent (component : Option Component) : Bool :=
  match component with
  | none => false
  | some c =>
    let mpnStr := match c.mpn with
      | .str s => s
      | _ => ""
    let haystack :=
      mpnStr ++ " " ++ c.description.getD "" ++ " " ++ c.comment.getD ""
    dnsScan false (haystack.data.map Char.toUpper)

/-! ## Natural sort (src/circuit-traversal.ts lines 93-123) -/

/-- One part of a natural sort key: a lowercased text run or a numeric run. -/
inductive KeyPart where
  | txt (s : String)
  | num (n : Nat)
deriving Repr, DecidableEq

/-- The value of a digit run under `parseInt(part, 10)`. -/
def digitsToNat (ds : List Char) : Nat :=
  ds.foldl (fun n c => n * 10 + (c.toNat - 48)) 0

/-- One pass over the characters building the parts of
`str.split(/(\d+)/)` (which alternates possibly-empty text parts with
digit runs, beginning and ending with a text part) mapped through
`isNaN(parseInt(part)) ? part.toLowerCase() : parseInt(part)`.
`inNum` says whether the current run is a digit run; `run` holds the
current run reversed. -/
def naturalKeyGo : Bool → List Char → List Char → List KeyPart
  | inNum, run, [] =>
    if inNum then [KeyPart.num (digitsToNat run.reverse), KeyPart.txt ""]
    else [KeyPart.txt (jsToLower (String.mk run.reverse))]
  | inNum, run, c :: cs =>
    if c.isDigit then
      if inNum then naturalKeyGo true (c :: run) cs
      else KeyPart.txt (jsToLower (String.mk run.reverse)) :: naturalKeyGo true [c] cs
    else
      if inNum then KeyPart.num (digitsToNat run.reverse) :: naturalKeyGo false [c] cs
      else naturalKeyGo false (c :: run) cs

/-- Generate a natural sort key for strings with numbers. -/
def naturalSortKey (s : String) : List KeyPart :=
  naturalKeyGo false [] s.toList

/-- The kind alternation of natural sort keys: text and number parts
alternate, the expected kind of the next part given by `txtNext`. Actual
keys always start (and end) with a text part. -/
def altKey : Bool → List KeyPart → Bool
  | _, [] => true
  | txtNext, .txt _ :: rest => txtNext && altKey false rest
  | txtNext, .num _ :: rest => !txtNext && altKey true rest

/-- Code-point comparison of character lists (the JS relational operators
`<` and `>` on strings, which compare code units; identical on the ASCII
data of this repository). -/
def cmpCharList : List Char → List Char → Int
  | [], [] => 0
  | [], _ :: _ => -1
  | _ :: _, [] => 1
  | a :: as, b :: bs =>
    if a < b then -1 else if b < a then 1 else cmpCharList as bs

/-- String comparison via the JS `<` and `>` operators. -/
def cmpStr (a b : String) : Int := cmpCharList a.toList b.toList

/-- Compare two key parts with the JS `<` and `>` operators. Comparing a
number with a string coerces the string to NaN, making both `<` and `>`
false, so mixed parts compare equal; real keys always agree in kind at
every position, alternating text and number. -/
def cmpKeyPart : KeyPart → KeyPart → Int
  | .txt a, .txt b => cmpStr a b
  | .num a, .num b => if a < b then -1 else if b < a then 1 else 0
  | .txt _, .num _ => 0
  | .num _, .txt _ => 0

/-- The comparator loop of `naturalSort`: pointwise comparison over the
common length, then the length difference. -/
def cmpKeyList : List KeyPart → List KeyPart → Int
  | [], bs => -(bs.length : Int)
  | as, [] => (as.length : Int)
  | a :: as, b :: bs =>
    let c := cmpKeyPart a b
    if c = 0 then cmpKeyList as bs else c

/-- Natural sort comparator function (negative, zero or positive). -/
def naturalSort (a b : String) : Int :=
  cmpKeyList (naturalSortKey a) (naturalSortKey b)

/-- Model of `String.prototype.localeCompare` (only its sign is used by the
code): code-point comparison. -/
def localeCompare (a b : String) : Int := cmpStr a b

/-- Insert an element into a sorted list, before the first element it
compares `le` to: the earliest element of the input goes before its ties,
making the sort stable. -/
def insertSorted {α : Type} (le : α → α → Bool) (x : α) : List α → List α
  | [] => [x]
  | y :: ys => if le x y then x :: y :: ys else y :: insertSorted le x ys

/-- JS `Array.prototype.sort(cmp)`: a stable sort ordered by the
comparator, modelled as stable insertion sort with `le a b := cmp a b ≤ 0`. -/
def jsSortBy {α : Type} (cmp : α → α → Int) : List α → List α
  | [] => []
  | x :: xs => insertSorted (fun a b => decide (cmp a b ≤ 0)) x (jsSortBy cmp xs)

/-! ## The traversal engine (src/circuit-traversal.ts lines 154-408) -/

/-- A flat visited-pin record pushed by the traversal. -/
structure FlatCircuitEntry where
  refdes : String
  pin : String
  net : String
  mpn : MpnVal
  description : Option String
  comment : Option String
  value : Option String
  dns : Option Bool
deriving Repr, DecidableEq

/-- One connection of a grouped circuit component. -/
structure Connection where
  net : String
  pins : List String
deriving Repr, DecidableEq

/-- Component in circuit query result. -/
structure CircuitComponent where
  refdes : String
  mpn : MpnVal
  description : Option String
  comment : Option String
  value : Option String
  dns : Option Bool
  connections : List Connection
deriving Repr, DecidableEq

/-- Result of `traverseCircuitFromNet`. -/
structure TraversalResult where
  components : List CircuitComponent
  visited_nets : List String
  skipped : List (String × Nat)
deriving Repr, DecidableEq

/-- Options of `traverseCircuitFromNet` (absent options already defaulted). -/
structure TraversalOptions where
  skipTypes : List String := []
  includeDns : Bool := false
deriving Repr, DecidableEq

/-- The per-refdes accumulator of `groupCircuitPins` (`byRefdes` values). -/
structure GroupAcc where
  refdes : String
  mpn : MpnVal
  description : Option String
  comment : Option String
  value : Option String
  dns : Option Bool
  netToPins : List (String × List String)
deriving Repr, DecidableEq

/-- One entry of the `groupCircuitPins` fold: find or create the component
accumulator for the entry, then append the pin to the bucket of its net
unless already present. -/
def groupInsert (acc : List (String × GroupAcc)) (e : FlatCircuitEntry) :
    List (String × GroupAcc) :=
  match lookupAssoc acc e.refdes with
  | none =>
    acc ++ [(e.refdes,
      { refdes := e.refdes, mpn := e.mpn, description := e.description,
        comment := e.comment, value := e.value, dns := e.dns,
        netToPins := [(e.net, [e.pin])] })]
  | some g =>
    let buckets :=
      match lookupAssoc g.netToPins e.net with
      | none => g.netToPins ++ [(e.net, [e.pin])]
      | some ps =>
        if ps.contains e.pin then g.netToPins
        else setAssoc g.netToPins e.net (ps ++ [e.pin])
    setAssoc acc e.refdes { g with netToPins := buckets }

/-- Group flat pin connections by component (refdes), aggregating pins by
net; pins within a connection are natural-sorted and connections are sorted
by the natural order of their first pin. -/
def groupCircuitPins (flat : List FlatCircuitEntry) (visitedNets : List String)
    (skipped : List (String × Nat)) : TraversalResult :=
  let byRefdes := flat.foldl groupInsert []
  let components := byRefdes.map (fun p =>
    let g := p.2
    let connections := g.netToPins.map (fun b =>
      Connection.mk b.1 (jsSortBy naturalSort b.2))
    let connections := jsSortBy
      (fun a b => naturalSort (a.pins.headD "") (b.pins.headD "")) connections
    { refdes := g.refdes, mpn := g.mpn, description := g.description,
      comment := g.comment, value := g.value, dns := g.dns,
      connections := connections : CircuitComponent })
  ⟨components, visitedNets, skipped⟩

/-- The mutable state of one traversal: the visited-net set, the visited-pin
set (`"refdes:pin"` strings), the flat accumulator, the queue, and the skip
bookkeeping of `shouldSkipComponent` (all sets in insertion order). -/
structure TravState where
  visitedNets : List String
  visitedPins : List String
  flat : List FlatCircuitEntry
  queue : List String
  skipped : List (String × Nat)
  skippedComponents : List String
deriving Repr, DecidableEq

/-- `shouldSkipComponent`: DNS components are skipped unless `includeDns`;
a refdes whose uppercase form starts with a configured skip type is skipped,
counting each distinct refdes once per its first matching type. -/
def shouldSkipComponent (skipTypes : List String) (includeDns : Bool)
    (refdes : String) (isDns : Bool) (s : TravState) : Bool × TravState :=
  if !includeDns && isDns then (true, s)
  else
    let refdesUpper := jsToUpper refdes
    match skipTypes.find? (fun ty => strStartsWith refdesUpper ty) with
    | some matchedType =>
      if s.skippedComponents.contains refdes then (true, s)
      else
        (true, { s with
          skippedComponents := s.skippedComponents ++ [refdes],
          skipped := setAssoc s.skipped matchedType
            (((lookupAssoc s.skipped matchedType).getD 0) + 1) })
    | none => (false, s)

/-- The flat record pushed for a pin of the component under scrutiny. -/
def mkEntry (refdes pin net : String) (comp : Option Component)
    (dnsFlag : Option Bool) : FlatCircuitEntry :=
  { refdes := refdes, pin := pin, net := net, mpn := compMpn comp,
    description := compDescription comp, comment := compComment comp,
    value := compValue comp, dns := dnsFlag }

/-- The loop over the pins of an active component sitting on the other net
of a traversed passive: emit each not-yet-visited pin. -/
def emitActivePins (otherRefdes : String) (otherComp : Option Component)
    (otherDnsFlag : Option Bool) (otherNetName : String) :
    List String → TravState → TravState
  | [], s => s
  | activePin :: rest, s =>
    let pinId := otherRefdes ++ ":" ++ activePin
    if s.visitedPins.contains pinId then
      emitActivePins otherRefdes otherComp otherDnsFlag otherNetName rest s
    else
      emitActivePins otherRefdes otherComp otherDnsFlag otherNetName rest
        { s with
          visitedPins := s.visitedPins ++ [pinId],
          flat := s.flat ++
            [mkEntry otherRefdes activePin otherNetName otherComp otherDnsFlag] }

/-- The loop over the components of a freshly visited non-stop net reached
through a passive: passives set the follow flag, actives have their pins on
that net emitted (both subject to the skip filters). Returns the updated
state and the `hasPassiveToFollow` flag. -/
def inspectOtherNet (components : ComponentDetails) (skipTypes : List String)
    (includeDns : Bool) (otherNetName : String) :
    List (String × PinsVal) → TravState → Bool → TravState × Bool
  | [], s, hasPassive => (s, hasPassive)
  | (otherRefdes, pinsOnNet) :: rest, s, hasPassive =>
    let otherComp := lookupAssoc components otherRefdes
    let otherDns := isDnsComponent otherComp
    let skipRes := shouldSkipComponent skipTypes includeDns otherRefdes otherDns s
    let s := skipRes.2
    if skipRes.1 then
      inspectOtherNet components skipTypes includeDns otherNetName rest s hasPassive
    else
      let otherDnsFlag := if includeDns && otherDns then some true else none
      if isPassive otherRefdes then
        inspectOtherNet components skipTypes includeDns otherNetName rest s true
      else
        let s := emitActivePins otherRefdes otherComp otherDnsFlag otherNetName
          (pinsArray pinsOnNet) s
        inspectOtherNet components skipTypes includeDns otherNetName rest s hasPassive

/-- The loop over the other pins of a passive component: emit each fresh
other pin, mark its net visited, and for a fresh non-stop net inspect its
endpoints and enqueue it when a passive continues from it. -/
def processOtherPins (nets : NetConnections) (components : ComponentDetails)
    (skipTypes : List String) (includeDns : Bool) (refdes : String)
    (comp : Component) (dnsFlag : Option Bool) (pin : String) :
    List (String × PinEntry) → TravState → TravState
  | [], s => s
  | (otherPin, otherNet) :: rest, s =>
    if otherPin == pin then
      processOtherPins nets components skipTypes includeDns refdes comp dnsFlag pin rest s
    else
      let otherPinId := refdes ++ ":" ++ otherPin
      if s.visitedPins.contains otherPinId then
        processOtherPins nets components skipTypes includeDns refdes comp dnsFlag pin rest s
      else
        let otherNetName := getPinNet otherNet
        let s := { s with
          visitedPins := s.visitedPins ++ [otherPinId],
          flat := s.flat ++ [mkEntry refdes otherPin otherNetName (some comp) dnsFlag] }
        if s.visitedNets.contains otherNetName then
          processOtherPins nets components skipTypes includeDns refdes comp dnsFlag pin rest s
        else
          let s := { s with visitedNets := s.visitedNets ++ [otherNetName] }
          if isStopNet otherNetName then
            processOtherPins nets components skipTypes includeDns refdes comp dnsFlag pin rest s
          else
            let otherNetConns := (lookupAssoc nets otherNetName).getD []
            let res := inspectOtherNet components skipTypes includeDns otherNetName
              otherNetConns s false
            let s := if res.2 then { res.1 with queue := res.1.queue ++ [otherNetName] }
              else res.1
            processOtherPins nets components skipTypes includeDns refdes comp dnsFlag pin rest s

/-- The loop over the pins of one component on the current net: emit each
fresh pin, and for a passive component walk its other pins. -/
def processPins (nets : NetConnections) (components : ComponentDetails)
    (skipTypes : List String) (includeDns : Bool) (currentNet : String)
    (refdes : String) (comp : Option Component) (dnsFlag : Option Bool) :
    List String → TravState → TravState
  | [], s => s
  | pin :: rest, s =>
    let pinId := refdes ++ ":" ++ pin
    if s.visitedPins.contains pinId then
      processPins nets components skipTypes includeDns currentNet refdes comp dnsFlag rest s
    else
      let s := { s with
        visitedPins := s.visitedPins ++ [pinId],
        flat := s.flat ++ [mkEntry refdes pin currentNet comp dnsFlag] }
      let s := match comp with
        | some c =>
          if isPassive refdes then
            processOtherPins nets components skipTypes includeDns refdes c dnsFlag pin c.pins s
          else s
        | none => s
      processPins nets components skipTypes includeDns currentNet refdes comp dnsFlag rest s

/-- The loop over the components of the dequeued net. -/
def processNetComponents (nets : NetConnections) (components : ComponentDetails)
    (skipTypes : List String) (includeDns : Bool) (currentNet : String) :
    List (String × PinsVal) → TravState → TravState
  | [], s => s
  | (refdes, pins) :: rest, s =>
    let comp := lookupAssoc components refdes
    let dns := isDnsComponent comp
    let skipRes := shouldSkipComponent skipTypes includeDns refdes dns s
    let s := skipRes.2
    if skipRes.1 then
      processNetComponents nets components skipTypes includeDns currentNet rest s
    else
      let dnsFlag := if includeDns && dns then some true else none
      let s := processPins nets components skipTypes includeDns currentNet refdes comp
        dnsFlag (pinsArray pins) s
      processNetComponents nets components skipTypes includeDns currentNet rest s

/-- The BFS loop: dequeue a net and process it. A net is enqueued only
after being freshly added to `visitedNets` while being a key of `nets`, so
each net is dequeued at most once and `nets.length + 1` rounds of fuel are
enough for the queue to empty (the start net accounts for the extra one). -/
def runTraversal (nets : NetConnections) (components : ComponentDetails)
    (skipTypes : List String) (includeDns : Bool) :
    Nat → TravState → TravState
  | 0, s => s
  | fuel + 1, s =>
    match s.queue with
    | [] => s
    | currentNet :: restQueue =>
      let s := { s with queue := restQueue }
      let netConns := (lookupAssoc nets currentNet).getD []
      let s := processNetComponents nets components skipTypes includeDns currentNet
        netConns s
      runTraversal nets components skipTypes includeDns fuel s

/-- Traverse circuit from a starting net, following passive components
(BFS through R, L, C, FB; stops at active components and power/ground
nets). -/
def traverseCircuitFromNet (startNet : String) (nets : NetConnections)
    (components : ComponentDetails) (options : TraversalOptions) :
    TraversalResult :=
  if startNet = "" || (lookupAssoc nets startNet).isNone then
    ⟨[], [], []⟩
  else
    let skipTypes := options.skipTypes.map (fun ty => jsToUpper (jsTrim ty))
    let includeDns := options.includeDns
    let s0 : TravState := ⟨[startNet], [], [], [startNet], [], []⟩
    let sFinal := runTraversal nets components skipTypes includeDns
      (nets.length + 1) s0
    groupCircuitPins sFinal.flat sFinal.visitedNets sFinal.skipped

/-! ## The topology fingerprint (src/circuit-traversal.ts lines 125-152)

`computeCircuitHash` serializes a canonical form with `JSON.stringify` and
hashes it with SHA-256 (`crypto.createHash("sha256")`). The SHA-256 and the
needed fragment of `JSON.stringify` are implemented here over `Nat` bytes. -/

/-- A canonical connection of the hash input: field order pins, net. -/
structure CanonConn where
  pins : List String
  net : String
deriving Repr, DecidableEq

/-- A canonical component of the hash input: field order refdes, mpn,
connections. -/
structure CanonComp where
  refdes : String
  mpn : MpnVal
  connections : List CanonConn
deriving Repr, DecidableEq

/-- Hex digit characters. -/
def hexDigit (n : Nat) : Char :=
  if n < 10 then Char.ofNat (48 + n) else Char.ofNat (87 + n)

/-- Two-digit lowercase hex of a byte. -/
def byteHex (b : Nat) : List Char :=
  [hexDigit (b / 16 % 16), hexDigit (b % 16)]

/-- Four-digit uppercase-free hex (for `\u00XX` escapes). -/
def hex4 (n : Nat) : List Char :=
  [hexDigit (n / 4096 % 16), hexDigit (n / 256 % 16),
   hexDigit (n / 16 % 16), hexDigit (n % 16)]

/-- One character under the string escaping of `JSON.stringify`. -/
def jsonEscapeChar (c : Char) : List Char :=
  if c = '"' then ['\\', '"']
  else if c = '\\' then ['\\', '\\']
  else if c = '\x08' then ['\\', 'b']
  else if c = '\x0c' then ['\\', 'f']
  else if c = '\n' then ['\\', 'n']
  else if c = '\r' then ['\\', 'r']
  else if c = '\t' then ['\\', 't']
  else if c.toNat < 32 then '\\' :: 'u' :: hex4 c.toNat
  else [c]

/-- `JSON.stringify` of a string. -/
def jsonStr (str : String) : String :=
  "\"" ++ String.mk (str.toList.flatMap jsonEscapeChar) ++ "\""

/-- `JSON.stringify` of a string array. -/
def jsonStrArray (l : List String) : String :=
  "[" ++ joinSep "," (l.map jsonStr) ++ "]"

/-- `JSON.stringify` of a canonical connection. -/
def jsonConn (c : CanonConn) : String :=
  "\x7b\"pins\":" ++ jsonStrArray c.pins ++ ",\"net\":" ++ jsonStr c.net ++ "\x7d"

/-- `JSON.stringify` of a canonical component (an `undefined` mpn key is
omitted, a `null` one is kept). -/
def jsonCanonComp (c : CanonComp) : String :=
  "\x7b\"refdes\":" ++ jsonStr c.refdes ++
    (match c.mpn with
      | .undef => ""
      | .nul => ",\"mpn\":null"
      | .str s => ",\"mpn\":" ++ jsonStr s) ++
    ",\"connections\":[" ++ joinSep "," (c.connections.map jsonConn) ++
    "]\x7d"

/-- `JSON.stringify` of the canonical form. -/
def jsonCanon (l : List CanonComp) : String :=
  "[" ++ joinSep "," (l.map jsonCanonComp) ++ "]"

/-- UTF-8 bytes of one character. -/
def charUtf8 (c : Char) : List Nat :=
  let n := c.toNat
  if n < 128 then [n]
  else if n < 2048 then [192 + n / 64, 128 + n % 64]
  else if n < 65536 then [224 + n / 4096, 128 + n / 64 % 64, 128 + n % 64]
  else [240 + n / 262144, 128 + n / 4096 % 64, 128 + n / 64 % 64, 128 + n % 64]

/-- UTF-8 bytes of a string. -/
def utf8Bytes (s : String) : List Nat :=
  s.toList.flatMap charUtf8

/-- Truncation to 32 bits. -/
def w32 (n : Nat) : Nat := n % 4294967296

/-- 32-bit right rotation. -/
def rotr (x n : Nat) : Nat := w32 ((x >>> n) ||| (x <<< (32 - n)))

/-- The SHA-256 round constants. -/
def sha256K : List Nat :=
  [0x428A2F98, 0x71374491, 0xB5C0FBCF, 0xE9B5DBA5, 0x3956C25B, 0x59F111F1,
   0x923F82A4, 0xAB1C5ED5, 0xD807AA98, 0x12835B01, 0x243185BE, 0x550C7DC3,
   0x72BE5D74, 0x80DEB1FE, 0x9BDC06A7, 0xC19BF174, 0xE49B69C1, 0xEFBE4786,
   0x0FC19DC6, 0x240CA1CC, 0x2DE92C6F, 0x4A7484AA, 0x5CB0A9DC, 0x76F988DA,
   0x983E5152, 0xA831C66D, 0xB00327C8, 0xBF597FC7, 0xC6E00BF3, 0xD5A79147,
   0x06CA6351, 0x14292967, 0x27B70A85, 0x2E1B2138, 0x4D2C6DFC, 0x53380D13,
   0x650A7354, 0x766A0ABB, 0x81C2C92E, 0x92722C85, 0xA2BFE8A1, 0xA81A664B,
   0xC24B8B70, 0xC76C51A3, 0xD192E819, 0xD6990624, 0xF40E3585, 0x106AA070,
   0x19A4C116, 0x1E376C08, 0x2748774C, 0x34B0BCB5, 0x391C0CB3, 0x4ED8AA4A,
   0x5B9CCA4F, 0x682E6FF3, 0x748F82EE, 0x78A5636F, 0x84C87814, 0x8CC70208,
   0x90BEFFFA, 0xA4506CEB, 0xBEF9A3F7, 0xC67178F2]

/-- The SHA-256 initial state. -/
def sha256H0 : List Nat :=
  [0x6A09E667, 0xBB67AE85, 0x3C6EF372, 0xA54FF53A, 0x510E527F, 0x9B05688C,
   0x1F83D9AB, 0x5BE0CD19]

/-- SHA-256 message padding: append `0x80`, zero bytes to 56 mod 64, then
the bit length as eight big-endian bytes. -/
def sha256Pad (msg : List Nat) : List Nat :=
  let len := msg.length
  let zeros := (64 + 56 - (len + 1) % 64) % 64
  let bitLen := len * 8
  msg ++ [128] ++ List.replicate zeros 0 ++
    [bitLen / 72057594037927936 % 256, bitLen / 281474976710656 % 256,
     bitLen / 1099511627776 % 256, bitLen / 4294967296 % 256,
     bitLen / 16777216 % 256, bitLen / 65536 % 256,
     bitLen / 256 % 256, bitLen % 256]

/-- Split a byte list into 64-byte blocks (each step consumes at least one
byte, so `length + 1` rounds of fuel always empty the list). -/
def toBlocksGo : Nat → List Nat → List (List Nat)
  | 0, _ => []
  | _ + 1, [] => []
  | n + 1, b :: bs => (b :: bs).take 64 :: toBlocksGo n ((b :: bs).drop 64)

/-- Split a byte list into 64-byte blocks. -/
def toBlocks (bs : List Nat) : List (List Nat) :=
  toBlocksGo (bs.length + 1) bs


/-- Big-endian 32-bit words of a 64-byte block. -/
def toWords : List Nat → List Nat
  | b0 :: b1 :: b2 :: b3 :: rest =>
    (b0 * 16777216 + b1 * 65536 + b2 * 256 + b3) :: toWords rest
  | _ => []

/-- Extend the 16 message words to the 64 schedule words. -/
def extendSchedule : Nat → List Nat → List Nat
  | 0, ws => ws
  | n + 1, ws =>
    let t := ws.length
    let w15 := ws.getD (t - 15) 0
    let w2 := ws.getD (t - 2) 0
    let s0 := (rotr w15 7) ^^^ (rotr w15 18) ^^^ (w15 >>> 3)
    let s1 := (rotr w2 17) ^^^ (rotr w2 19) ^^^ (w2 >>> 10)
    extendSchedule n (ws ++ [w32 (ws.getD (t - 16) 0 + s0 + ws.getD (t - 7) 0 + s1)])

/-- One SHA-256 compression round. -/
def sha256Round (st : List Nat) (kw : Nat × Nat) : List Nat :=
  match st with
  | [a, b, c, d, e, f, g, h] =>
    let s1 := (rotr e 6) ^^^ (rotr e 11) ^^^ (rotr e 25)
    let ch := (e &&& f) ^^^ ((4294967295 - e) &&& g)
    let temp1 := w32 (h + s1 + ch + kw.1 + kw.2)
    let s0 := (rotr a 2) ^^^ (rotr a 13) ^^^ (rotr a 22)
    let maj := (a &&& b) ^^^ (a &&& c) ^^^ (b &&& c)
    let temp2 := w32 (s0 + maj)
    [w32 (temp1 + temp2), a, b, c, w32 (d + temp1), e, f, g]
  | st => st

/-- Process one 64-byte block. -/
def sha256Block (h : List Nat) (block : List Nat) : List Nat :=
  let ws := extendSchedule 48 (toWords block)
  let st := (sha256K.zip ws).foldl sha256Round h
  (h.zip st).map (fun p => w32 (p.1 + p.2))

/-- SHA-256 of a byte list, as 32 bytes. -/
def sha256Bytes (msg : List Nat) : List Nat :=
  let h := (toBlocks (sha256Pad msg)).foldl sha256Block sha256H0
  h.flatMap (fun w => [w / 16777216 % 256, w / 65536 % 256, w / 256 % 256, w % 256])

/-- SHA-256 of a byte list as a lowercase hex string. -/
def sha256Hex (msg : List Nat) : String :=
  String.mk ((sha256Bytes msg).flatMap byteHex)

/-- The canonical form of one component inside `computeCircuitHash`
(connections sorted by net with `localeCompare`; pins sorted naturally). -/
def canonComp (comp : CircuitComponent) : CanonComp :=
  { refdes := comp.refdes, mpn := comp.mpn,
    connections := jsSortBy (fun a b => localeCompare a.net b.net)
      (comp.connections.map (fun conn =>
        CanonConn.mk (jsSortBy naturalSort conn.pins) conn.net)) }

/-- Compute a stable hash for a circuit: `"0".repeat(16)` for an empty
list, else the first 16 hex characters of the SHA-256 of the canonical
JSON of the naturally-refdes-sorted components. -/
def computeCircuitHash (components : List CircuitComponent) : String :=
  if components.length = 0 then String.mk (List.replicate 16 '0')
  else
    let sortedComponents := jsSortBy (fun a b => naturalSort a.refdes b.refdes)
      components
    let canonicalForm := sortedComponents.map canonComp
    let canonicalJson := jsonCanon canonicalForm
    String.mk ((sha256Hex (utf8Bytes canonicalJson)).toList.take 16)

/-! ## MPN aggregation and the query layer (src/service.ts) -/

/-- `compactArray`: a single-element array compacted to its scalar. -/
inductive Compact (α : Type) where
  | scalar (a : α)
  | arr (xs : List α)
deriving Repr, DecidableEq

/-- Compact single-element arrays to scalar values. -/
def compactArray {α : Type} : List α → Compact α
  | [x] => .scalar x
  | xs => .arr xs

/-- Pin-to-net connection of an aggregate (pins possibly compacted). -/
structure PinNetConnection where
  net : String
  pins : Compact String
deriving Repr, DecidableEq

/-- Orientation variant of an aggregated group. -/
structure OrientationVariant where
  count : Nat
  refdes : Compact String
  connections : List PinNetConnection
deriving Repr, DecidableEq

/-- Aggregated component group (absent JSON keys are `none`). -/
structure AggregatedComponent where
  mpn : Option String
  description : Option String
  comment : Option String
  value : Option String
  dns : Option Bool
  total_count : Nat
  refdes : Option (Compact String)
  connections : Option (List PinNetConnection)
  orientations : Option (List OrientationVariant)
  notes : Option (List String)
deriving Repr, DecidableEq

/-- Result from a circuit query with MPN aggregation. -/
structure AggregatedCircuitResult where
  starting_point : String
  net : Option String
  total_components : Nat
  unique_configurations : Nat
  components_by_mpn : List AggregatedComponent
  visited_nets : List String
  circuit_hash : String
  skipped : Option (List (String × Nat))
deriving Repr, DecidableEq

/-- The note attached to groups without MPN data. -/
def MPN_MISSING_NOTE : String :=
  "MPN not found in exported netlist data. Tell user to update symbol properties in library, or to point you to the BOM"

/-- `comp.mpn?.trim() || null`. -/
def mpnTrimOrNull : MpnVal → Option String
  | .str s => let t := jsTrim s; if t = "" then none else some t
  | _ => none

/-- An orientation accumulator of `aggregateCircuitByMpn`. -/
structure OrientAcc where
  count : Nat
  refdes : List String
  connections : List Connection
deriving Repr, DecidableEq

/-- A group accumulator of `aggregateCircuitByMpn`. -/
structure MpnGroupAcc where
  mpn : Option String
  description : Option String
  comment : Option String
  value : Option String
  dns : Option Bool
  notes : Option (List String)
  orientations : List (String × OrientAcc)
deriving Repr, DecidableEq

/-- Create-then-increment of an orientation: a fresh key gets count 1, an
existing one is bumped; a truthy (non-empty) refdes is recorded. -/
def bumpOrientation (orients : List (String × OrientAcc)) (okey : String)
    (refdes : String) (conns : List Connection) : List (String × OrientAcc) :=
  match lookupAssoc orients okey with
  | none =>
    orients ++ [(okey,
      { count := 1, refdes := if refdes ≠ "" then [refdes] else [],
        connections := conns })]
  | some o =>
    setAssoc orients okey
      { o with
        count := o.count + 1
        refdes := if refdes ≠ "" then o.refdes ++ [refdes] else o.refdes }

/-- `comp.mpn?.trim() || null` of the aggregation loop. -/
def aggMpn (comp : CircuitComponent) : Option String := mpnTrimOrNull comp.mpn

/-- `comp.description?.trim() || ""` of the aggregation loop. -/
def aggDescription (comp : CircuitComponent) : String :=
  jsTrim (comp.description.getD "")

/-- `comp.value?.trim() || undefined` of the aggregation loop. -/
def aggValue (comp : CircuitComponent) : Option String :=
  match comp.value with
  | some v => let t := jsTrim v; if t = "" then none else some t
  | none => none

/-- `comp.dns ? true : undefined` of the aggregation loop. -/
def aggDns (comp : CircuitComponent) : Option Bool :=
  if comp.dns = some true then some true else none

/-- The aggregation key: the MPN when present, else the description, else
none (the component is unaggregatable). -/
def aggKey? (comp : CircuitComponent) : Option String :=
  match aggMpn comp with
  | some m => some ("mpn:" ++ m)
  | none =>
    if aggDescription comp ≠ "" then some ("desc:" ++ aggDescription comp)
    else none

/-- The group key `aggregationKey||sorted-net-pair||dns flag`. -/
def aggGroupKey (comp : CircuitComponent) (aggKey : String) : String :=
  let netPair := joinSep "|" (jsSortBy cmpStr (comp.connections.map (fun p => p.net)))
  aggKey ++ "||" ++ netPair ++ "||dns:" ++
    (if (aggDns comp).isSome then "1" else "0")

/-- The orientation key: the exact pins-per-net sequence. -/
def aggOrientKey (comp : CircuitComponent) : String :=
  joinSep "|" (comp.connections.map (fun p => joinSep "," p.pins ++ ":" ++ p.net))

/-- A fresh group accumulator for a component. -/
def mkGroupAcc (comp : CircuitComponent) : MpnGroupAcc :=
  { mpn := aggMpn comp,
    description := if aggDescription comp ≠ "" then some (aggDescription comp)
      else none,
    comment := comp.comment, value := aggValue comp, dns := aggDns comp,
    notes := if (aggMpn comp).isSome then none else some [MPN_MISSING_NOTE],
    orientations := bumpOrientation [] (aggOrientKey comp) comp.refdes
      comp.connections }

/-- The group-value backfill `if (value && !group.value) group.value = value`. -/
def aggValueTweak (comp : CircuitComponent) (g : MpnGroupAcc) : MpnGroupAcc :=
  if (aggValue comp).isSome ∧ g.value.isNone then { g with value := aggValue comp }
  else g

/-- One component of the `aggregateCircuitByMpn` loop: route it to the
unaggregatable list (no MPN and no description) or to its group keyed by
`(mpn or description, sorted net pair, dns flag)`, bumping its orientation
keyed by the exact pins-per-net sequence. -/
def aggStep (acc : List (String × MpnGroupAcc) × List CircuitComponent)
    (comp : CircuitComponent) :
    List (String × MpnGroupAcc) × List CircuitComponent :=
  match aggKey? comp with
  | none => (acc.1, acc.2 ++ [comp])
  | some aggKey =>
    let groupKey := aggGroupKey comp aggKey
    match lookupAssoc acc.1 groupKey with
    | none => (acc.1 ++ [(groupKey, mkGroupAcc comp)], acc.2)
    | some g =>
      let g₂ := aggValueTweak comp g
      let orients := bumpOrientation g₂.orientations (aggOrientKey comp)
        comp.refdes comp.connections
      (setAssoc acc.1 groupKey { g₂ with orientations := orients }, acc.2)

/-- Compact the pins of every connection. -/
def compactConnections (conns : List Connection) : List PinNetConnection :=
  conns.map (fun c => { net := c.net, pins := compactArray c.pins })

/-- Render an orientation accumulator. -/
def orientationToVariant (o : OrientAcc) : OrientationVariant :=
  { count := o.count, refdes := compactArray (jsSortBy naturalSort o.refdes),
    connections := compactConnections o.connections }

/-- Render one group: orientations sorted by count descending; a single
orientation is flattened into `refdes` and `connections`, several are
emitted as `orientations`. -/
def finishGroup (g : MpnGroupAcc) : AggregatedComponent :=
  let orientationsList := jsSortBy
    (fun a b => (b.count : Int) - (a.count : Int))
    (g.orientations.map (fun p => p.2))
  let totalCount := (orientationsList.map (fun o => o.count)).sum
  let base : AggregatedComponent :=
    { mpn := g.mpn, description := g.description, comment := g.comment,
      value := g.value, dns := g.dns, total_count := totalCount,
      refdes := none, connections := none, orientations := none,
      notes := g.notes }
  match orientationsList with
  | [o] =>
    { base with
      refdes := some (compactArray (jsSortBy naturalSort o.refdes))
      connections := some (compactConnections o.connections) }
  | _ =>
    { base with
      orientations := some (orientationsList.map orientationToVariant) }

/-- Render an unaggregatable component as a singleton aggregate. -/
def unaggComponent (comp : CircuitComponent) : AggregatedComponent :=
  { mpn := none, description := comp.description, comment := comp.comment,
    value := comp.value,
    dns := if comp.dns = some true then some true else none,
    total_count := 1, refdes := some (.scalar comp.refdes),
    connections := some (compactConnections comp.connections),
    orientations := none, notes := some [MPN_MISSING_NOTE] }

/-- Aggregate circuit components by MPN for compact output, sorting the
result by total count descending. -/
def aggregateCircuitByMpn (components : List CircuitComponent) :
    List AggregatedComponent :=
  let st := components.foldl aggStep ([], [])
  let result := st.1.map (fun p => finishGroup p.2) ++ st.2.map unaggComponent
  jsSortBy (fun a b => (b.total_count : Int) - (a.total_count : Int)) result

/-- A query answer: an aggregated result or a structured error. -/
inductive QueryResult where
  | ok (result : AggregatedCircuitResult)
  | error (msg : String)
deriving Repr, DecidableEq

/-- JS `String.prototype.split` with a one-character separator. -/
def splitCharList (sep : Char) : List Char → List (List Char)
  | [] => [[]]
  | c :: cs =>
    let rest := splitCharList sep cs
    if c = sep then [] :: rest
    else
      match rest with
      | r :: rs => (c :: r) :: rs
      | [] => [[c]]

/-- JS `String.prototype.split` with a one-character separator. -/
def splitOnChar (sep : Char) (s : String) : List String :=
  (splitCharList sep s.data).map String.mk

/-- Build the aggregated response from a traversal (the common tail of the
two query shapes). The design-file loading of src/service.ts is outside
the model: the queries take the already parsed netlist. An absent design
name is omitted from the not-found diagnostics. -/
def buildResponse (startingPoint : String) (net : Option String)
    (traversal : TraversalResult) : AggregatedCircuitResult :=
  let circuitHash := computeCircuitHash traversal.components
  let aggregated := aggregateCircuitByMpn traversal.components
  { starting_point := startingPoint, net := net,
    total_components := traversal.components.length,
    unique_configurations := aggregated.length,
    components_by_mpn := aggregated,
    visited_nets := traversal.visited_nets,
    circuit_hash := circuitHash,
    skipped := if traversal.skipped.length > 0 then some traversal.skipped
      else none }

/-- Query circuit starting from a net name. -/
def queryXnetByNetName (netlist : ParsedNetlist) (netName : String)
    (skipTypes : List String := []) (includeDns : Bool := false) :
    QueryResult :=
  if (lookupAssoc netlist.nets netName).isNone then
    .error ("Net '" ++ netName ++
      "' not found in design. Use search_nets() to find available nets.")
  else if isGroundNet netName then
    .error (netName ++ " is a ground net and cannot be queried.")
  else
    let traversal := traverseCircuitFromNet netName netlist.nets
      netlist.components { skipTypes := skipTypes, includeDns := includeDns }
    .ok (buildResponse netName none traversal)

/-- Query circuit starting from a component pin (`REFDES.PIN`, both sides
resolved case-insensitively; a ground pin is refused, an NC pin yields the
empty result with the `nc-` fingerprint, anything else falls through to
the net-shape traversal). -/
def queryXnetByPinName (netlist : ParsedNetlist) (pinSpec : String)
    (skipTypes : List String := []) (includeDns : Bool := false) :
    QueryResult :=
  match splitOnChar '.' pinSpec with
  | [refdesInput, pinInput] =>
    match netlist.components.find?
        (fun p => jsToLower p.1 == jsToLower (jsTrim refdesInput)) with
    | none =>
      .error ("Component '" ++ refdesInput ++
        "' not found in design. Use list_components() or search_components_by_refdes() to find available components.")
    | some (resolvedRefdes, component) =>
      match component.pins.find?
          (fun p => jsToLower p.1 == jsToLower (jsTrim pinInput)) with
      | none =>
        .error ("Pin '" ++ pinSpec ++ "' not found. Component " ++
          resolvedRefdes ++ " has pins: [" ++
          joinSep ", " (jsSortBy naturalSort (component.pins.map (fun p => p.1))) ++
          "]")
      | some (pinKey, entry) =>
        let connectedNet := getPinNet entry
        if isGroundNet connectedNet then
          .error ("Pin " ++ resolvedRefdes ++ "." ++ pinKey ++
            " is connected to " ++ connectedNet ++
            " (ground) and cannot be queried.")
        else if connectedNet = "NC" then
          .ok { starting_point := resolvedRefdes ++ "." ++ pinKey,
                net := some "NC", total_components := 0,
                unique_configurations := 0, components_by_mpn := [],
                visited_nets := ["NC"],
                circuit_hash := "nc-" ++ resolvedRefdes ++ "." ++ pinKey,
                skipped := none }
        else
          let traversal := traverseCircuitFromNet connectedNet netlist.nets
            netlist.components
            { skipTypes := skipTypes, includeDns := includeDns }
          .ok (buildResponse (resolvedRefdes ++ "." ++ pinKey)
            (some connectedNet) traversal)
  | _ =>
    .error ("Invalid pin name '" ++ pinSpec ++ "'. Expected 'REFDES.PIN'.")

/-! ## The Altium record-stream parser (src/parsers/altium/record-parser.ts) -/

/-- A flat Altium record: the synthetic index plus the decoded key/value
attributes (`record[key] = value` with the original key casing). -/
structure AltiumRecord where
  index : Nat
  attrs : List (String × String)
deriving Repr, DecidableEq

/-- The output of `parseRecords`. -/
structure AltiumSchematic where
  header : List AltiumRecord
  records : List AltiumRecord
deriving Repr, DecidableEq

/-- `key in record` for a decoded attribute key. -/
def hasKey (r : AltiumRecord) (k : String) : Bool :=
  (lookupAssoc r.attrs k).isSome

/-- The delimiter scan of `splitByDelimiter`: look for `00 00 7c`, cut the
segment up to three bytes before it, and resume after the pipe. Fuel is
decremented once per loop iteration; the index grows every iteration, so
`length + 1` rounds always reach the exit. -/
def splitLoopGo (buf : List Nat) : Nat → Nat → Nat → List (List Nat)
  | 0, _, _ => []
  | fuel + 1, start, i =>
    if i + 2 < buf.length then
      if buf.getD i 0 = 0 && buf.getD (i + 1) 0 = 0 && buf.getD (i + 2) 0 = 124 then
        let ds := max start (i - 3)
        let segs := if ds > start then [(buf.drop start).take (ds - start)] else []
        segs ++ splitLoopGo buf fuel (i + 3) (i + 3)
      else splitLoopGo buf fuel start (i + 1)
    else if start < buf.length then [buf.drop start] else []

/-- Split a buffer by the 5-byte delimiter pattern `XXX 00 00 7c`. -/
def splitByDelimiter (buf : List Nat) : List (List Nat) :=
  splitLoopGo buf (buf.length + 1) 0 0

/-- UTF-8 decoding of `Buffer.prototype.toString`, one scalar per step
(invalid sequences yield the replacement character and advance one byte);
fuel is decremented once per decoded character, and at least one byte is
consumed per character. -/
def utf8DecodeGo : Nat → List Nat → List Char
  | 0, _ => []
  | _ + 1, [] => []
  | fuel + 1, b :: rest =>
    if b < 128 then Char.ofNat b :: utf8DecodeGo fuel rest
    else if 194 ≤ b && b ≤ 223 then
      match rest with
      | b2 :: rest2 =>
        if 128 ≤ b2 && b2 ≤ 191 then
          Char.ofNat ((b - 192) * 64 + (b2 - 128)) :: utf8DecodeGo fuel rest2
        else '�' :: utf8DecodeGo fuel rest
      | [] => ['�']
    else if 224 ≤ b && b ≤ 239 then
      match rest with
      | b2 :: b3 :: rest3 =>
        let n := (b - 224) * 4096 + (b2 - 128) * 64 + (b3 - 128)
        if 128 ≤ b2 && b2 ≤ 191 && 128 ≤ b3 && b3 ≤ 191 && 2048 ≤ n &&
            !(55296 ≤ n && n ≤ 57343) then
          Char.ofNat n :: utf8DecodeGo fuel rest3
        else '�' :: utf8DecodeGo fuel rest
      | _ => '�' :: utf8DecodeGo fuel rest
    else if 240 ≤ b && b ≤ 244 then
      match rest with
      | b2 :: b3 :: b4 :: rest4 =>
        let n := (b - 240) * 262144 + (b2 - 128) * 4096 + (b3 - 128) * 64 +
          (b4 - 128)
        if 128 ≤ b2 && b2 ≤ 191 && 128 ≤ b3 && b3 ≤ 191 && 128 ≤ b4 &&
            b4 ≤ 191 && 65536 ≤ n && n ≤ 1114111 then
          Char.ofNat n :: utf8DecodeGo fuel rest4
        else '�' :: utf8DecodeGo fuel rest
      | _ => '�' :: utf8DecodeGo fuel rest
    else '�' :: utf8DecodeGo fuel rest

/-- UTF-8 decoding of a byte list. -/
def utf8Decode (bs : List Nat) : String :=
  String.mk (utf8DecodeGo (bs.length + 1) bs)

/-- Parse a single segment (`KEY=VALUE|KEY=VALUE|...`) into a record:
split on the pipe, split each pair at its first equals sign, trim the key
and keep it when non-empty. -/
def parseSegment (segment : List Nat) (index : Nat) : AltiumRecord :=
  let str := utf8Decode segment
  let pairs := splitOnChar '|' str
  let attrs := pairs.foldl (fun attrs pair =>
    if pair = "" then attrs
    else
      match pair.data.span (fun c => c != '=') with
      | (_, []) => attrs
      | (before, _ :: after) =>
        let key := jsTrim (String.mk before)
        let value := String.mk after
        if key ≠ "" then setAssoc attrs key value else attrs) []
  { index := index, attrs := attrs }

/-- Parse the FileHeader stream buffer: skip five leading bytes and one
trailing byte, split by the delimiter pattern, parse each non-empty
segment with its segment position as index, drop records with no key
beyond the index, and segregate `HEADER` records from `RECORD` records. -/
def parseRecords (buffer : List Nat) : AltiumSchematic :=
  let trimmedBuffer := (buffer.take (buffer.length - 1)).drop 5
  let segments := splitByDelimiter trimmedBuffer
  let datums := segments.enum.filterMap (fun p =>
    if p.2.length = 0 then none
    else
      let record := parseSegment p.2 p.1
      if record.attrs.length > 0 then some record else none)
  { header := datums.filter (fun d => hasKey d "HEADER"),
    records := datums.filter (fun d => hasKey d "RECORD") }

/-! ## The Altium pin population (src/parsers/altium/index.ts lines 189-218)

`parseAltium` builds the universal model as `convertNets` output for the
net index, `extractComponents` output for the component index (each pin
pre-created by `createPinEntry(pinNum, pinName, "")` with the empty-string
net placeholder), and then `populatePinNets(components, nets)` writing the
net names into the component pins. -/

/-- JS `for (const pin of pins)` over a `NetConnections` pin value of type
`string | string[]`: an array iterates its elements, a bare string iterates
its characters. -/
def forOfPins : PinsVal → List String
  | .one s => s.data.map (fun c => String.mk [c])
  | .many l => l

/-- One pin write of `populatePinNets`: a string entry is replaced by the
net name, an object entry keeps its name and gets its `net` set, an absent
entry is created as a bare net name. -/
def populateEntry (netName : String) (pins : List (String × PinEntry))
    (pin : String) : List (String × PinEntry) :=
  match lookupAssoc pins pin with
  | some (.bare _) => setAssoc pins pin (.bare netName)
  | some (.named name _) => setAssoc pins pin (.named name netName)
  | none => setAssoc pins pin (.bare netName)

/-- The pin loop of `populatePinNets` over one `(refdes, pins)` net entry. -/
def populateWritePins (netName : String) :
    List String → List (String × PinEntry) → List (String × PinEntry)
  | [], pins => pins
  | pin :: rest, pins =>
    populateWritePins netName rest (populateEntry netName pins pin)

/-- One `(refdes, pins)` net entry of `populatePinNets`: a refdes with no
component is skipped (`if (!component) continue;`), else every listed pin
is written with the net name. -/
def populateNode (netName : String) (comps : ComponentDetails)
    (refdes : String) (pv : PinsVal) : ComponentDetails :=
  match lookupAssoc comps refdes with
  | none => comps
  | some component =>
    setAssoc comps refdes
      { component with
        pins := populateWritePins netName (forOfPins pv) component.pins }

/-- Populate component pin-to-net mappings from the nets data: reverse
`{ netName: { refdes: [pinNumbers] } }` into
`components[refdes].pins[pin] = netName`. -/
def populatePinNets (components : ComponentDetails) (nets : NetConnections) :
    ComponentDetails :=
  nets.foldl (fun comps nc =>
    nc.2.foldl (fun comps rp => populateNode nc.1 comps rp.1 rp.2) comps)
    components

/-! ## The Cadence text parsers (src/parsers/cadence) -/

/-- JS `line.split(/\s+/)` on a line with no leading whitespace. -/
def wsSplitGo : Nat → List Char → List String
  | 0, _ => []
  | _ + 1, [] => []
  | fuel + 1, c :: cs =>
    let l := c :: cs
    let tok := l.takeWhile (fun d => !isSpaceChar d)
    let rest := (l.dropWhile (fun d => !isSpaceChar d)).dropWhile isSpaceChar
    String.mk tok :: wsSplitGo fuel rest

/-- JS `line.split(/\s+/)` on a line with no leading whitespace. -/
def wsSplit (s : String) : List String :=
  wsSplitGo (s.data.length + 1) s.data

/-- The lines of a Cadence file: split on newline, each line trimmed. -/
def cadenceLines (content : String) : List String :=
  (splitOnChar '\n' content).map jsTrim

/-- The state of the pstxnet line machine. -/
structure XnetState where
  netConnections : List (String × List (String × List String))
  currentNet : Option String
  currentPins : List (String × String)
deriving Repr, DecidableEq

/-- `saveCurrentNet`: group the accumulated `(refdes, pin)` pairs into the
per-refdes pin lists and store them under the current net name. -/
def saveCurrentNet (st : XnetState) :
    List (String × List (String × List String)) :=
  match st.currentNet with
  | none => st.netConnections
  | some net =>
    let netDict := st.currentPins.foldl (fun d rp =>
      match lookupAssoc d rp.1 with
      | none => d ++ [(rp.1, [rp.2])]
      | some ps => setAssoc d rp.1 (ps ++ [rp.2])) []
    setAssoc st.netConnections net netDict

/-- One line of the pstxnet machine: `NET_NAME` flushes and opens a
section, the next quoted line names the net, `NODE_NAME` lines contribute
`(refdes, pin)` pairs. -/
def xnetStep (st : XnetState) (line : String) : XnetState :=
  if line = "NET_NAME" then
    { netConnections := saveCurrentNet st, currentNet := none,
      currentPins := [] }
  else if st.currentNet.isNone && strStartsWith line "'" &&
      strEndsWith line "'" then
    { st with currentNet := some (String.mk (line.data.drop 1).dropLast) }
  else if strStartsWith line "NODE_NAME" then
    match wsSplit line with
    | _ :: refdes :: pinNumber :: _ =>
      { st with currentPins := st.currentPins ++ [(refdes, pinNumber)] }
    | _ => st
  else st

/-- Parse pstxnet file content. -/
def parsePstxnetContent (content : String) :
    List (String × List (String × List String)) :=
  let final := (cadenceLines content).foldl xnetStep
    { netConnections := [], currentNet := none, currentPins := [] }
  saveCurrentNet final

/-- The state of the pstxprt line machine. -/
structure XprtState where
  componentDetails : ComponentDetails
  partNames : List (String × String)
  currentRefdes : Option String
  currentPartName : Option String
  currentProperties : List (String × String)
deriving Repr, DecidableEq

/-- `saveCurrentComponent`: build the component (empty pins; MPN from
`MFGR_PN`, else the part name, else null; description from `DESCR`) and
record the part name for the pstchip join. -/
def saveCurrentComponent (st : XprtState) : XprtState :=
  match st.currentRefdes with
  | none => st
  | some refdes =>
    let mfgr := (lookupAssoc st.currentProperties "MFGR_PN").getD ""
    let pn := st.currentPartName.getD ""
    let mpn : MpnVal :=
      if mfgr ≠ "" then .str mfgr else if pn ≠ "" then .str pn else .nul
    let descr := (lookupAssoc st.currentProperties "DESCR").getD ""
    let component : Component :=
      { mpn := mpn,
        description := if descr ≠ "" then some descr else none,
        pins := [] }
    { st with
      componentDetails := setAssoc st.componentDetails refdes component,
      partNames := if pn ≠ "" then setAssoc st.partNames refdes pn
        else st.partNames }

/-- The regex `^(\S+)\s+'([^']+)'` of the component line. -/
def parseComponentLine (line : String) : Option (String × String) :=
  let cs := line.data
  let tok := cs.takeWhile (fun c => !isSpaceChar c)
  let rest := cs.dropWhile (fun c => !isSpaceChar c)
  if tok = [] then none
  else
    let ws := rest.takeWhile isSpaceChar
    let rest2 := rest.dropWhile isSpaceChar
    if ws = [] then none
    else
      match rest2 with
      | '\'' :: rest3 =>
        let content := rest3.takeWhile (fun c => c != '\'')
        let rest4 := rest3.dropWhile (fun c => c != '\'')
        if content ≠ [] && rest4 ≠ [] then
          some (String.mk tok, String.mk content)
        else none
      | _ => none

/-- The pstxprt property-value cleanup:
`.trim().replace(/^['"]|['";,]+$/g, '')`. -/
def stripXprtValue (v : String) : String :=
  let v1 := jsTrim v
  let v2 := match v1.data with
    | c :: rest => if c = '\'' || c = '"' then rest else c :: rest
    | [] => []
  String.mk (v2.reverse.dropWhile
    (fun c => c = '\'' || c = '"' || c = ';' || c = ',')).reverse

/-- One line of the pstxprt machine. -/
def xprtStep (st : XprtState) (line : String) : XprtState :=
  if line = "PART_NAME" then
    { saveCurrentComponent st with
      currentRefdes := none, currentPartName := none, currentProperties := [] }
  else if st.currentRefdes.isNone && line ≠ "" then
    if line.data.contains ' ' && (strEndsWith line ":" || strEndsWith line ":;") then
      match parseComponentLine line with
      | some rp =>
        { st with currentRefdes := some rp.1, currentPartName := some rp.2 }
      | none =>
        let refdes := String.mk (line.data.takeWhile (fun c => c != ' '))
        { st with currentRefdes := some refdes }
    else st
  else if line.data.contains '=' then
    match line.data.span (fun c => c != '=') with
    | (_, []) => st
    | (before, _ :: after) =>
      let props := setAssoc st.currentProperties (jsTrim (String.mk before))
        (stripXprtValue (String.mk after))
      { st with currentProperties := props }
  else st

/-- Result from parsing pstxprt content. -/
structure PstxprtResult where
  components : ComponentDetails
  partNames : List (String × String)
deriving Repr, DecidableEq

/-- Parse pstxprt file content. -/
def parsePstxprtContent (content : String) : PstxprtResult :=
  let final := saveCurrentComponent ((cadenceLines content).foldl xprtStep
    { componentDetails := [], partNames := [], currentRefdes := none,
      currentPartName := none, currentProperties := [] })
  { components := final.componentDetails, partNames := final.partNames }

/-- Part information from Cadence pstchip.dat. -/
structure ChipPart where
  part_name : String
  pins : List (String × String)
  body_properties : List (String × String)
deriving Repr, DecidableEq

/-- The state of the pstchip line machine. -/
structure ChipState where
  parts : List ChipPart
  currentPartName : Option String
  currentPins : List (String × String)
  currentBody : List (String × String)
  inPin : Bool
  inBody : Bool
  currentPinName : Option String
deriving Repr, DecidableEq

/-- JS `String.prototype.includes` on character lists. -/
def containsSub (needle : List Char) : List Char → Bool
  | [] => needle.isEmpty
  | c :: cs => needle.isPrefixOf (c :: cs) || containsSub needle cs

/-- The regex search `/primitive\s+'([^']+)'/`. -/
def findPrimitiveName : List Char → Option String
  | [] => none
  | c :: rest =>
    (match dropLit "primitive".toList (c :: rest) with
      | some r1 =>
        let ws := r1.takeWhile isSpaceChar
        let r2 := r1.dropWhile isSpaceChar
        if ws ≠ [] then
          match r2 with
          | '\'' :: r3 =>
            let content := r3.takeWhile (fun d => d != '\'')
            let r4 := r3.dropWhile (fun d => d != '\'')
            if content ≠ [] && r4 ≠ [] then some (String.mk content) else none
          | _ => none
        else none
      | none => none).orElse (fun _ => findPrimitiveName rest)

/-- The regex search `/'([^']+)':/`. -/
def findQuotedColon : List Char → Option String
  | [] => none
  | '\'' :: rest =>
    (match rest.takeWhile (fun c => c != '\''),
        rest.dropWhile (fun c => c != '\'') with
      | content, '\'' :: ':' :: _ =>
        if content ≠ [] then some (String.mk content) else none
      | _, _ => none).orElse (fun _ => findQuotedColon rest)
  | _ :: rest => findQuotedColon rest

/-- `saveCurrentPart`. -/
def saveCurrentPart (st : ChipState) : List ChipPart :=
  match st.currentPartName with
  | none => st.parts
  | some name =>
    st.parts ++
      [{ part_name := name
         pins := st.currentPins
         body_properties := st.currentBody }]

/-- The pstchip pin-number cleanup:
`.trim().replace(/^['";()]+|['";()]+$/g, "")`. -/
def stripChipPinValue (v : String) : String :=
  let isStrip := fun c =>
    c = '\'' || c = '"' || c = ';' || c = '(' || c = ')'
  let v1 := (jsTrim v).data.dropWhile isStrip
  String.mk (v1.reverse.dropWhile isStrip).reverse

/-- The pstchip body-value cleanup: `.trim().replace(/^['"]|['";]+$/g, "")`. -/
def stripChipBodyValue (v : String) : String :=
  let v1 := jsTrim v
  let v2 := match v1.data with
    | c :: rest => if c = '\'' || c = '"' then rest else c :: rest
    | [] => []
  String.mk (v2.reverse.dropWhile
    (fun c => c = '\'' || c = '"' || c = ';')).reverse

/-- One line of the pstchip machine. -/
def chipStep (st : ChipState) (line : String) : ChipState :=
  if strStartsWith line "primitive " then
    { parts := saveCurrentPart st,
      currentPartName := findPrimitiveName line.data,
      currentPins := [], currentBody := [], inPin := false, inBody := false,
      currentPinName := st.currentPinName }
  else if line = "pin" then { st with inPin := true, inBody := false }
  else if line = "end_pin;" then
    { st with inPin := false, currentPinName := none }
  else if line = "body" then { st with inBody := true, inPin := false }
  else if st.inPin && strStartsWith line "'" && line.data.contains ':' then
    match findQuotedColon line.data with
    | some name => { st with currentPinName := some name }
    | none => st
  else if st.inPin && containsSub "PIN_NUMBER".data line.data &&
      st.currentPinName.isSome then
    match line.data.span (fun c => c != '=') with
    | (_, []) => st
    | (_, _ :: after) =>
      let value := stripChipPinValue
        (String.mk (after.takeWhile (fun c => c != '=')))
      match st.currentPinName with
      | some pinName =>
        { st with currentPins := setAssoc st.currentPins pinName value }
      | none => st
  else if st.inBody && line.data.contains '=' then
    match line.data.span (fun c => c != '=') with
    | (_, []) => st
    | (before, _ :: after) =>
      let body := setAssoc st.currentBody (jsTrim (String.mk before))
        (stripChipBodyValue (String.mk after))
      { st with currentBody := body }
  else st

/-- Parse pstchip file content. -/
def parsePstchipContent (content : String) : List ChipPart :=
  saveCurrentPart ((cadenceLines content).foldl chipStep
    { parts := [], currentPartName := none, currentPins := [],
      currentBody := [], inPin := false, inBody := false,
      currentPinName := none })

/-! ## The Cadence post-join (src/parsers/cadence/index.ts) -/

/-- Build part name to (pin number to pin name) from pstchip data. -/
def buildPinNameMaps (chips : List ChipPart) :
    List (String × List (String × String)) :=
  chips.foldl (fun maps chip =>
    let pinMap := chip.pins.foldl (fun m p =>
      if p.2 = "" then m else setAssoc m p.2 p.1) []
    setAssoc maps chip.part_name pinMap) []

/-- Build part name to VALUE from pstchip body properties. -/
def buildValueMap (chips : List ChipPart) : List (String × String) :=
  chips.foldl (fun m chip =>
    match lookupAssoc chip.body_properties "VALUE" with
    | some v => if v ≠ "" then setAssoc m chip.part_name v else m
    | none => m) []

/-- The pin-writing loop of `buildCadencePinMap`: write each pin of one
`(refdes, pins)` net entry into the component, resolving its pstchip pin
name. -/
def cadWritePins (netName : String)
    (pinNameMap : Option (List (String × String))) :
    List String → Component → Component
  | [], c => c
  | pin :: rest, c =>
    let pinName := pinNameMap.bind (fun m => lookupAssoc m pin)
    cadWritePins netName pinNameMap rest
      { c with pins := setAssoc c.pins pin (createPinEntry pin pinName netName) }

/-- Process one `(refdes, pins)` entry of a net in `buildCadencePinMap`:
skip invalid refdes, ensure the component exists, fill its value from
pstchip when unset, and write every pin entry. -/
def cadencePinMapEntry (netName : String) (pinNameMaps :
      List (String × List (String × String)))
    (valueMap : List (String × String)) (partNames : List (String × String))
    (comps : ComponentDetails) (refdes : String) (pins : List String) :
    ComponentDetails :=
  if !isValidRefdes refdes then comps
  else
    let component := (lookupAssoc comps refdes).getD { pins := [] }
    let partName := lookupAssoc partNames refdes
    let component := match partName with
      | some pn =>
        if component.value.getD "" = "" then
          match lookupAssoc valueMap pn with
          | some v => if v ≠ "" then { component with value := some v }
            else component
          | none => component
        else component
      | none => component
    let pinNameMap := partName.bind (fun pn => lookupAssoc pinNameMaps pn)
    let component := cadWritePins netName pinNameMap pins component
    setAssoc comps refdes component

/-- Build pin mappings for Cadence netlists: for every `(net, refdes, pin)`
of the net index, write the pin entry (with its pstchip pin name) into the
component index, creating missing components and filling values. -/
def buildCadencePinMap (nets : List (String × List (String × List String)))
    (components : ComponentDetails) (chips : List ChipPart)
    (partNames : List (String × String)) : ComponentDetails :=
  let pinNameMaps := buildPinNameMaps chips
  let valueMap := buildValueMap chips
  nets.foldl (fun comps nc =>
    nc.2.foldl (fun comps rp =>
      cadencePinMapEntry nc.1 pinNameMaps valueMap partNames comps rp.1 rp.2)
      comps) components

/-- The Cadence nets in the universal `NetConnections` shape (pin lists
are arrays). -/
def cadenceNets (nets : List (String × List (String × List String))) :
    NetConnections :=
  nets.map (fun nc => (nc.1, nc.2.map (fun rp => (rp.1, PinsVal.many rp.2))))

/-- The content-level Cadence design parse (`parseCadenceDesign` without
the file discovery and reading): parse the three companion files and apply
the pin-map join. -/
def parseCadenceContent (xnet xprt xchip : String) : ParsedNetlist :=
  let nets := parsePstxnetContent xnet
  let pr := parsePstxprtContent xprt
  let chips := parsePstchipContent xchip
  let components := buildCadencePinMap nets pr.components chips pr.partNames
  { nets := cadenceNets nets, components := components }

/-! ## Helper predicates and projections used by the claim statements -/

/-- The `(net, refdes, pin)` triples listed by the raw Cadence net index. -/
def cadTriples (nets : List (String × List (String × List String))) :
    List (String × String × String) :=
  nets.flatMap (fun nc =>
    nc.2.flatMap (fun rp => rp.2.map (fun pin => (nc.1, rp.1, pin))))

/-- The `(net, refdes, pin)` triples listed by a universal net index. -/
def netTriples (nets : NetConnections) : List (String × String × String) :=
  nets.flatMap (fun nc =>
    nc.2.flatMap (fun rp =>
      (pinsArray rp.2).map (fun pin => (nc.1, rp.1, pin))))

/-- The `(net, refdes, pin)` triples in the order the `for..of` pin loop
of `populatePinNets` visits them (character-wise for bare-string pin
values). -/
def forTriples (nets : NetConnections) : List (String × String × String) :=
  nets.flatMap (fun nc =>
    nc.2.flatMap (fun rp =>
      (forOfPins rp.2).map (fun pin => (nc.1, rp.1, pin))))

/-- The net written last for a `(refdes, pin)` pair by a triple sequence. -/
def lastNet? (P : List (String × String × String)) (r pin : String) :
    Option String :=
  (P.reverse.find? (fun t => t.2.1 == r && t.2.2 == pin)).map (fun t => t.1)

/-- The invariant of the `buildCadencePinMap` fold over the processed
triple prefix: every stored pin entry is a valid-refdes triple of the
prefix, and every `(refdes, pin)` pair written so far resolves to the net
of its last write. -/
def CadInv (P : List (String × String × String))
    (comps : ComponentDetails) : Prop :=
  (∀ r comp, lookupAssoc comps r = some comp →
    ∀ q ∈ comp.pins,
      isValidRefdes r = true ∧ (getPinNet q.2, r, q.1) ∈ P) ∧
  (∀ r pin n, isValidRefdes r = true → lastNet? P r pin = some n →
    ∃ comp pe, lookupAssoc comps r = some comp ∧
      lookupAssoc comp.pins pin = some pe ∧ getPinNet pe = n)

/-- The invariant of the `populatePinNets` fold over the processed triple
prefix, relative to the input components: the key set is unchanged, every
stored pin entry is an input entry or a triple of the prefix with its
embedded net, and every `(refdes, pin)` pair written so far resolves to
the net of its last write whenever the refdes had a component. -/
def AltInv (comps0 : ComponentDetails) (P : List (String × String × String))
    (comps : ComponentDetails) : Prop :=
  (∀ r, (lookupAssoc comps r).isSome = (lookupAssoc comps0 r).isSome) ∧
  (∀ r comp, lookupAssoc comps r = some comp →
    ∀ q ∈ comp.pins,
      (∃ comp0, lookupAssoc comps0 r = some comp0 ∧ q ∈ comp0.pins) ∨
      (getPinNet q.2, r, q.1) ∈ P) ∧
  (∀ r pin n, lastNet? P r pin = some n →
    (lookupAssoc comps0 r).isSome = true →
    ∃ comp pe, lookupAssoc comps r = some comp ∧
      lookupAssoc comp.pins pin = some pe ∧ getPinNet pe = n)

/-- Boolean duplicate check on strings. -/
def nodupB : List String → Bool
  | [] => true
  | x :: xs => !xs.contains x && nodupB xs

/-- The `total_components` field of a successful query. -/
def queryTotal? : QueryResult → Option Nat
  | .ok r => some r.total_components
  | .error _ => none

/-- Whether a successful query satisfies the total-count partition: the sum
of `total_count` over the aggregate equals `total_components` (errors hold
vacuously). -/
def sumsMatch : QueryResult → Bool
  | .ok r =>
    r.total_components == (r.components_by_mpn.map (fun g => g.total_count)).sum
  | .error _ => true

/-! ## Concrete models used by the claims

These mirror the literal models of the specification scenarios and of the
repository test suite. -/

/-- Net index of the through-passive scenario. -/
def tprNets : NetConnections :=
  [("A", [("R1", .one "1")]), ("B", [("R1", .one "2"), ("R2", .one "1")]),
   ("C", [("R2", .one "2")])]

/-- Component index of the through-passive scenario. -/
def tprComponents : ComponentDetails :=
  [("R1", { mpn := .str "10k", pins := [("1", .bare "A"), ("2", .bare "B")] }),
   ("R2", { mpn := .str "20k", pins := [("1", .bare "B"), ("2", .bare "C")] })]

/-- The through-passive scenario as a parsed netlist. -/
def tprNetlist : ParsedNetlist :=
  { nets := tprNets, components := tprComponents }

/-- Net index with an active component sitting on a stop net. -/
def stopNets : NetConnections :=
  [("SIG", [("R1", .one "1")]),
   ("+3V3", [("R1", .one "2"), ("U1", .one "1")])]

/-- Component index with an active component sitting on a stop net. -/
def stopComponents : ComponentDetails :=
  [("R1", { mpn := .str "10k", pins := [("1", .bare "SIG"), ("2", .bare "+3V3")] }),
   ("U1", { mpn := .str "IC", pins := [("1", .bare "+3V3"), ("2", .bare "GND")] })]

/-- The ground-query scenario of the specification. -/
def gndNetlist : ParsedNetlist :=
  { nets := [("GND", [("R1", .one "2")]), ("SIG", [("R1", .one "1")])],
    components :=
      [("R1", { mpn := .str "10k",
                pins := [("1", .bare "SIG"), ("2", .bare "GND")] })] }

/-- The component of the NC-pin scenario. -/
def ncU1 : Component :=
  { mpn := .str "IC", pins := [("1", .bare "SIG"), ("7", .bare "NC")] }

/-- The NC-pin scenario of the specification. -/
def ncNetlist : ParsedNetlist :=
  { nets := [("SIG", [("U1", .one "1")])], components := [("U1", ncU1)] }

/-- A hash-input component whose refdes R1 natural-sort-ties with R01. -/
def hashCompA : CircuitComponent :=
  { refdes := "R1", mpn := .str "10k", description := none, comment := none,
    value := none, dns := none,
    connections := [Connection.mk "A" ["1"], Connection.mk "B" ["2"]] }

/-- A hash-input component whose refdes R01 natural-sort-ties with R1. -/
def hashCompB : CircuitComponent :=
  { refdes := "R01", mpn := .str "20k", description := none, comment := none,
    value := none, dns := none,
    connections := [Connection.mk "B" ["1"], Connection.mk "C" ["2"]] }

/-- A record stream carrying a HEADER record ahead of a RECORD record. -/
def headerThenRecordBuffer : List Nat :=
  [0, 0, 0, 0, 0] ++ utf8Bytes "HEADER=X|" ++ [0, 0, 0, 0, 0, 124] ++
    utf8Bytes "RECORD=1|Designator=U1|" ++ [0]

/-- The Cadence pstxnet content with an instance-path node. -/
def instancePathXnet : String :=
  "NET_NAME\n'A'\nNODE_NAME\t@BAD.X 1\n"

/-- The Cadence pstxnet content listing the same `(refdes, pin)` node
under two nets. -/
def dupPinXnet : String :=
  "NET_NAME\n'A'\nNODE_NAME\tR1 1\nNET_NAME\n'B'\nNODE_NAME\tR1 1\n"

/-- The visited-pin identifier of a flat record. -/
def pinIdOf (e : FlatCircuitEntry) : String := e.refdes ++ ":" ++ e.pin

/-- A flat record respects the stop-net boundary: its net is not a stop
net, or is the start net itself, or the record belongs to a passive. -/
def entryOk (startNet : String) (e : FlatCircuitEntry) : Bool :=
  !isStopNet e.net || e.net == startNet || isPassive e.refdes

/-- The loop invariant of the traversal state: emitted pin identifiers are
distinct and registered in the visited-pin set, every emitted record
respects the stop-net boundary, and every queued net is a non-stop net or
the start net. -/
def TravInv (startNet : String) (s : TravState) : Prop :=
  (s.flat.map pinIdOf).Nodup ∧
  (∀ e ∈ s.flat, pinIdOf e ∈ s.visitedPins) ∧
  (∀ e ∈ s.flat, entryOk startNet e = true) ∧
  (∀ q ∈ s.queue, isStopNet q = false ∨ q = startNet)

/-- The visited-pin identifiers recorded in one accumulator entry of the
grouping fold. -/
def groupAccIds (p : String × GroupAcc) : List String :=
  p.2.netToPins.flatMap (fun b => b.2.map (fun pin => p.2.refdes ++ ":" ++ pin))

/-- The visited-pin identifiers recorded in the grouping accumulator. -/
def groupIds (acc : List (String × GroupAcc)) : List String :=
  acc.flatMap groupAccIds

/-- The invariant of the grouping fold over the processed prefix of the
flat record list: the recorded pin identifiers are distinct, each
accumulator stores its own key as refdes, and every recorded pin and every
bucket traces back to a processed flat record. -/
def GroupFoldInv (processed : List FlatCircuitEntry)
    (acc : List (String × GroupAcc)) : Prop :=
  (groupIds acc).Nodup ∧
  (∀ p ∈ acc, p.2.refdes = p.1) ∧
  (∀ p ∈ acc, ∀ b ∈ p.2.netToPins, ∀ pin ∈ b.2,
    ∃ e ∈ processed, e.refdes = p.2.refdes ∧ e.pin = pin ∧ e.net = b.1) ∧
  (∀ p ∈ acc, ∀ b ∈ p.2.netToPins,
    ∃ e ∈ processed, e.refdes = p.2.refdes ∧ e.net = b.1)

/-- The number of components accounted for by a group accumulator. -/
def orientTotal (g : MpnGroupAcc) : Nat :=
  (g.orientations.map (fun q => q.2.count)).sum

/-! ## Theorems for the claims -/

/-- C5: in the through-passive model, traversal from net A returns exactly
the two components R1 and R2, visits nets A, B and C, and the query
reports total_components 2. -/
theorem through_passive_reach :
    (traverseCircuitFromNet "A" tprNets tprComponents {}).components.map
        (fun c => c.refdes) = ["R1", "R2"] ∧
    (traverseCircuitFromNet "A" tprNets tprComponents {}).visited_nets =
      ["A", "B", "C"] ∧
    queryTotal? (queryXnetByNetName tprNetlist "A") = some 2 := by
  refine ⟨by decide, by decide, by decide⟩

/-- C1 (counterexample): with the resistor R1 between SIG and the stop net
+3V3 and the active, unskipped component U1 directly on +3V3, traversal
from SIG marks +3V3 visited but emits no pin record for U1 — the stop-net
endpoints are not inspected, contradicting the claim that active pins on a
freshly visited stop net are emitted. -/
theorem stop_net_endpoints_not_emitted :
    isStopNet "+3V3" = true ∧ isPassive "U1" = false ∧
    isDnsComponent (lookupAssoc stopComponents "U1") = false ∧
    (traverseCircuitFromNet "SIG" stopNets stopComponents {}).visited_nets =
      ["SIG", "+3V3"] ∧
    (traverseCircuitFromNet "SIG" stopNets stopComponents {}).components.map
      (fun c => c.refdes) = ["R1"] := by
  refine ⟨by decide, by decide, by decide, by decide, by decide⟩

/-- C6 (counterexample): `computeCircuitHash` is not invariant under
permutation of its input: the refdes R1 and R01 have equal natural sort
keys, the stable sort keeps them in input order, and the two orders hash
differently. -/
theorem circuit_hash_not_permutation_invariant :
    [hashCompA, hashCompB].Perm [hashCompB, hashCompA] ∧
    naturalSort hashCompA.refdes hashCompB.refdes = 0 ∧
    computeCircuitHash [hashCompA, hashCompB] ≠
      computeCircuitHash [hashCompB, hashCompA] := by
  refine ⟨by decide, by decide, by decide⟩

/-- C4 (counterexample): in a stream carrying a HEADER record ahead of a
RECORD record, the single body record is assigned index 1 — its position
in the parsed segment sequence — not 0, its position within the body
list. -/
theorem record_index_counterexample :
    (parseRecords headerThenRecordBuffer).header.length = 1 ∧
    (parseRecords headerThenRecordBuffer).records.map (fun r => r.index) =
      [1] := by
  refine ⟨by decide, by decide⟩

/-- C8: a ground net present in the net index is refused: the query returns
an error whose message contains "ground net" and "cannot be queried". -/
theorem ground_net_query_refused (netlist : ParsedNetlist) (netName : String)
    (hmem : (lookupAssoc netlist.nets netName).isSome = true)
    (hground : isGroundNet netName = true) :
    ∃ msg, queryXnetByNetName netlist netName = .error msg ∧
      "ground net".data <:+: msg.data ∧
      "cannot be queried".data <:+: msg.data := by
  refine ⟨netName ++ " is a ground net and cannot be queried.", ?_, ?_, ?_⟩
  · unfold queryXnetByNetName
    rw [show (lookupAssoc netlist.nets netName).isNone = false from by
      cases h : lookupAssoc netlist.nets netName with
      | none => rw [h] at hmem; simp at hmem
      | some v => rfl]
    simp [hground]
  · refine ⟨netName.data ++ " is a ".data, " and cannot be queried.".data, ?_⟩
    rw [String.data_append, List.append_assoc, List.append_assoc]
    rfl
  · refine ⟨netName.data ++ " is a ground net and ".data, ".".data, ?_⟩
    rw [String.data_append, List.append_assoc, List.append_assoc]
    rfl

/-- C8 (witness): the ground query of the specification scenario. -/
theorem ground_net_query_refused_witness :
    ∃ msg, queryXnetByNetName gndNetlist "GND" = .error msg ∧
      "ground net".data <:+: msg.data ∧
      "cannot be queried".data <:+: msg.data :=
  ground_net_query_refused gndNetlist "GND" (by decide) (by decide)

/-- C9: a pin query on an unconnected pin (net NC) succeeds with the empty
result: net NC, zero components, empty aggregate, and the fingerprint
`nc-<resolvedRefdes>.<resolvedPin>`. -/
theorem nc_pin_query_empty (netlist : ParsedNetlist)
    (pinSpec rIn pIn resolvedRefdes pinKey : String) (component : Component)
    (entry : PinEntry)
    (hsplit : splitOnChar '.' pinSpec = [rIn, pIn])
    (hfind : netlist.components.find?
      (fun p => jsToLower p.1 == jsToLower (jsTrim rIn)) =
      some (resolvedRefdes, component))
    (hpin : component.pins.find?
      (fun p => jsToLower p.1 == jsToLower (jsTrim pIn)) =
      some (pinKey, entry))
    (hnc : getPinNet entry = "NC") :
    queryXnetByPinName netlist pinSpec =
      .ok { starting_point := resolvedRefdes ++ "." ++ pinKey,
            net := some "NC", total_components := 0,
            unique_configurations := 0, components_by_mpn := [],
            visited_nets := ["NC"],
            circuit_hash := "nc-" ++ resolvedRefdes ++ "." ++ pinKey,
            skipped := none } := by
  unfold queryXnetByPinName
  rw [hsplit]
  simp only [hfind, hpin, hnc]
  rw [show isGroundNet "NC" = false from by decide]
  simp

/-- C9 (witness): the NC query of the specification scenario. -/
theorem nc_pin_query_empty_witness :
    queryXnetByPinName ncNetlist "U1.7" =
      .ok { starting_point := "U1.7", net := some "NC", total_components := 0,
            unique_configurations := 0, components_by_mpn := [],
            visited_nets := ["NC"], circuit_hash := "nc-U1.7",
            skipped := none } :=
  nc_pin_query_empty ncNetlist "U1.7" "U1" "7" "U1" "7" ncU1 (.bare "NC")
    (by decide) (by decide) (by decide) (by decide)

/-- C3: a resolvable pin that is neither ground-connected nor NC falls
through to the net traversal of its embedded net: the two query shapes
agree on every field except the starting point and the presence of the
net field (the net presence hypothesis is the model-symmetry invariant of
the decoder boundary). -/
theorem pin_query_matches_net_query (netlist : ParsedNetlist)
    (pinSpec rIn pIn resolvedRefdes pinKey n : String) (component : Component)
    (entry : PinEntry) (skipTypes : List String) (includeDns : Bool)
    (hsplit : splitOnChar '.' pinSpec = [rIn, pIn])
    (hfind : netlist.components.find?
      (fun p => jsToLower p.1 == jsToLower (jsTrim rIn)) =
      some (resolvedRefdes, component))
    (hpin : component.pins.find?
      (fun p => jsToLower p.1 == jsToLower (jsTrim pIn)) =
      some (pinKey, entry))
    (hnet : getPinNet entry = n)
    (hground : isGroundNet n = false)
    (hnc : n ≠ "NC")
    (hmem : (lookupAssoc netlist.nets n).isSome = true) :
    ∃ rp rn,
      queryXnetByPinName netlist pinSpec skipTypes includeDns = .ok rp ∧
      queryXnetByNetName netlist n skipTypes includeDns = .ok rn ∧
      rp.components_by_mpn = rn.components_by_mpn ∧
      rp.total_components = rn.total_components ∧
      rp.unique_configurations = rn.unique_configurations ∧
      rp.visited_nets = rn.visited_nets ∧
      rp.circuit_hash = rn.circuit_hash ∧
      rp.skipped = rn.skipped ∧
      rp.starting_point = resolvedRefdes ++ "." ++ pinKey ∧
      rp.net = some n ∧ rn.starting_point = n ∧ rn.net = none := by
  have hmemne : (lookupAssoc netlist.nets n).isNone = false := by
    cases h : lookupAssoc netlist.nets n with
    | none => rw [h] at hmem; simp at hmem
    | some v => rfl
  refine ⟨buildResponse (resolvedRefdes ++ "." ++ pinKey) (some n)
      (traverseCircuitFromNet n netlist.nets netlist.components
        { skipTypes := skipTypes, includeDns := includeDns }),
    buildResponse n none
      (traverseCircuitFromNet n netlist.nets netlist.components
        { skipTypes := skipTypes, includeDns := includeDns }), ?_, ?_,
    rfl, rfl, rfl, rfl, rfl, rfl, rfl, rfl, rfl, rfl⟩
  · unfold queryXnetByPinName
    rw [hsplit]
    simp only [hfind, hpin, hnet, hground, Bool.false_eq_true, if_false, hnc,
      if_neg hnc]
  · unfold queryXnetByNetName
    rw [hmemne]
    simp [hground]

/-- C3 (witness): pin R1.1 of the ground scenario model resolves to net
SIG and the two query shapes agree there. -/
theorem pin_query_matches_net_query_witness :
    ∃ rp rn,
      queryXnetByPinName gndNetlist "R1.1" [] false = .ok rp ∧
      queryXnetByNetName gndNetlist "SIG" [] false = .ok rn ∧
      rp.components_by_mpn = rn.components_by_mpn ∧
      rp.total_components = rn.total_components ∧
      rp.unique_configurations = rn.unique_configurations ∧
      rp.visited_nets = rn.visited_nets ∧
      rp.circuit_hash = rn.circuit_hash ∧
      rp.skipped = rn.skipped ∧
      rp.starting_point = "R1" ++ "." ++ "1" ∧
      rp.net = some "SIG" ∧ rn.starting_point = "SIG" ∧ rn.net = none :=
  pin_query_matches_net_query gndNetlist "R1.1" "R1" "1" "R1" "1" "SIG"
    { mpn := .str "10k", pins := [("1", .bare "SIG"), ("2", .bare "GND")] }
    (.bare "SIG") [] false (by decide) (by decide) (by decide) (by decide)
    (by decide) (by decide) (by decide)

/-! ## Permutation facts about the stable sort (used by C6 and C10) -/

/-- Inserting into a list yields a permutation of consing. -/
theorem insertSorted_perm {α : Type} (le : α → α → Bool) (x : α) :
    ∀ l : List α, (insertSorted le x l).Perm (x :: l)
  | [] => List.Perm.refl _
  | y :: ys => by
    unfold insertSorted
    by_cases h : le x y = true
    · rw [if_pos h]
    · rw [if_neg h]
      exact ((insertSorted_perm le x ys).cons y).trans (List.Perm.swap x y ys)

/-- The modelled JS sort permutes its input. -/
theorem jsSortBy_perm {α : Type} (cmp : α → α → Int) :
    ∀ l : List α, (jsSortBy cmp l).Perm l
  | [] => List.Perm.refl _
  | x :: xs => by
    unfold jsSortBy
    exact (insertSorted_perm _ x (jsSortBy cmp xs)).trans
      ((jsSortBy_perm cmp xs).cons x)

/-! ## C10: the aggregate partitions the traversed components -/

/-- Bumping an orientation adds exactly one to the accounted count. -/
theorem bumpOrientation_sum (okey refdes : String) (conns : List Connection) :
    ∀ os : List (String × OrientAcc),
      ((bumpOrientation os okey refdes conns).map (fun q => q.2.count)).sum =
        ((os.map (fun q => q.2.count)).sum) + 1
  | [] => by simp [bumpOrientation, lookupAssoc]
  | (k₁, o₁) :: rest => by
    cases h : (k₁ == okey) with
    | true =>
      simp only [bumpOrientation, lookupAssoc, List.find?, h, Option.map_some]
      simp [setAssoc, h]
      omega
    | false =>
      have hstep : bumpOrientation ((k₁, o₁) :: rest) okey refdes conns =
          (k₁, o₁) :: bumpOrientation rest okey refdes conns := by
        simp only [bumpOrientation, lookupAssoc, List.find?, h]
        cases hl : (rest.find? (fun p => p.1 == okey)) with
        | none => simp [hl, setAssoc, h]
        | some o => simp [hl, setAssoc, h]
      rw [hstep]
      simp only [List.map_cons, List.sum_cons,
        bumpOrientation_sum okey refdes conns rest]
      omega

/-- Replacing a present key changes a mapped sum by the value difference. -/
theorem sum_setAssoc_of_lookup {β : Type} (f : β → Nat) (k : String)
    (g' : β) :
    ∀ (m : List (String × β)) (g : β), lookupAssoc m k = some g →
      ((setAssoc m k g').map (fun p => f p.2)).sum + f g =
        ((m.map (fun p => f p.2)).sum) + f g'
  | [], g, h => by simp [lookupAssoc] at h
  | (k₁, v₁) :: rest, g, h => by
    cases hk : (k₁ == k) with
    | true =>
      simp only [lookupAssoc, List.find?, hk, Option.map_some] at h
      obtain rfl : v₁ = g := by simpa using h
      simp only [setAssoc, hk, if_true, List.map_cons, List.sum_cons]
      omega
    | false =>
      simp only [lookupAssoc, List.find?, hk] at h
      have hrec := sum_setAssoc_of_lookup f k g' rest g h
      simp only [setAssoc, hk, Bool.false_eq_true, if_false, List.map_cons,
        List.sum_cons]
      omega

/-- One aggregation step accounts for exactly one more component. -/
theorem aggStep_measure
    (st : List (String × MpnGroupAcc) × List CircuitComponent)
    (comp : CircuitComponent) :
    ((aggStep st comp).1.map (fun p => orientTotal p.2)).sum +
      (aggStep st comp).2.length =
    ((st.1.map (fun p => orientTotal p.2)).sum + st.2.length) + 1 := by
  cases hk : aggKey? comp with
  | none => simp [aggStep, hk]; omega
  | some aggKey =>
    cases hlk : lookupAssoc st.1 (aggGroupKey comp aggKey) with
    | none =>
      simp only [aggStep, hk, hlk, List.map_append, List.sum_append]
      simp [orientTotal, mkGroupAcc, bumpOrientation_sum]
      omega
    | some g =>
      simp only [aggStep, hk, hlk]
      generalize hng : { aggValueTweak comp g with
        orientations := bumpOrientation (aggValueTweak comp g).orientations
          (aggOrientKey comp) comp.refdes comp.connections } = NG
      have hsum := sum_setAssoc_of_lookup orientTotal (aggGroupKey comp aggKey)
        NG st.1 g hlk
      have hOr : orientTotal NG = orientTotal g + 1 := by
        rw [← hng]
        have hvt : orientTotal (aggValueTweak comp g) = orientTotal g := by
          unfold aggValueTweak
          split <;> rfl
        simp only [orientTotal, bumpOrientation_sum]
        simpa [orientTotal] using hvt
      omega

/-- The whole aggregation fold accounts for every component. -/
theorem aggFold_measure :
    ∀ (comps : List CircuitComponent)
      (st : List (String × MpnGroupAcc) × List CircuitComponent),
      ((comps.foldl aggStep st).1.map (fun p => orientTotal p.2)).sum +
        (comps.foldl aggStep st).2.length =
      ((st.1.map (fun p => orientTotal p.2)).sum + st.2.length) + comps.length
  | [], st => by simp
  | c :: cs, st => by
    rw [List.foldl_cons]
    have h1 := aggStep_measure st c
    have h2 := aggFold_measure cs (aggStep st c)
    simp only [List.length_cons]
    omega

/-- A rendered group reports exactly the components it accumulated. -/
theorem finishGroup_total (g : MpnGroupAcc) :
    (finishGroup g).total_count = orientTotal g := by
  have hsum : ((jsSortBy (fun a b => ((b.count : Int)) - (a.count : Int))
      (g.orientations.map (fun p => p.2))).map (fun o => o.count)).sum =
      orientTotal g := by
    have hperm := (jsSortBy_perm
      (fun a b : OrientAcc => ((b.count : Int)) - (a.count : Int))
      (g.orientations.map (fun p => p.2))).map (fun o => o.count)
    have hs := hperm.sum_eq
    simpa [orientTotal, Function.comp] using hs
  unfold finishGroup
  dsimp only
  split <;> simpa using hsum

/-- The MPN aggregation neither drops nor double-counts: the total counts
of the aggregate sum to the number of components. -/
theorem aggregate_sum (comps : List CircuitComponent) :
    ((aggregateCircuitByMpn comps).map (fun g => g.total_count)).sum =
      comps.length := by
  unfold aggregateCircuitByMpn
  have hperm := (jsSortBy_perm
    (fun a b : AggregatedComponent =>
      ((b.total_count : Int)) - (a.total_count : Int))
    ((comps.foldl aggStep ([], [])).1.map (fun p => finishGroup p.2) ++
      (comps.foldl aggStep ([], [])).2.map unaggComponent)).map
    (fun g => g.total_count)
  rw [hperm.sum_eq, List.map_append, List.sum_append]
  have hfold := aggFold_measure comps ([], [])
  have hgroups : (((comps.foldl aggStep ([], [])).1.map
      (fun p => finishGroup p.2)).map (fun g => g.total_count)).sum =
      ((comps.foldl aggStep ([], [])).1.map (fun p => orientTotal p.2)).sum := by
    rw [List.map_map]
    congr 1
    apply List.map_congr_left
    intro p _
    exact finishGroup_total p.2
  have hunagg : (((comps.foldl aggStep ([], [])).2.map unaggComponent).map
      (fun g => g.total_count)).sum = (comps.foldl aggStep ([], [])).2.length := by
    rw [List.map_map]
    have : ((comps.foldl aggStep ([], [])).2.map
        (fun c => (unaggComponent c).total_count)) =
        (comps.foldl aggStep ([], [])).2.map (fun _ => 1) := by
      apply List.map_congr_left
      intro c _
      rfl
    rw [show (fun g => AggregatedComponent.total_count g) ∘ unaggComponent =
      fun c => (unaggComponent c).total_count from rfl, this]
    simp [List.map_const']
  rw [hgroups, hunagg]
  simpa using hfold

/-- C10: in every successful aggregated query result (either query shape),
`total_components` equals the sum of `total_count` over the aggregate
groups (error results hold vacuously). -/
theorem aggregated_counts_partition (netlist : ParsedNetlist)
    (netName pinSpec : String) (skipTypes : List String) (includeDns : Bool) :
    sumsMatch (queryXnetByNetName netlist netName skipTypes includeDns) = true ∧
    sumsMatch (queryXnetByPinName netlist pinSpec skipTypes includeDns) = true := by
  constructor
  · unfold queryXnetByNetName
    repeat' split
    all_goals first
      | rfl
      | simp [sumsMatch, buildResponse, aggregate_sum]
  · unfold queryXnetByPinName
    dsimp only
    repeat' split
    all_goals first
      | rfl
      | simp [sumsMatch, buildResponse, aggregate_sum]

/-! ## Association-list facts -/

/-- A failed lookup means no entry has the key. -/
theorem lookupAssoc_eq_none {β : Type} {m : List (String × β)} {k : String} :
    lookupAssoc m k = none ↔ ∀ p ∈ m, p.1 ≠ k := by
  simp [lookupAssoc, List.find?_eq_none]

/-- A successful lookup produces an entry of the list. -/
theorem lookupAssoc_mem {β : Type} {m : List (String × β)} {k : String}
    {v : β} (h : lookupAssoc m k = some v) : (k, v) ∈ m := by
  unfold lookupAssoc at h
  cases hf : m.find? (fun p => p.1 == k) with
  | none => rw [hf] at h; simp at h
  | some p =>
    rw [hf] at h
    obtain rfl : p.2 = v := by simpa using h
    have hm := List.mem_of_find?_eq_some hf
    have hk := List.find?_some hf
    have : p.1 = k := by simpa using hk
    rw [← this]
    simpa using hm

/-- Every entry of `setAssoc` is an old entry or the new one. -/
theorem mem_setAssoc {β : Type} {k : String} {v : β} :
    ∀ (m : List (String × β)) (p : String × β),
      p ∈ setAssoc m k v → p ∈ m ∨ p = (k, v)
  | [], p, h => by simpa [setAssoc] using h
  | (k₁, v₁) :: rest, p, h => by
    by_cases hk : (k₁ == k) = true
    · rw [setAssoc, if_pos hk] at h
      rcases List.mem_cons.mp h with h | h
      · right; exact h
      · left; exact List.mem_cons_of_mem _ h
    · rw [setAssoc, if_neg hk] at h
      rcases List.mem_cons.mp h with h | h
      · left; rw [h]; exact List.mem_cons_self _ _
      · rcases mem_setAssoc rest p h with h2 | h2
        · left; exact List.mem_cons_of_mem _ h2
        · right; exact h2

/-- Replacing a present key leaves the key sequence unchanged. -/
theorem keys_setAssoc_of_lookup_some {β : Type} {k : String} {v v' : β} :
    ∀ (m : List (String × β)), lookupAssoc m k = some v' →
      (setAssoc m k v).map (fun p => p.1) = m.map (fun p => p.1)
  | [], h => by simp [lookupAssoc] at h
  | (k₁, v₁) :: rest, h => by
    by_cases hk : (k₁ == k) = true
    · rw [setAssoc, if_pos hk]
      have hkk : k₁ = k := by simpa using hk
      simp [hkk]
    · rw [setAssoc, if_neg hk]
      simp only [lookupAssoc, List.find?, hk] at h
      simp [keys_setAssoc_of_lookup_some (v := v) rest h]

/-- Adding an absent key appends it to the key sequence. -/
theorem keys_setAssoc_of_lookup_none {β : Type} {k : String} {v : β} :
    ∀ (m : List (String × β)), lookupAssoc m k = none →
      (setAssoc m k v).map (fun p => p.1) = m.map (fun p => p.1) ++ [k]
  | [], _ => by simp [setAssoc]
  | (k₁, v₁) :: rest, h => by
    by_cases hk : (k₁ == k) = true
    · simp [lookupAssoc, List.find?, hk] at h
    · rw [setAssoc, if_neg hk]
      simp only [lookupAssoc, List.find?, hk] at h
      simp [keys_setAssoc_of_lookup_none (v := v) rest h]

/-- Rebinding a present key permutes the flattened values into the old
ones with the appended element at the end. -/
theorem flat_setAssoc_perm {k : String} {ps : List String} (pin : String) :
    ∀ (m : List (String × List String)), lookupAssoc m k = some ps →
      ((setAssoc m k (ps ++ [pin])).flatMap (fun b => b.2)).Perm
        ((m.flatMap (fun b => b.2)) ++ [pin])
  | [], h => by simp [lookupAssoc] at h
  | (k₁, v₁) :: rest, h => by
    by_cases hk : (k₁ == k) = true
    · rw [setAssoc, if_pos hk]
      simp only [lookupAssoc, List.find?, hk, Option.map_some] at h
      obtain rfl : v₁ = ps := by simpa using h
      simp only [List.flatMap_cons]
      rw [List.append_assoc, List.append_assoc]
      exact List.Perm.append_left v₁ List.perm_append_comm
    · rw [setAssoc, if_neg hk]
      simp only [lookupAssoc, List.find?, hk] at h
      simp only [List.flatMap_cons]
      have hrec := flat_setAssoc_perm pin rest h
      rw [List.append_assoc]
      exact List.Perm.append_left v₁ hrec

/-! ## The traversal invariant -/

/-- Pushing a fresh, well-placed record preserves the invariant. -/
theorem TravInv.push {startNet : String} {s : TravState}
    (h : TravInv startNet s) (e : FlatCircuitEntry)
    (hok : entryOk startNet e = true)
    (hfresh : s.visitedPins.contains (pinIdOf e) = false) :
    TravInv startNet
      { s with visitedPins := s.visitedPins ++ [pinIdOf e],
               flat := s.flat ++ [e] } := by
  obtain ⟨h1, h2, h3, h4⟩ := h
  have hnotv : pinIdOf e ∉ s.visitedPins := by
    intro hmem
    rw [List.contains_eq_any_beq] at hfresh
    have : s.visitedPins.any (pinIdOf e == ·) = true :=
      List.any_eq_true.mpr ⟨pinIdOf e, hmem, by simp⟩
    rw [this] at hfresh
    exact Bool.true_eq_false.mp hfresh
  refine ⟨?_, ?_, ?_, h4⟩
  · rw [List.map_append]
    rw [List.nodup_append]
    refine ⟨h1, List.nodup_singleton _, ?_⟩
    intro x hx hx2
    have hxe : x = pinIdOf e := by simpa using hx2
    subst hxe
    rcases List.mem_map.mp hx with ⟨e', he', heq⟩
    exact hnotv (heq ▸ h2 _ he')
  · intro e' he'
    rcases List.mem_append.mp he' with h' | h'
    · exact List.mem_append_left _ (h2 _ h')
    · have : e' = e := by simpa using h'
      subst this
      exact List.mem_append_right _ (List.mem_singleton_self _)
  · intro e' he'
    rcases List.mem_append.mp he' with h' | h'
    · exact h3 _ h'
    · have : e' = e := by simpa using h'
      subst this
      exact hok

/-- `shouldSkipComponent` touches only the skip bookkeeping. -/
theorem shouldSkip_fields (skipTypes : List String) (includeDns : Bool)
    (refdes : String) (isDns : Bool) (s : TravState) :
    (shouldSkipComponent skipTypes includeDns refdes isDns s).2.visitedNets =
      s.visitedNets ∧
    (shouldSkipComponent skipTypes includeDns refdes isDns s).2.visitedPins =
      s.visitedPins ∧
    (shouldSkipComponent skipTypes includeDns refdes isDns s).2.flat = s.flat ∧
    (shouldSkipComponent skipTypes includeDns refdes isDns s).2.queue =
      s.queue := by
  unfold shouldSkipComponent
  dsimp only
  split
  · simp
  · split
    · split <;> simp
    · simp

/-- `shouldSkipComponent` preserves the invariant. -/
theorem shouldSkip_inv {startNet : String} {s : TravState}
    (h : TravInv startNet s) (skipTypes : List String) (includeDns : Bool)
    (refdes : String) (isDns : Bool) :
    TravInv startNet (shouldSkipComponent skipTypes includeDns refdes isDns s).2 := by
  obtain ⟨hn, hp, hf, hq⟩ := shouldSkip_fields skipTypes includeDns refdes isDns s
  obtain ⟨h1, h2, h3, h4⟩ := h
  refine ⟨?_, ?_, ?_, ?_⟩
  · rw [hf]; exact h1
  · intro e he
    rw [hf] at he
    rw [hp]
    exact h2 e he
  · intro e he
    rw [hf] at he
    exact h3 e he
  · intro q hqq
    rw [hq] at hqq
    exact h4 q hqq

/-- The active-pin emission loop preserves the invariant when the other
net is not a stop net. -/
theorem emitActivePins_inv {startNet : String} (oRef : String)
    (oComp : Option Component) (oDns : Option Bool) (oNet : String)
    (hnet : isStopNet oNet = false) :
    ∀ (pins : List String) (s : TravState), TravInv startNet s →
      TravInv startNet (emitActivePins oRef oComp oDns oNet pins s)
  | [], s, h => h
  | activePin :: rest, s, h => by
    rw [emitActivePins]
    split
    · exact emitActivePins_inv oRef oComp oDns oNet hnet rest s h
    · rename_i hfresh
      refine emitActivePins_inv oRef oComp oDns oNet hnet rest _ ?_
      have := TravInv.push h (mkEntry oRef activePin oNet oComp oDns)
        (by simp [entryOk, mkEntry, hnet]) (by simpa using hfresh)
      simpa [mkEntry, pinIdOf] using this

/-- The endpoint inspection of a fresh non-stop net preserves the
invariant. -/
theorem inspectOtherNet_inv {startNet : String} (components : ComponentDetails)
    (skipTypes : List String) (includeDns : Bool) (oNet : String)
    (hnet : isStopNet oNet = false) :
    ∀ (conns : List (String × PinsVal)) (s : TravState) (hp : Bool),
      TravInv startNet s →
      TravInv startNet
        (inspectOtherNet components skipTypes includeDns oNet conns s hp).1
  | [], s, hp, h => h
  | (oRef, pinsOnNet) :: rest, s, hp, h => by
    rw [inspectOtherNet]
    have hskip := shouldSkip_inv h skipTypes includeDns oRef
      (isDnsComponent (lookupAssoc components oRef))
    split
    · exact inspectOtherNet_inv components skipTypes includeDns oNet hnet rest _ _ hskip
    · split
      · split
        · exact inspectOtherNet_inv components skipTypes includeDns oNet hnet rest _ _ hskip
        · refine inspectOtherNet_inv components skipTypes includeDns oNet hnet rest _ _ ?_
          exact emitActivePins_inv oRef (lookupAssoc components oRef) _ oNet hnet
            (pinsArray pinsOnNet) _ hskip
      · split
        · exact inspectOtherNet_inv components skipTypes includeDns oNet hnet rest _ _ hskip
        · refine inspectOtherNet_inv components skipTypes includeDns oNet hnet rest _ _ ?_
          exact emitActivePins_inv oRef (lookupAssoc components oRef) _ oNet hnet
            (pinsArray pinsOnNet) _ hskip

/-- Changing only the visited-net set preserves the invariant. -/
theorem TravInv.setNets {startNet : String} {s : TravState}
    (h : TravInv startNet s) (vn : List String) :
    TravInv startNet { s with visitedNets := vn } := h

/-- Enqueuing a non-stop net (or the start net) preserves the invariant. -/
theorem TravInv.enqueue {startNet : String} {s : TravState}
    (h : TravInv startNet s) (n : String)
    (hn : isStopNet n = false ∨ n = startNet) :
    TravInv startNet { s with queue := s.queue ++ [n] } := by
  obtain ⟨h1, h2, h3, h4⟩ := h
  refine ⟨h1, h2, h3, ?_⟩
  intro q hq
  rcases List.mem_append.mp hq with h' | h'
  · exact h4 q h'
  · have hqn : q = n := by simpa using h'
    subst hqn
    exact hn

/-- The other-pin walk of a traversing passive preserves the invariant. -/
theorem processOtherPins_inv {startNet : String} (nets : NetConnections)
    (components : ComponentDetails) (skipTypes : List String)
    (includeDns : Bool) (refdes : String) (comp : Component)
    (dnsFlag : Option Bool) (pin : String)
    (hpass : isPassive refdes = true) :
    ∀ (others : List (String × PinEntry)) (s : TravState),
      TravInv startNet s →
      TravInv startNet (processOtherPins nets components skipTypes includeDns
        refdes comp dnsFlag pin others s)
  | [], _, h => h
  | (otherPin, otherNet) :: rest, s, h => by
    rw [processOtherPins]
    dsimp only
    split
    · exact processOtherPins_inv nets components skipTypes includeDns refdes
        comp dnsFlag pin hpass rest s h
    · split
      · exact processOtherPins_inv nets components skipTypes includeDns refdes
          comp dnsFlag pin hpass rest s h
      · rename_i hfresh
        have hpush : TravInv startNet
            { s with
              visitedPins := s.visitedPins ++ [refdes ++ ":" ++ otherPin],
              flat := s.flat ++
                [mkEntry refdes otherPin (getPinNet otherNet) (some comp)
                  dnsFlag] } := by
          have := TravInv.push h
            (mkEntry refdes otherPin (getPinNet otherNet) (some comp) dnsFlag)
            (by simp [entryOk, mkEntry, hpass])
            (by simpa [pinIdOf, mkEntry] using hfresh)
          simpa [mkEntry, pinIdOf] using this
        split
        · exact processOtherPins_inv nets components skipTypes includeDns
            refdes comp dnsFlag pin hpass rest _ hpush
        · split
          · exact processOtherPins_inv nets components skipTypes includeDns
              refdes comp dnsFlag pin hpass rest _ (TravInv.setNets hpush _)
          · rename_i hstop
            have hstop' : isStopNet (getPinNet otherNet) = false :=
              (Bool.not_eq_true _).mp hstop
            refine processOtherPins_inv nets components skipTypes includeDns
              refdes comp dnsFlag pin hpass rest _ ?_
            have hins := inspectOtherNet_inv components skipTypes includeDns
              (getPinNet otherNet) hstop'
              ((lookupAssoc nets (getPinNet otherNet)).getD [])
              { s with
                visitedNets := s.visitedNets ++ [getPinNet otherNet]
                visitedPins := s.visitedPins ++ [refdes ++ ":" ++ otherPin]
                flat := s.flat ++
                  [mkEntry refdes otherPin (getPinNet otherNet) (some comp)
                    dnsFlag] }
              false (TravInv.setNets hpush _)
            split
            · exact TravInv.enqueue hins _ (Or.inl hstop')
            · exact hins

/-- The pin loop over one component of the current net preserves the
invariant when the current net is a non-stop net or the start net. -/
theorem processPins_inv {startNet : String} (nets : NetConnections)
    (components : ComponentDetails) (skipTypes : List String)
    (includeDns : Bool) (currentNet : String) (refdes : String)
    (comp : Option Component) (dnsFlag : Option Bool)
    (hcur : isStopNet currentNet = false ∨ currentNet = startNet) :
    ∀ (pins : List String) (s : TravState), TravInv startNet s →
      TravInv startNet (processPins nets components skipTypes includeDns
        currentNet refdes comp dnsFlag pins s)
  | [], _, h => h
  | pin :: rest, s, h => by
    rw [processPins]
    dsimp only
    split
    · exact processPins_inv nets components skipTypes includeDns currentNet
        refdes comp dnsFlag hcur rest s h
    · rename_i hfresh
      have hpush : TravInv startNet
          { s with
            visitedPins := s.visitedPins ++ [refdes ++ ":" ++ pin],
            flat := s.flat ++ [mkEntry refdes pin currentNet comp dnsFlag] } := by
        have := TravInv.push h (mkEntry refdes pin currentNet comp dnsFlag)
          (by rcases hcur with hc | hc <;> simp [entryOk, mkEntry, hc])
          (by simpa [pinIdOf, mkEntry] using hfresh)
        simpa [mkEntry, pinIdOf] using this
      refine processPins_inv nets components skipTypes includeDns currentNet
        refdes comp dnsFlag hcur rest _ ?_
      split
      · split
        · exact processOtherPins_inv nets components skipTypes includeDns
            refdes _ dnsFlag pin (by assumption) _ _ hpush
        · exact hpush
      · exact hpush

/-- The component loop of the dequeued net preserves the invariant. -/
theorem processNetComponents_inv {startNet : String} (nets : NetConnections)
    (components : ComponentDetails) (skipTypes : List String)
    (includeDns : Bool) (currentNet : String)
    (hcur : isStopNet currentNet = false ∨ currentNet = startNet) :
    ∀ (conns : List (String × PinsVal)) (s : TravState), TravInv startNet s →
      TravInv startNet (processNetComponents nets components skipTypes
        includeDns currentNet conns s)
  | [], _, h => h
  | (refdes, pins) :: rest, s, h => by
    rw [processNetComponents]
    dsimp only
    have hskip := shouldSkip_inv h skipTypes includeDns refdes
      (isDnsComponent (lookupAssoc components refdes))
    split
    · exact processNetComponents_inv nets components skipTypes includeDns
        currentNet hcur rest _ hskip
    · split
      · exact processNetComponents_inv nets components skipTypes includeDns
          currentNet hcur rest _
          (processPins_inv nets components skipTypes includeDns currentNet
            refdes (lookupAssoc components refdes) _ hcur (pinsArray pins) _
            hskip)
      · exact processNetComponents_inv nets components skipTypes includeDns
          currentNet hcur rest _
          (processPins_inv nets components skipTypes includeDns currentNet
            refdes (lookupAssoc components refdes) _ hcur (pinsArray pins) _
            hskip)

/-- The BFS loop preserves the invariant for any amount of fuel. -/
theorem runTraversal_inv {startNet : String} (nets : NetConnections)
    (components : ComponentDetails) (skipTypes : List String)
    (includeDns : Bool) :
    ∀ (fuel : Nat) (s : TravState), TravInv startNet s →
      TravInv startNet (runTraversal nets components skipTypes includeDns
        fuel s)
  | 0, _, h => h
  | fuel + 1, s, h => by
    rw [runTraversal]
    split
    · exact h
    · rename_i currentNet restQueue hq
      have hcur : isStopNet currentNet = false ∨ currentNet = startNet :=
        h.2.2.2 currentNet (by rw [hq]; exact List.mem_cons_self _ _)
      have hdeq : TravInv startNet { s with queue := restQueue } := by
        obtain ⟨h1, h2, h3, h4⟩ := h
        refine ⟨h1, h2, h3, ?_⟩
        intro q hmem
        exact h4 q (by rw [hq]; exact List.mem_cons_of_mem _ hmem)
      exact runTraversal_inv nets components skipTypes includeDns fuel _
        (processNetComponents_inv nets components skipTypes includeDns
          currentNet hcur _ _ hdeq)

/-- The invariant holds for the state the traversal runs to completion
from its initial state. -/
theorem runTraversal_start_inv (startNet : String) (nets : NetConnections)
    (components : ComponentDetails) (skipTypes : List String)
    (includeDns : Bool) (fuel : Nat) :
    TravInv startNet (runTraversal nets components skipTypes includeDns fuel
      ⟨[startNet], [], [], [startNet], [], []⟩) := by
  refine runTraversal_inv nets components skipTypes includeDns fuel _ ?_
  refine ⟨by simp, by simp, by simp, ?_⟩
  intro q hq
  have : q = startNet := by simpa using hq
  exact Or.inr this

/-! ## The grouping fold invariant -/

/-- A successful lookup splits the list around the first entry carrying
the key, and `setAssoc` rewrites exactly that entry. -/
theorem lookup_split {β : Type} {k : String} {v : β} :
    ∀ (m : List (String × β)), lookupAssoc m k = some v →
      ∃ A B, m = A ++ (k, v) :: B ∧
        ∀ v' : β, setAssoc m k v' = A ++ (k, v') :: B
  | [], h => by simp [lookupAssoc] at h
  | (k₁, v₁) :: rest, h => by
    by_cases hk : (k₁ == k) = true
    · have hkk : k₁ = k := by simpa using hk
      simp only [lookupAssoc, List.find?, hk, Option.map_some] at h
      obtain rfl : v₁ = v := by simpa using h
      refine ⟨[], rest, by simp [hkk], ?_⟩
      intro v'
      rw [setAssoc, if_pos hk]
      simp
    · simp only [lookupAssoc, List.find?, hk] at h
      obtain ⟨A, B, hm, hset⟩ := lookup_split rest h
      refine ⟨(k₁, v₁) :: A, B, by simp [hm], ?_⟩
      intro v'
      rw [setAssoc, if_neg hk, hset v']
      simp

/-- Inserting one element into the middle block of a three-block
concatenation permutes into appending it at the end. -/
theorem insert_middle_perm {α : Type} (A B C : List α) (x : α) :
    (A ++ ((B ++ [x]) ++ C)).Perm ((A ++ (B ++ C)) ++ [x]) := by
  have h1 : A ++ ((B ++ [x]) ++ C) = A ++ (B ++ ([x] ++ C)) := by simp
  have h2 : (A ++ (B ++ C)) ++ [x] = A ++ (B ++ (C ++ [x])) := by simp
  rw [h1, h2]
  exact List.Perm.append_left A (List.Perm.append_left B List.perm_append_comm)

/-- The recorded identifiers of a split accumulator. -/
theorem groupIds_decomp (A B : List (String × GroupAcc))
    (p : String × GroupAcc) :
    groupIds (A ++ p :: B) = groupIds A ++ (groupAccIds p ++ groupIds B) := by
  simp [groupIds]

/-- The grouping invariant is monotone in the processed prefix. -/
theorem GroupFoldInv.mono {processed : List FlatCircuitEntry}
    {acc : List (String × GroupAcc)} (h : GroupFoldInv processed acc)
    (e : FlatCircuitEntry) : GroupFoldInv (processed ++ [e]) acc := by
  obtain ⟨h1, h2, h3, h4⟩ := h
  refine ⟨h1, h2, ?_, ?_⟩
  · intro p hp b hb pin hpin
    obtain ⟨e', he', hprops⟩ := h3 p hp b hb pin hpin
    exact ⟨e', List.mem_append_left _ he', hprops⟩
  · intro p hp b hb
    obtain ⟨e', he', hprops⟩ := h4 p hp b hb
    exact ⟨e', List.mem_append_left _ he', hprops⟩

/-- `groupInsert` on an unseen refdes appends a fresh accumulator. -/
theorem groupInsert_eq_none (acc : List (String × GroupAcc))
    (e : FlatCircuitEntry) (h : lookupAssoc acc e.refdes = none) :
    groupInsert acc e = acc ++ [(e.refdes,
      { refdes := e.refdes, mpn := e.mpn, description := e.description,
        comment := e.comment, value := e.value, dns := e.dns,
        netToPins := [(e.net, [e.pin])] })] := by
  simp only [groupInsert, h]

/-- `groupInsert` on a seen refdes with an unseen net opens a new bucket. -/
theorem groupInsert_eq_newBucket (acc : List (String × GroupAcc))
    (e : FlatCircuitEntry) (g : GroupAcc)
    (h : lookupAssoc acc e.refdes = some g)
    (hb : lookupAssoc g.netToPins e.net = none) :
    groupInsert acc e = setAssoc acc e.refdes
      { g with netToPins := g.netToPins ++ [(e.net, [e.pin])] } := by
  simp only [groupInsert, h, hb]

/-- `groupInsert` on a pin already present in its bucket rewrites the
accumulator unchanged. -/
theorem groupInsert_eq_dup (acc : List (String × GroupAcc))
    (e : FlatCircuitEntry) (g : GroupAcc) (ps : List String)
    (h : lookupAssoc acc e.refdes = some g)
    (hb : lookupAssoc g.netToPins e.net = some ps)
    (hc : ps.contains e.pin = true) :
    groupInsert acc e = setAssoc acc e.refdes g := by
  simp only [groupInsert, h, hb, hc, if_pos]

/-- `groupInsert` on a fresh pin of a seen net appends it to the bucket. -/
theorem groupInsert_eq_addPin (acc : List (String × GroupAcc))
    (e : FlatCircuitEntry) (g : GroupAcc) (ps : List String)
    (h : lookupAssoc acc e.refdes = some g)
    (hb : lookupAssoc g.netToPins e.net = some ps)
    (hc : ps.contains e.pin = false) :
    groupInsert acc e = setAssoc acc e.refdes
      { g with netToPins := setAssoc g.netToPins e.net (ps ++ [e.pin]) } := by
  simp only [groupInsert, h, hb, hc]
  simp

/-- One step of the grouping fold preserves the invariant when the incoming
record's pin identifier is fresh for the processed prefix. -/
theorem groupInsert_inv {processed : List FlatCircuitEntry}
    {acc : List (String × GroupAcc)} (e : FlatCircuitEntry)
    (h : GroupFoldInv processed acc)
    (hfresh : pinIdOf e ∉ processed.map pinIdOf) :
    GroupFoldInv (processed ++ [e]) (groupInsert acc e) := by
  obtain ⟨h1, h2, h3, h4⟩ := h
  have hnew : pinIdOf e ∉ groupIds acc := by
    intro hx
    rw [groupIds] at hx
    rcases List.mem_flatMap.mp hx with ⟨p, hp, hxp⟩
    rw [groupAccIds] at hxp
    rcases List.mem_flatMap.mp hxp with ⟨b, hb, hxb⟩
    rcases List.mem_map.mp hxb with ⟨pin, hpin, hxe⟩
    obtain ⟨e', he', hr, hpn, _⟩ := h3 p hp b hb pin hpin
    refine hfresh (List.mem_map.mpr ⟨e', he', ?_⟩)
    rw [pinIdOf, hr, hpn]
    exact hxe
  cases hlook : lookupAssoc acc e.refdes with
  | none =>
    rw [groupInsert_eq_none acc e hlook]
    refine ⟨?_, ?_, ?_, ?_⟩
    · have hids : groupIds (acc ++ [(e.refdes,
          { refdes := e.refdes, mpn := e.mpn, description := e.description,
            comment := e.comment, value := e.value, dns := e.dns,
            netToPins := [(e.net, [e.pin])] })]) =
          groupIds acc ++ [e.refdes ++ ":" ++ e.pin] := by
        simp [groupIds, groupAccIds]
      rw [hids, List.nodup_append]
      refine ⟨h1, List.nodup_singleton _, ?_⟩
      intro x hx hx2
      have hxe : x = e.refdes ++ ":" ++ e.pin := by simpa using hx2
      subst hxe
      exact hnew hx
    · intro p hp
      rcases List.mem_append.mp hp with hp | hp
      · exact h2 p hp
      · have hpe := List.mem_singleton.mp hp
        subst hpe
        rfl
    · intro p hp b hb pin hpin
      rcases List.mem_append.mp hp with hp | hp
      · obtain ⟨e', he', hprops⟩ := h3 p hp b hb pin hpin
        exact ⟨e', List.mem_append_left _ he', hprops⟩
      · have hpe := List.mem_singleton.mp hp
        subst hpe
        have hbe : b = (e.net, [e.pin]) := by simpa using hb
        subst hbe
        have hpne : pin = e.pin := by simpa using hpin
        subst hpne
        exact ⟨e, List.mem_append_right _ (by simp), rfl, rfl, rfl⟩
    · intro p hp b hb
      rcases List.mem_append.mp hp with hp | hp
      · obtain ⟨e', he', hprops⟩ := h4 p hp b hb
        exact ⟨e', List.mem_append_left _ he', hprops⟩
      · have hpe := List.mem_singleton.mp hp
        subst hpe
        have hbe : b = (e.net, [e.pin]) := by simpa using hb
        subst hbe
        exact ⟨e, List.mem_append_right _ (by simp), rfl, rfl⟩
  | some g =>
    have hmem : (e.refdes, g) ∈ acc := lookupAssoc_mem hlook
    have hgr : g.refdes = e.refdes := h2 _ hmem
    obtain ⟨A, B, hAB, hset⟩ := lookup_split acc hlook
    have hga : groupIds acc =
        groupIds A ++ (groupAccIds (e.refdes, g) ++ groupIds B) := by
      rw [hAB]
      exact groupIds_decomp A B _
    cases hbl : lookupAssoc g.netToPins e.net with
    | none =>
      rw [groupInsert_eq_newBucket acc e g hlook hbl, hset]
      have hg'ids : groupAccIds (e.refdes,
          { g with netToPins := g.netToPins ++ [(e.net, [e.pin])] }) =
          groupAccIds (e.refdes, g) ++ [g.refdes ++ ":" ++ e.pin] := by
        simp [groupAccIds]
      refine ⟨?_, ?_, ?_, ?_⟩
      · rw [groupIds_decomp, hg'ids]
        have houter : (groupIds A ++ ((groupAccIds (e.refdes, g) ++
            [g.refdes ++ ":" ++ e.pin]) ++ groupIds B)).Perm
            ((groupIds A ++ (groupAccIds (e.refdes, g) ++ groupIds B)) ++
              [g.refdes ++ ":" ++ e.pin]) :=
          insert_middle_perm _ _ _ _
        rw [houter.nodup_iff, List.nodup_append]
        refine ⟨by rw [hga] at h1; exact h1, List.nodup_singleton _, ?_⟩
        intro x hx hx2
        have hxe : x = g.refdes ++ ":" ++ e.pin := by simpa using hx2
        subst hxe
        refine hnew ?_
        rw [pinIdOf, ← hgr, hga]
        exact hx
      · intro p hp
        rcases List.mem_append.mp hp with hp | hp
        · exact h2 p (by rw [hAB]; exact List.mem_append_left _ hp)
        · rcases List.mem_cons.mp hp with hp | hp
          · subst hp
            exact hgr
          · exact h2 p
              (by rw [hAB]
                  exact List.mem_append_right _ (List.mem_cons_of_mem _ hp))
      · intro p hp b hb pin hpin
        rcases List.mem_append.mp hp with hp | hp
        · obtain ⟨e', he', hprops⟩ :=
            h3 p (by rw [hAB]; exact List.mem_append_left _ hp) b hb pin hpin
          exact ⟨e', List.mem_append_left _ he', hprops⟩
        · rcases List.mem_cons.mp hp with hp | hp
          · subst hp
            rcases List.mem_append.mp hb with hb | hb
            · obtain ⟨e', he', hprops⟩ := h3 (e.refdes, g)
                (by rw [hAB]
                    exact List.mem_append_right _ (List.mem_cons_self _ _))
                b hb pin hpin
              exact ⟨e', List.mem_append_left _ he', hprops⟩
            · have hbe : b = (e.net, [e.pin]) := by simpa using hb
              subst hbe
              have hpne : pin = e.pin := by simpa using hpin
              subst hpne
              exact ⟨e, List.mem_append_right _ (by simp), hgr.symm, rfl, rfl⟩
          · obtain ⟨e', he', hprops⟩ := h3 p
              (by rw [hAB]
                  exact List.mem_append_right _ (List.mem_cons_of_mem _ hp))
              b hb pin hpin
            exact ⟨e', List.mem_append_left _ he', hprops⟩
      · intro p hp b hb
        rcases List.mem_append.mp hp with hp | hp
        · obtain ⟨e', he', hprops⟩ :=
            h4 p (by rw [hAB]; exact List.mem_append_left _ hp) b hb
          exact ⟨e', List.mem_append_left _ he', hprops⟩
        · rcases List.mem_cons.mp hp with hp | hp
          · subst hp
            rcases List.mem_append.mp hb with hb | hb
            · obtain ⟨e', he', hprops⟩ := h4 (e.refdes, g)
                (by rw [hAB]
                    exact List.mem_append_right _ (List.mem_cons_self _ _))
                b hb
              exact ⟨e', List.mem_append_left _ he', hprops⟩
            · have hbe : b = (e.net, [e.pin]) := by simpa using hb
              subst hbe
              exact ⟨e, List.mem_append_right _ (by simp), hgr.symm, rfl⟩
          · obtain ⟨e', he', hprops⟩ := h4 p
              (by rw [hAB]
                  exact List.mem_append_right _ (List.mem_cons_of_mem _ hp))
              b hb
            exact ⟨e', List.mem_append_left _ he', hprops⟩
    | some ps =>
      cases hc : ps.contains e.pin with
      | true =>
        rw [groupInsert_eq_dup acc e g ps hlook hbl hc, hset, ← hAB]
        exact GroupFoldInv.mono ⟨h1, h2, h3, h4⟩ e
      | false =>
        rw [groupInsert_eq_addPin acc e g ps hlook hbl hc, hset]
        obtain ⟨A', B', hAB', hset'⟩ := lookup_split g.netToPins hbl
        have holdids : groupAccIds (e.refdes, g) =
            A'.flatMap (fun b => b.2.map (fun pin => g.refdes ++ ":" ++ pin)) ++
            (ps.map (fun pin => g.refdes ++ ":" ++ pin) ++
             B'.flatMap (fun b => b.2.map (fun pin => g.refdes ++ ":" ++ pin))) := by
          rw [groupAccIds]
          dsimp only
          rw [hAB']
          simp
        have hg'ids : groupAccIds (e.refdes,
            { g with netToPins := setAssoc g.netToPins e.net (ps ++ [e.pin]) }) =
            A'.flatMap (fun b => b.2.map (fun pin => g.refdes ++ ":" ++ pin)) ++
            ((ps.map (fun pin => g.refdes ++ ":" ++ pin) ++
              [g.refdes ++ ":" ++ e.pin]) ++
             B'.flatMap (fun b => b.2.map (fun pin => g.refdes ++ ":" ++ pin))) := by
          rw [groupAccIds]
          dsimp only
          rw [hset' (ps ++ [e.pin])]
          simp
        have hpermg : (groupAccIds (e.refdes,
            { g with netToPins := setAssoc g.netToPins e.net (ps ++ [e.pin]) })).Perm
            (groupAccIds (e.refdes, g) ++ [g.refdes ++ ":" ++ e.pin]) := by
          rw [hg'ids, holdids]
          exact insert_middle_perm _ _ _ _
        refine ⟨?_, ?_, ?_, ?_⟩
        · rw [groupIds_decomp]
          have houter : (groupIds A ++ (groupAccIds (e.refdes,
              { g with netToPins := setAssoc g.netToPins e.net (ps ++ [e.pin]) }) ++
              groupIds B)).Perm
              ((groupIds A ++ (groupAccIds (e.refdes, g) ++ groupIds B)) ++
                [g.refdes ++ ":" ++ e.pin]) := by
            refine List.Perm.trans
              (List.Perm.append_left _ (List.Perm.append_right _ hpermg)) ?_
            have hassoc : (groupAccIds (e.refdes, g) ++
                [g.refdes ++ ":" ++ e.pin]) ++ groupIds B =
                (groupAccIds (e.refdes, g) ++
                  ([g.refdes ++ ":" ++ e.pin] ++ groupIds B)) := by simp
            exact insert_middle_perm _ _ _ _
          rw [houter.nodup_iff, List.nodup_append]
          refine ⟨by rw [hga] at h1; exact h1, List.nodup_singleton _, ?_⟩
          intro x hx hx2
          have hxe : x = g.refdes ++ ":" ++ e.pin := by simpa using hx2
          subst hxe
          refine hnew ?_
          rw [pinIdOf, ← hgr, hga]
          exact hx
        · intro p hp
          rcases List.mem_append.mp hp with hp | hp
          · exact h2 p (by rw [hAB]; exact List.mem_append_left _ hp)
          · rcases List.mem_cons.mp hp with hp | hp
            · subst hp
              exact hgr
            · exact h2 p
                (by rw [hAB]
                    exact List.mem_append_right _ (List.mem_cons_of_mem _ hp))
        · intro p hp b hb pin hpin
          rcases List.mem_append.mp hp with hp | hp
          · obtain ⟨e', he', hprops⟩ :=
              h3 p (by rw [hAB]; exact List.mem_append_left _ hp) b hb pin hpin
            exact ⟨e', List.mem_append_left _ he', hprops⟩
          · rcases List.mem_cons.mp hp with hp | hp
            · subst hp
              have hb' : b ∈ A' ++ (e.net, ps ++ [e.pin]) :: B' := by
                rw [← hset' (ps ++ [e.pin])]
                exact hb
              rcases List.mem_append.mp hb' with hb2 | hb2
              · obtain ⟨e', he', hprops⟩ := h3 (e.refdes, g)
                  (by rw [hAB]
                      exact List.mem_append_right _ (List.mem_cons_self _ _))
                  b (by rw [hAB']; exact List.mem_append_left _ hb2) pin hpin
                exact ⟨e', List.mem_append_left _ he', hprops⟩
              · rcases List.mem_cons.mp hb2 with hb3 | hb3
                · subst hb3
                  rcases List.mem_append.mp hpin with hp4 | hp4
                  · obtain ⟨e', he', hprops⟩ := h3 (e.refdes, g)
                      (by rw [hAB]
                          exact List.mem_append_right _ (List.mem_cons_self _ _))
                      (e.net, ps)
                      (by rw [hAB']
                          exact List.mem_append_right _ (List.mem_cons_self _ _))
                      pin hp4
                    exact ⟨e', List.mem_append_left _ he', hprops⟩
                  · have hpne : pin = e.pin := by simpa using hp4
                    subst hpne
                    exact ⟨e, List.mem_append_right _ (by simp), hgr.symm,
                      rfl, rfl⟩
                · obtain ⟨e', he', hprops⟩ := h3 (e.refdes, g)
                    (by rw [hAB]
                        exact List.mem_append_right _ (List.mem_cons_self _ _))
                    b (by rw [hAB']
                          exact List.mem_append_right _
                            (List.mem_cons_of_mem _ hb3)) pin hpin
                  exact ⟨e', List.mem_append_left _ he', hprops⟩
            · obtain ⟨e', he', hprops⟩ := h3 p
                (by rw [hAB]
                    exact List.mem_append_right _ (List.mem_cons_of_mem _ hp))
                b hb pin hpin
              exact ⟨e', List.mem_append_left _ he', hprops⟩
        · intro p hp b hb
          rcases List.mem_append.mp hp with hp | hp
          · obtain ⟨e', he', hprops⟩ :=
              h4 p (by rw [hAB]; exact List.mem_append_left _ hp) b hb
            exact ⟨e', List.mem_append_left _ he', hprops⟩
          · rcases List.mem_cons.mp hp with hp | hp
            · subst hp
              have hb' : b ∈ A' ++ (e.net, ps ++ [e.pin]) :: B' := by
                rw [← hset' (ps ++ [e.pin])]
                exact hb
              rcases List.mem_append.mp hb' with hb2 | hb2
              · obtain ⟨e', he', hprops⟩ := h4 (e.refdes, g)
                  (by rw [hAB]
                      exact List.mem_append_right _ (List.mem_cons_self _ _))
                  b (by rw [hAB']; exact List.mem_append_left _ hb2)
                exact ⟨e', List.mem_append_left _ he', hprops⟩
              · rcases List.mem_cons.mp hb2 with hb3 | hb3
                · subst hb3
                  exact ⟨e, List.mem_append_right _ (by simp), hgr.symm, rfl⟩
                · obtain ⟨e', he', hprops⟩ := h4 (e.refdes, g)
                    (by rw [hAB]
                        exact List.mem_append_right _ (List.mem_cons_self _ _))
                    b (by rw [hAB']
                          exact List.mem_append_right _
                            (List.mem_cons_of_mem _ hb3))
                  exact ⟨e', List.mem_append_left _ he', hprops⟩
            · obtain ⟨e', he', hprops⟩ := h4 p
                (by rw [hAB]
                    exact List.mem_append_right _ (List.mem_cons_of_mem _ hp))
                b hb
              exact ⟨e', List.mem_append_left _ he', hprops⟩

/-- The grouping fold preserves the invariant along any duplicate-free
flat record list. -/
theorem groupFold_inv :
    ∀ (rest processed : List FlatCircuitEntry)
      (acc : List (String × GroupAcc)),
      GroupFoldInv processed acc →
      ((processed ++ rest).map pinIdOf).Nodup →
      GroupFoldInv (processed ++ rest) (rest.foldl groupInsert acc)
  | [], processed, acc, h, _ => by simpa using h
  | e :: rest, processed, acc, h, hnd => by
    have hfresh : pinIdOf e ∉ processed.map pinIdOf := by
      intro hmem
      rw [List.map_append] at hnd
      rcases List.nodup_append.mp hnd with ⟨_, _, hdisj⟩
      exact hdisj hmem (by simp)
    have heq : processed ++ e :: rest = (processed ++ [e]) ++ rest := by simp
    rw [List.foldl_cons, heq]
    exact groupFold_inv rest (processed ++ [e]) _
      (groupInsert_inv e h hfresh) (by rw [← heq]; exact hnd)

/-- The grouping invariant holds of the full fold over a duplicate-free
flat record list. -/
theorem groupFold_inv_total (flat : List FlatCircuitEntry)
    (hnd : (flat.map pinIdOf).Nodup) :
    GroupFoldInv flat (flat.foldl groupInsert []) := by
  have hbase : GroupFoldInv [] [] := by
    refine ⟨by simp [groupIds], by simp, by simp, by simp⟩
  have := groupFold_inv flat [] [] hbase (by simpa using hnd)
  simpa using this

/-- The pin identifiers readable off the grouped output permute the
identifiers recorded in the grouping accumulator. -/
theorem grouped_ids_perm (flat : List FlatCircuitEntry) (vns : List String)
    (skipped : List (String × Nat)) :
    ((groupCircuitPins flat vns skipped).components.flatMap
      (fun c => c.connections.flatMap
        (fun k => k.pins.map (fun q => c.refdes ++ ":" ++ q)))).Perm
      (groupIds (flat.foldl groupInsert [])) := by
  unfold groupCircuitPins
  dsimp only
  generalize flat.foldl groupInsert [] = acc
  induction acc with
  | nil => simp [groupIds]
  | cons p rest ih =>
    simp only [List.map_cons, List.flatMap_cons]
    have hgc : groupIds (p :: rest) = groupAccIds p ++ groupIds rest := by
      simp [groupIds]
    rw [hgc]
    refine List.Perm.append ?_ ih
    dsimp only
    refine ((jsSortBy_perm _ _).flatMap_right _).trans ?_
    rw [List.flatMap_map, groupAccIds]
    refine List.Perm.flatMap_left _ ?_
    intro b _
    dsimp only
    exact (jsSortBy_perm naturalSort b.2).map _

/-- The grouped output of a duplicate-free flat record list carries
duplicate-free pin identifiers. -/
theorem grouped_ids_nodup (flat : List FlatCircuitEntry) (vns : List String)
    (skipped : List (String × Nat)) (hnd : (flat.map pinIdOf).Nodup) :
    ((groupCircuitPins flat vns skipped).components.flatMap
      (fun c => c.connections.flatMap
        (fun k => k.pins.map (fun q => c.refdes ++ ":" ++ q)))).Nodup := by
  rw [(grouped_ids_perm flat vns skipped).nodup_iff]
  exact (groupFold_inv_total flat hnd).1

/-- Every connection of the grouped output inherits the stop-net boundary
property of the flat records. -/
theorem grouped_stop_all (startNet : String) (flat : List FlatCircuitEntry)
    (vns : List String) (skipped : List (String × Nat))
    (hnd : (flat.map pinIdOf).Nodup)
    (hok : ∀ e ∈ flat, entryOk startNet e = true) :
    ((groupCircuitPins flat vns skipped).components.all
      (fun c => c.connections.all
        (fun k => !isStopNet k.net || k.net == startNet ||
          isPassive c.refdes))) = true := by
  obtain ⟨_, _, _, h4⟩ := groupFold_inv_total flat hnd
  rw [List.all_eq_true]
  intro c hc
  rw [List.all_eq_true]
  intro k hk
  unfold groupCircuitPins at hc
  dsimp only at hc
  rcases List.mem_map.mp hc with ⟨p, hp, hcp⟩
  subst hcp
  dsimp only at hk
  have hk' := (jsSortBy_perm _ _).mem_iff.mp hk
  rcases List.mem_map.mp hk' with ⟨b, hb, hkb⟩
  subst hkb
  obtain ⟨e, he, her, hen⟩ := h4 p hp b hb
  have hentry := hok e he
  rw [entryOk] at hentry
  dsimp only
  rw [← hen, ← her]
  exact hentry

/-- C7: no pin identifier `refdes:pin` occurs twice in the grouped output
of any traversal: each pin of each component is emitted at most once, and
no pin recurs across the connections of one component. -/
theorem pin_visit_uniqueness (startNet : String) (nets : NetConnections)
    (components : ComponentDetails) (options : TraversalOptions) :
    ((traverseCircuitFromNet startNet nets components options).components.flatMap
      (fun c => c.connections.flatMap
        (fun k => k.pins.map (fun q => c.refdes ++ ":" ++ q)))).Nodup := by
  unfold traverseCircuitFromNet
  split
  · simp
  · dsimp only
    exact grouped_ids_nodup _ _ _
      (runTraversal_start_inv startNet nets components _ _ _).1

/-- C1 (amended): in every traversal output, a connection on a stop net
other than the start net belongs to a passive component only — stop-net
endpoints of active components are never emitted. -/
theorem stop_net_connections_only_start_or_passive (startNet : String)
    (nets : NetConnections) (components : ComponentDetails)
    (options : TraversalOptions) :
    ((traverseCircuitFromNet startNet nets components options).components.all
      (fun c => c.connections.all
        (fun k => !isStopNet k.net || k.net == startNet ||
          isPassive c.refdes))) = true := by
  unfold traverseCircuitFromNet
  split
  · simp
  · dsimp only
    have hinv := runTraversal_start_inv startNet nets components
      (options.skipTypes.map (fun ty => jsToUpper (jsTrim ty)))
      options.includeDns (nets.length + 1)
    exact grouped_stop_all startNet _ _ _ hinv.1 hinv.2.2.1

/-! ## C4: the record parser's index assignment -/

/-- One filter-map step of `parseRecords`: a produced record keeps its
segment position as index, has at least one attribute, and comes from a
non-empty segment. -/
theorem parseRecords_step {i : Nat} {s : List Nat} {r : AltiumRecord}
    (h : (if s.length = 0 then none
      else
        let record := parseSegment s i
        if record.attrs.length > 0 then some record else none) = some r) :
    r.index = i ∧ 0 < r.attrs.length ∧ 0 < s.length ∧ parseSegment s i = r := by
  split at h
  · exact absurd h (by simp)
  · rename_i hlen
    dsimp only at h
    split at h
    · rename_i hattrs
      obtain rfl : parseSegment s i = r := by simpa using h
      exact ⟨rfl, hattrs, by omega, rfl⟩
    · exact absurd h (by simp)

/-- Records produced from segments enumerated from `n` have index at
least `n`. -/
theorem parseRecords_idx_ge :
    ∀ (segs : List (List Nat)) (n : Nat) (r : AltiumRecord),
      r ∈ (segs.enumFrom n).filterMap (fun p =>
        if p.2.length = 0 then none
        else
          let record := parseSegment p.2 p.1
          if record.attrs.length > 0 then some record else none) →
      n ≤ r.index
  | [], _, r, h => by simp at h
  | s :: rest, n, r, h => by
    rw [List.enumFrom_cons, List.filterMap_cons] at h
    cases hfa : (if s.length = 0 then none
        else
          let record := parseSegment s n
          if record.attrs.length > 0 then some record else none) with
    | none =>
      rw [hfa] at h
      exact Nat.le_of_succ_le (parseRecords_idx_ge rest (n + 1) r h)
    | some r' =>
      rw [hfa] at h
      rcases List.mem_cons.mp h with h | h
      · subst h
        have hidx := (parseRecords_step hfa).1
        omega
      · exact Nat.le_of_succ_le (parseRecords_idx_ge rest (n + 1) r h)

/-- The records produced from an enumerated segment list carry strictly
increasing indices. -/
theorem parseRecords_idx_pairwise :
    ∀ (segs : List (List Nat)) (n : Nat),
      ((segs.enumFrom n).filterMap (fun p =>
        if p.2.length = 0 then none
        else
          let record := parseSegment p.2 p.1
          if record.attrs.length > 0 then some record else none)).Pairwise
        (fun a b => a.index < b.index)
  | [], _ => by simp
  | s :: rest, n => by
    rw [List.enumFrom_cons, List.filterMap_cons]
    cases hfa : (if s.length = 0 then none
        else
          let record := parseSegment s n
          if record.attrs.length > 0 then some record else none) with
    | none => exact parseRecords_idx_pairwise rest (n + 1)
    | some r' =>
      rw [List.pairwise_cons]
      refine ⟨?_, parseRecords_idx_pairwise rest (n + 1)⟩
      intro r hr
      have hge := parseRecords_idx_ge rest (n + 1) r hr
      have hidx := (parseRecords_step hfa).1
      omega

/-- C4 (amended): `parseRecords` segregates records by their `HEADER` and
`RECORD` keys, keeps the body in order of strictly increasing index, drops
attribute-less records, and assigns each record its position within the
parsed segment sequence — shared with header and dropped records — as its
index, so each kept record re-parses from the segment at that position. -/
theorem parse_records_amended (buffer : List Nat) :
    ((parseRecords buffer).header.all (fun r => hasKey r "HEADER")) = true ∧
    ((parseRecords buffer).records.all (fun r => hasKey r "RECORD")) = true ∧
    ((parseRecords buffer).records.Pairwise
      (fun a b => a.index < b.index)) ∧
    (((parseRecords buffer).header ++ (parseRecords buffer).records).all
      (fun r => decide (0 < r.attrs.length) &&
        match (splitByDelimiter
            ((buffer.take (buffer.length - 1)).drop 5))[r.index]? with
        | some seg => decide (0 < seg.length) &&
            decide (parseSegment seg r.index = r)
        | none => false)) = true := by
  refine ⟨?_, ?_, ?_, ?_⟩
  · rw [List.all_eq_true]
    intro r hr
    unfold parseRecords at hr
    dsimp only at hr
    exact (List.mem_filter.mp hr).2
  · rw [List.all_eq_true]
    intro r hr
    unfold parseRecords at hr
    dsimp only at hr
    exact (List.mem_filter.mp hr).2
  · show ((parseRecords buffer).records).Pairwise _
    unfold parseRecords
    dsimp only
    exact (parseRecords_idx_pairwise _ 0).filter _
  · rw [List.all_eq_true]
    intro r hr
    have hdat : r ∈ (List.enumFrom 0 (splitByDelimiter
        ((buffer.take (buffer.length - 1)).drop 5))).filterMap (fun p =>
        if p.2.length = 0 then none
        else
          let record := parseSegment p.2 p.1
          if record.attrs.length > 0 then some record else none) := by
      unfold parseRecords at hr
      dsimp only at hr
      rcases List.mem_append.mp hr with hr | hr
      · exact (List.mem_filter.mp hr).1
      · exact (List.mem_filter.mp hr).1
    rcases List.mem_filterMap.mp hdat with ⟨p, hp, hf⟩
    obtain ⟨i, seg⟩ := p
    obtain ⟨hidx, hattrs, hseg, hparse⟩ := parseRecords_step hf
    have hget : (splitByDelimiter
        ((buffer.take (buffer.length - 1)).drop 5))[r.index]? = some seg := by
      rw [hidx]
      exact List.mem_enum_iff_getElem?.mp hp
    simp only [hget]
    rw [hidx]
    simp [hattrs, hseg, hparse]

/-! ## C2: Cadence model symmetry -/

/-- Looking up the key just set yields the new value. -/
theorem lookupAssoc_setAssoc_self {β : Type} (k : String) (v : β) :
    ∀ m : List (String × β), lookupAssoc (setAssoc m k v) k = some v
  | [] => by simp [setAssoc, lookupAssoc, List.find?]
  | (k₁, v₁) :: rest => by
    by_cases hk : (k₁ == k) = true
    · rw [setAssoc, if_pos hk]
      simp [lookupAssoc, List.find?]
    · rw [setAssoc, if_neg hk]
      simp only [lookupAssoc, List.find?, hk]
      exact lookupAssoc_setAssoc_self k v rest

/-- Setting one key leaves lookups of other keys unchanged. -/
theorem lookupAssoc_setAssoc_ne {β : Type} (k k' : String) (v : β)
    (hne : k ≠ k') :
    ∀ m : List (String × β), lookupAssoc (setAssoc m k v) k' = lookupAssoc m k'
  | [] => by
    have hb : (k == k') = false := beq_eq_false_iff_ne.mpr hne
    simp [setAssoc, lookupAssoc, List.find?, hb]
  | (k₁, v₁) :: rest => by
    have hb : (k == k') = false := beq_eq_false_iff_ne.mpr hne
    by_cases hk : (k₁ == k) = true
    · rw [setAssoc, if_pos hk]
      have hkk : k₁ = k := by simpa using hk
      simp [lookupAssoc, List.find?, hb, hkk]
    · rw [setAssoc, if_neg hk]
      cases hk' : (k₁ == k') with
      | true => simp [lookupAssoc, List.find?, hk']
      | false =>
        simp only [lookupAssoc, List.find?, hk']
        exact lookupAssoc_setAssoc_ne k k' v hne rest

/-- A created pin entry embeds the requested net. -/
theorem getPinNet_createPinEntry (pin : String) (pn : Option String)
    (netName : String) :
    getPinNet (createPinEntry pin pn netName) = netName := by
  unfold createPinEntry
  split
  · split <;> rfl
  · rfl

/-- The pstchip value fill of `cadencePinMapEntry` does not touch the pin
map. -/
theorem valueTweak_pins (partName : Option String)
    (valueMap : List (String × String)) (c : Component) :
    (match partName with
      | some pn =>
        if c.value.getD "" = "" then
          match lookupAssoc valueMap pn with
          | some v => if v ≠ "" then { c with value := some v }
            else c
          | none => c
        else c
      | none => c).pins = c.pins := by
  repeat' split
  all_goals rfl

/-- Every pin entry after the pin-writing loop is an original one or one
written for a listed pin with the processed net embedded. -/
theorem cadWritePins_mem (netName : String)
    (pinNameMap : Option (List (String × String))) :
    ∀ (pins : List String) (c : Component) (q : String × PinEntry),
      q ∈ (cadWritePins netName pinNameMap pins c).pins →
      q ∈ c.pins ∨ (q.1 ∈ pins ∧ getPinNet q.2 = netName)
  | [], _, _, h => Or.inl h
  | pin :: rest, c, q, h => by
    rw [cadWritePins] at h
    rcases cadWritePins_mem netName pinNameMap rest _ q h with h' | h'
    · rcases mem_setAssoc _ q h' with h2 | h2
      · exact Or.inl h2
      · subst h2
        exact Or.inr ⟨List.mem_cons_self _ _, getPinNet_createPinEntry _ _ _⟩
    · exact Or.inr ⟨List.mem_cons_of_mem _ h'.1, h'.2⟩

/-- The pin-writing loop leaves unlisted pins untouched. -/
theorem cadWritePins_lookup_not_mem (netName : String)
    (pinNameMap : Option (List (String × String))) :
    ∀ (pins : List String) (c : Component) (pin : String), pin ∉ pins →
      lookupAssoc (cadWritePins netName pinNameMap pins c).pins pin =
        lookupAssoc c.pins pin
  | [], _, _, _ => rfl
  | p :: rest, c, pin, h => by
    have hpr : pin ∉ rest := fun hc => h (List.mem_cons_of_mem _ hc)
    have hpp : p ≠ pin := fun hc => h (hc ▸ List.mem_cons_self _ _)
    rw [cadWritePins]
    rw [cadWritePins_lookup_not_mem netName pinNameMap rest _ pin hpr]
    exact lookupAssoc_setAssoc_ne p pin _ hpp _

/-- Every listed pin resolves after the pin-writing loop, to an entry
embedding the processed net. -/
theorem cadWritePins_lookup_mem (netName : String)
    (pinNameMap : Option (List (String × String))) :
    ∀ (pins : List String) (c : Component) (pin : String), pin ∈ pins →
      ∃ pe, lookupAssoc (cadWritePins netName pinNameMap pins c).pins pin =
        some pe ∧ getPinNet pe = netName
  | [], _, pin, h => absurd h (List.not_mem_nil pin)
  | p :: rest, c, pin, h => by
    by_cases hp : pin ∈ rest
    · exact cadWritePins_lookup_mem netName pinNameMap rest _ pin hp
    · have hpp : pin = p := by
        rcases List.mem_cons.mp h with h' | h'
        · exact h'
        · exact absurd h' hp
      subst hpp
      rw [cadWritePins]
      rw [cadWritePins_lookup_not_mem netName pinNameMap rest _ pin hp]
      exact ⟨_, lookupAssoc_setAssoc_self pin _ _,
        getPinNet_createPinEntry _ _ _⟩

/-- Triples that match no new write leave the last-write net unchanged. -/
theorem lastNet_append_no_match (P X : List (String × String × String))
    (r pin : String) (h : ∀ t ∈ X, ¬(t.2.1 = r ∧ t.2.2 = pin)) :
    lastNet? (P ++ X) r pin = lastNet? P r pin := by
  unfold lastNet?
  rw [List.reverse_append]
  have hX : X.reverse.find? (fun t => t.2.1 == r && t.2.2 == pin) = none := by
    rw [List.find?_eq_none]
    intro t ht
    have hnot := h t (List.mem_reverse.mp ht)
    simp only [Bool.and_eq_true, beq_iff_eq]
    exact fun hc => hnot ⟨hc.1, hc.2⟩
  rw [List.find?_append, hX]
  rfl

/-- A listed pin's last-write net after the writes of one net entry is
that entry's net. -/
theorem lastNet_append_match (P : List (String × String × String))
    (netName r : String) (pins : List String) (pin : String)
    (hpin : pin ∈ pins) :
    lastNet? (P ++ pins.map (fun q => (netName, r, q))) r pin =
      some netName := by
  unfold lastNet?
  rw [List.reverse_append, List.find?_append]
  have hmem : ((netName, r, pin) : String × String × String) ∈
      (pins.map (fun q => (netName, r, q))).reverse := by
    rw [List.mem_reverse]
    exact List.mem_map.mpr ⟨pin, hpin, rfl⟩
  have hiss : ((pins.map (fun q => (netName, r, q))).reverse.find?
      (fun t => t.2.1 == r && t.2.2 == pin)).isSome := by
    rw [List.find?_isSome]
    exact ⟨_, hmem, by simp⟩
  obtain ⟨t, ht⟩ := Option.isSome_iff_exists.mp hiss
  have htm := List.mem_of_find?_eq_some ht
  rw [List.mem_reverse] at htm
  rcases List.mem_map.mp htm with ⟨q, _, hq⟩
  rw [ht]
  subst hq
  rfl

/-- `saveCurrentComponent` stores only pin-less components. -/
theorem saveCurrentComponent_pins (st : XprtState)
    (h : ∀ p ∈ st.componentDetails, p.2.pins = []) :
    ∀ p ∈ (saveCurrentComponent st).componentDetails, p.2.pins = [] := by
  unfold saveCurrentComponent
  split
  · exact h
  · dsimp only
    intro p hp
    rcases mem_setAssoc _ p hp with h' | h'
    · exact h p h'
    · subst h'
      rfl

/-- One pstxprt line preserves pin-less component storage. -/
theorem xprtStep_pins (st : XprtState)
    (h : ∀ p ∈ st.componentDetails, p.2.pins = []) (line : String) :
    ∀ p ∈ (xprtStep st line).componentDetails, p.2.pins = [] := by
  unfold xprtStep
  repeat' split
  all_goals first
    | exact h
    | exact saveCurrentComponent_pins st h

/-- The pstxprt line fold preserves pin-less component storage. -/
theorem xprtFold_pins :
    ∀ (lines : List String) (st : XprtState),
      (∀ p ∈ st.componentDetails, p.2.pins = []) →
      ∀ p ∈ (lines.foldl xprtStep st).componentDetails, p.2.pins = []
  | [], _, h => h
  | line :: rest, st, h =>
    xprtFold_pins rest (xprtStep st line) (xprtStep_pins st h line)

/-- Every component parsed from pstxprt content has an empty pin map. -/
theorem xprt_pins_empty (content : String) :
    ∀ p ∈ (parsePstxprtContent content).components, p.2.pins = [] := by
  unfold parsePstxprtContent
  dsimp only
  exact saveCurrentComponent_pins _ (xprtFold_pins (cadenceLines content) _
    (by simp))

/-- Writing one valid-refdes net entry into the component index preserves
the Cadence pin-map invariant, for any value-filled base component that
keeps the stored pin map. -/
theorem cadWrite_inv (netName : String) (P : List (String × String × String))
    (comps : ComponentDetails) (hinv : CadInv P comps) (r : String)
    (hvalid : isValidRefdes r = true)
    (pinNameMap : Option (List (String × String))) (pins : List String)
    (C1 : Component)
    (hC1 : C1.pins = ((lookupAssoc comps r).getD { pins := [] }).pins) :
    CadInv (P ++ pins.map (fun pin => (netName, r, pin)))
      (setAssoc comps r (cadWritePins netName pinNameMap pins C1)) := by
  obtain ⟨h1, h2⟩ := hinv
  constructor
  · intro r' comp hlk q hq
    by_cases hrr : r = r'
    · subst hrr
      rw [lookupAssoc_setAssoc_self] at hlk
      obtain rfl : cadWritePins netName pinNameMap pins C1 = comp := by
        simpa using hlk
      rcases cadWritePins_mem netName pinNameMap pins C1 q hq with hqc | hqc
      · rw [hC1] at hqc
        cases hcc : lookupAssoc comps r with
        | none =>
          rw [hcc] at hqc
          simp at hqc
        | some c0 =>
          rw [hcc] at hqc
          obtain ⟨hv, hmem⟩ := h1 r c0 hcc q hqc
          exact ⟨hv, List.mem_append_left _ hmem⟩
      · refine ⟨hvalid, List.mem_append_right _ ?_⟩
        refine List.mem_map.mpr ⟨q.1, hqc.1, ?_⟩
        rw [hqc.2]
    · rw [lookupAssoc_setAssoc_ne r r' _ hrr] at hlk
      obtain ⟨hv, hmem⟩ := h1 r' comp hlk q hq
      exact ⟨hv, List.mem_append_left _ hmem⟩
  · intro r' pin n hv hlast
    by_cases hrr : r = r'
    · subst hrr
      by_cases hpin : pin ∈ pins
      · rw [lastNet_append_match P netName r pins pin hpin] at hlast
        obtain rfl : netName = n := by simpa using hlast
        obtain ⟨pe, hpe, hpen⟩ :=
          cadWritePins_lookup_mem netName pinNameMap pins C1 pin hpin
        exact ⟨_, pe, lookupAssoc_setAssoc_self _ _ _, hpe, hpen⟩
      · have hnm : ∀ t ∈ pins.map (fun q => (netName, r, q)),
            ¬(t.2.1 = r ∧ t.2.2 = pin) := by
          intro t ht hc
          rcases List.mem_map.mp ht with ⟨p0, hp0, hte⟩
          subst hte
          obtain ⟨_, hc2⟩ := hc
          dsimp only at hc2
          rw [hc2] at hp0
          exact hpin hp0
        rw [lastNet_append_no_match P _ r pin hnm] at hlast
        obtain ⟨comp, pe, hlkc, hlkp, hpen⟩ := h2 r pin n hv hlast
        refine ⟨_, pe, lookupAssoc_setAssoc_self _ _ _, ?_, hpen⟩
        rw [cadWritePins_lookup_not_mem netName pinNameMap pins C1 pin hpin,
          hC1, hlkc]
        exact hlkp
    · have hnm : ∀ t ∈ pins.map (fun q => (netName, r, q)),
          ¬(t.2.1 = r' ∧ t.2.2 = pin) := by
        intro t ht hc
        rcases List.mem_map.mp ht with ⟨p0, _, hte⟩
        subst hte
        obtain ⟨hc1, _⟩ := hc
        dsimp only at hc1
        exact hrr hc1
      rw [lastNet_append_no_match P _ r' pin hnm] at hlast
      obtain ⟨comp, pe, hlkc, hlkp, hpen⟩ := h2 r' pin n hv hlast
      refine ⟨comp, pe, ?_, hlkp, hpen⟩
      rw [lookupAssoc_setAssoc_ne r r' _ hrr]
      exact hlkc

/-- One net entry of `buildCadencePinMap` preserves the invariant. -/
theorem cadencePinMapEntry_inv (netName : String)
    (pinNameMaps : List (String × List (String × String)))
    (valueMap partNames : List (String × String))
    (P : List (String × String × String)) (comps : ComponentDetails)
    (hinv : CadInv P comps) (r : String) (pins : List String) :
    CadInv (P ++ pins.map (fun pin => (netName, r, pin)))
      (cadencePinMapEntry netName pinNameMaps valueMap partNames comps
        r pins) := by
  unfold cadencePinMapEntry
  split
  · rename_i hnv
    have hval : isValidRefdes r = false := by simpa using hnv
    obtain ⟨h1, h2⟩ := hinv
    constructor
    · intro r' comp hlk q hq
      obtain ⟨hv, hmem⟩ := h1 r' comp hlk q hq
      exact ⟨hv, List.mem_append_left _ hmem⟩
    · intro r' pin n hv hlast
      have hnm : ∀ t ∈ pins.map (fun q => (netName, r, q)),
          ¬(t.2.1 = r' ∧ t.2.2 = pin) := by
        intro t ht hc
        rcases List.mem_map.mp ht with ⟨p0, _, hte⟩
        subst hte
        obtain ⟨hc1, _⟩ := hc
        dsimp only at hc1
        rw [← hc1] at hv
        rw [hval] at hv
        exact Bool.false_ne_true hv
      rw [lastNet_append_no_match P _ r' pin hnm] at hlast
      exact h2 r' pin n hv hlast
  · rename_i hvbr
    have hvalid : isValidRefdes r = true := by simpa using hvbr
    dsimp only
    exact cadWrite_inv netName P comps hinv r hvalid _ pins _
      (valueTweak_pins _ _ _)

/-- The per-net entry fold of `buildCadencePinMap` preserves the
invariant. -/
theorem cadEntriesFold_inv (netName : String)
    (pinNameMaps : List (String × List (String × String)))
    (valueMap partNames : List (String × String)) :
    ∀ (entries : List (String × List String))
      (P : List (String × String × String)) (comps : ComponentDetails),
      CadInv P comps →
      CadInv (P ++ entries.flatMap (fun rp =>
          rp.2.map (fun pin => (netName, rp.1, pin))))
        (entries.foldl (fun comps rp =>
          cadencePinMapEntry netName pinNameMaps valueMap partNames comps
            rp.1 rp.2) comps)
  | [], P, comps, h => by simpa using h
  | (r, pins) :: rest, P, comps, h => by
    rw [List.foldl_cons, List.flatMap_cons]
    dsimp only
    have hstep := cadencePinMapEntry_inv netName pinNameMaps valueMap
      partNames P comps h r pins
    have hrec := cadEntriesFold_inv netName pinNameMaps valueMap partNames
      rest (P ++ pins.map (fun pin => (netName, r, pin))) _ hstep
    rw [← List.append_assoc]
    exact hrec

/-- The per-net fold of `buildCadencePinMap` preserves the invariant. -/
theorem cadNetsFold_inv (pinNameMaps : List (String × List (String × String)))
    (valueMap partNames : List (String × String)) :
    ∀ (N : List (String × List (String × List String)))
      (P : List (String × String × String)) (comps : ComponentDetails),
      CadInv P comps →
      CadInv (P ++ cadTriples N)
        (N.foldl (fun comps nc => nc.2.foldl (fun comps rp =>
          cadencePinMapEntry nc.1 pinNameMaps valueMap partNames comps
            rp.1 rp.2) comps) comps)
  | [], P, comps, h => by simpa [cadTriples] using h
  | (netName, entries) :: rest, P, comps, h => by
    rw [List.foldl_cons]
    dsimp only
    have hstep := cadEntriesFold_inv netName pinNameMaps valueMap partNames
      entries P comps h
    have hrec := cadNetsFold_inv pinNameMaps valueMap partNames rest _ _ hstep
    have hflat : cadTriples ((netName, entries) :: rest) =
        entries.flatMap (fun rp =>
          rp.2.map (fun pin => (netName, rp.1, pin))) ++ cadTriples rest := by
      simp [cadTriples]
    rw [hflat, ← List.append_assoc]
    exact hrec

/-- `buildCadencePinMap` establishes the invariant over all listed
triples, starting from any pin-invariant base. -/
theorem buildCadencePinMap_inv
    (N : List (String × List (String × List String)))
    (comps0 : ComponentDetails) (chips : List ChipPart)
    (partNames : List (String × String)) (h0 : CadInv [] comps0) :
    CadInv (cadTriples N) (buildCadencePinMap N comps0 chips partNames) := by
  unfold buildCadencePinMap
  dsimp only
  have := cadNetsFold_inv (buildPinNameMaps chips) (buildValueMap chips)
    partNames N [] comps0 h0
  simpa using this

/-- The universal net index of a Cadence parse lists the raw triples. -/
theorem netTriples_cadenceNets
    (N : List (String × List (String × List String))) :
    netTriples (cadenceNets N) = cadTriples N := by
  unfold netTriples cadenceNets cadTriples
  rw [List.flatMap_map]
  congr 1
  funext nc
  dsimp only
  rw [List.flatMap_map]
  rfl

/-- The empty triple prefix is invariant for any pin-less component base. -/
theorem cadInv_base (comps0 : ComponentDetails)
    (hpins : ∀ p ∈ comps0, p.2.pins = []) : CadInv [] comps0 := by
  constructor
  · intro r c hlkc q hq
    have := hpins _ (lookupAssoc_mem hlkc)
    rw [this] at hq
    exact absurd hq (List.not_mem_nil q)
  · intro r pin n _ hlast
    exact absurd hlast (by simp [lastNet?])

/-- A pin write leaves a pin entry that is an old one or carries the
written net. -/
theorem populateEntry_mem (netName : String)
    (pins : List (String × PinEntry)) (pin : String) (q : String × PinEntry)
    (h : q ∈ populateEntry netName pins pin) :
    q ∈ pins ∨ (q.1 = pin ∧ getPinNet q.2 = netName) := by
  unfold populateEntry at h
  split at h
  all_goals
    rcases mem_setAssoc _ q h with h' | h'
  all_goals
    first
      | exact Or.inl h'
      | (subst h'; exact Or.inr ⟨rfl, rfl⟩)

/-- A pin write makes its pin resolve to the written net. -/
theorem populateEntry_lookup_self (netName : String)
    (pins : List (String × PinEntry)) (pin : String) :
    ∃ pe, lookupAssoc (populateEntry netName pins pin) pin = some pe ∧
      getPinNet pe = netName := by
  unfold populateEntry
  split
  all_goals exact ⟨_, lookupAssoc_setAssoc_self _ _ _, rfl⟩

/-- A pin write leaves other pins unchanged. -/
theorem populateEntry_lookup_ne (netName : String)
    (pins : List (String × PinEntry)) (pin pin' : String) (h : pin ≠ pin') :
    lookupAssoc (populateEntry netName pins pin) pin' =
      lookupAssoc pins pin' := by
  unfold populateEntry
  split
  all_goals exact lookupAssoc_setAssoc_ne _ _ _ h _

/-- Every pin entry after the `populatePinNets` pin loop is an original
one or one written for a listed pin with the processed net embedded. -/
theorem populateWritePins_mem (netName : String) :
    ∀ (l : List String) (pins0 : List (String × PinEntry))
      (q : String × PinEntry),
      q ∈ populateWritePins netName l pins0 →
      q ∈ pins0 ∨ (q.1 ∈ l ∧ getPinNet q.2 = netName)
  | [], _, _, h => Or.inl h
  | pin :: rest, pins0, q, h => by
    rw [populateWritePins] at h
    rcases populateWritePins_mem netName rest _ q h with h' | h'
    · rcases populateEntry_mem netName pins0 pin q h' with h2 | h2
      · exact Or.inl h2
      · refine Or.inr ⟨?_, h2.2⟩
        rw [h2.1]
        exact List.mem_cons_self _ _
    · exact Or.inr ⟨List.mem_cons_of_mem _ h'.1, h'.2⟩

/-- The `populatePinNets` pin loop leaves unlisted pins untouched. -/
theorem populateWritePins_lookup_not_mem (netName : String) :
    ∀ (l : List String) (pins0 : List (String × PinEntry)) (pin : String),
      pin ∉ l →
      lookupAssoc (populateWritePins netName l pins0) pin =
        lookupAssoc pins0 pin
  | [], _, _, _ => rfl
  | p :: rest, pins0, pin, h => by
    have hpr : pin ∉ rest := fun hc => h (List.mem_cons_of_mem _ hc)
    have hpp : p ≠ pin := fun hc => h (hc ▸ List.mem_cons_self _ _)
    rw [populateWritePins]
    rw [populateWritePins_lookup_not_mem netName rest _ pin hpr]
    exact populateEntry_lookup_ne netName pins0 p pin hpp

/-- Every listed pin resolves after the `populatePinNets` pin loop, to an
entry embedding the processed net. -/
theorem populateWritePins_lookup_mem (netName : String) :
    ∀ (l : List String) (pins0 : List (String × PinEntry)) (pin : String),
      pin ∈ l →
      ∃ pe, lookupAssoc (populateWritePins netName l pins0) pin = some pe ∧
        getPinNet pe = netName
  | [], _, pin, h => absurd h (List.not_mem_nil pin)
  | p :: rest, pins0, pin, h => by
    by_cases hp : pin ∈ rest
    · exact populateWritePins_lookup_mem netName rest _ pin hp
    · have hpp : pin = p := by
        rcases List.mem_cons.mp h with h' | h'
        · exact h'
        · exact absurd h' hp
      subst hpp
      rw [populateWritePins]
      rw [populateWritePins_lookup_not_mem netName rest _ pin hp]
      exact populateEntry_lookup_self netName pins0 pin

/-- One net entry of `populatePinNets` preserves the invariant. -/
theorem populateNode_inv (comps0 : ComponentDetails) (netName : String)
    (P : List (String × String × String)) (comps : ComponentDetails)
    (hinv : AltInv comps0 P comps) (r : String) (pv : PinsVal) :
    AltInv comps0 (P ++ (forOfPins pv).map (fun pin => (netName, r, pin)))
      (populateNode netName comps r pv) := by
  obtain ⟨hA, hB, hC⟩ := hinv
  unfold populateNode
  cases hlook : lookupAssoc comps r with
  | none =>
    have h0 : (lookupAssoc comps0 r).isSome = false := by
      have h1 := hA r
      rw [hlook] at h1
      exact h1.symm
    refine ⟨hA, ?_, ?_⟩
    · intro r' comp hlk q hq
      rcases hB r' comp hlk q hq with h' | h'
      · exact Or.inl h'
      · exact Or.inr (List.mem_append_left _ h')
    · intro r' pin n hlast hsome
      by_cases hrr : r = r'
      · subst hrr
        rw [h0] at hsome
        exact absurd hsome (by simp)
      · have hnm : ∀ t ∈ (forOfPins pv).map (fun q => (netName, r, q)),
            ¬(t.2.1 = r' ∧ t.2.2 = pin) := by
          intro t ht hc
          rcases List.mem_map.mp ht with ⟨p0, _, hte⟩
          subst hte
          obtain ⟨hc1, _⟩ := hc
          dsimp only at hc1
          exact hrr hc1
        rw [lastNet_append_no_match P _ r' pin hnm] at hlast
        exact hC r' pin n hlast hsome
  | some component =>
    refine ⟨?_, ?_, ?_⟩
    · intro r'
      by_cases hrr : r = r'
      · subst hrr
        rw [lookupAssoc_setAssoc_self]
        have h1 := hA r
        rw [hlook] at h1
        exact h1
      · rw [lookupAssoc_setAssoc_ne r r' _ hrr]
        exact hA r'
    · intro r' comp hlk q hq
      by_cases hrr : r = r'
      · subst hrr
        rw [lookupAssoc_setAssoc_self] at hlk
        obtain rfl : { component with
            pins := populateWritePins netName (forOfPins pv)
              component.pins } = comp := by simpa using hlk
        rcases populateWritePins_mem netName (forOfPins pv)
            component.pins q hq with h' | h'
        · rcases hB r component hlook q h' with h2 | h2
          · exact Or.inl h2
          · exact Or.inr (List.mem_append_left _ h2)
        · refine Or.inr (List.mem_append_right _ ?_)
          refine List.mem_map.mpr ⟨q.1, h'.1, ?_⟩
          rw [h'.2]
      · rw [lookupAssoc_setAssoc_ne r r' _ hrr] at hlk
        rcases hB r' comp hlk q hq with h' | h'
        · exact Or.inl h'
        · exact Or.inr (List.mem_append_left _ h')
    · intro r' pin n hlast hsome
      by_cases hrr : r = r'
      · subst hrr
        by_cases hpin : pin ∈ forOfPins pv
        · rw [lastNet_append_match P netName r (forOfPins pv) pin hpin]
            at hlast
          obtain rfl : netName = n := by simpa using hlast
          obtain ⟨pe, hpe, hpen⟩ := populateWritePins_lookup_mem netName
            (forOfPins pv) component.pins pin hpin
          exact ⟨_, pe, lookupAssoc_setAssoc_self _ _ _, hpe, hpen⟩
        · have hnm : ∀ t ∈ (forOfPins pv).map (fun q => (netName, r, q)),
              ¬(t.2.1 = r ∧ t.2.2 = pin) := by
            intro t ht hc
            rcases List.mem_map.mp ht with ⟨p0, hp0, hte⟩
            subst hte
            obtain ⟨_, hc2⟩ := hc
            dsimp only at hc2
            rw [hc2] at hp0
            exact hpin hp0
          rw [lastNet_append_no_match P _ r pin hnm] at hlast
          obtain ⟨comp, pe, hlkc, hlkp, hpen⟩ := hC r pin n hlast hsome
          have hcomp : comp = component := by
            rw [hlook] at hlkc
            exact (Option.some.inj hlkc).symm
          subst hcomp
          refine ⟨_, pe, lookupAssoc_setAssoc_self _ _ _, ?_, hpen⟩
          rw [populateWritePins_lookup_not_mem netName (forOfPins pv)
            comp.pins pin hpin]
          exact hlkp
      · have hnm : ∀ t ∈ (forOfPins pv).map (fun q => (netName, r, q)),
            ¬(t.2.1 = r' ∧ t.2.2 = pin) := by
          intro t ht hc
          rcases List.mem_map.mp ht with ⟨p0, _, hte⟩
          subst hte
          obtain ⟨hc1, _⟩ := hc
          dsimp only at hc1
          exact hrr hc1
        rw [lastNet_append_no_match P _ r' pin hnm] at hlast
        obtain ⟨comp, pe, hlkc, hlkp, hpen⟩ := hC r' pin n hlast hsome
        refine ⟨comp, pe, ?_, hlkp, hpen⟩
        rw [lookupAssoc_setAssoc_ne r r' _ hrr]
        exact hlkc

/-- The per-net entry fold of `populatePinNets` preserves the invariant. -/
theorem populateEntriesFold_inv (comps0 : ComponentDetails)
    (netName : String) :
    ∀ (entries : List (String × PinsVal))
      (P : List (String × String × String)) (comps : ComponentDetails),
      AltInv comps0 P comps →
      AltInv comps0 (P ++ entries.flatMap (fun rp =>
          (forOfPins rp.2).map (fun pin => (netName, rp.1, pin))))
        (entries.foldl (fun comps rp => populateNode netName comps rp.1 rp.2)
          comps)
  | [], P, comps, h => by simpa using h
  | (r, pv) :: rest, P, comps, h => by
    rw [List.foldl_cons, List.flatMap_cons]
    dsimp only
    have hstep := populateNode_inv comps0 netName P comps h r pv
    have hrec := populateEntriesFold_inv comps0 netName rest
      (P ++ (forOfPins pv).map (fun pin => (netName, r, pin))) _ hstep
    rw [← List.append_assoc]
    exact hrec

/-- The per-net fold of `populatePinNets` preserves the invariant. -/
theorem populateNetsFold_inv (comps0 : ComponentDetails) :
    ∀ (nets : NetConnections) (P : List (String × String × String))
      (comps : ComponentDetails),
      AltInv comps0 P comps →
      AltInv comps0 (P ++ forTriples nets)
        (nets.foldl (fun comps nc => nc.2.foldl (fun comps rp =>
          populateNode nc.1 comps rp.1 rp.2) comps) comps)
  | [], P, comps, h => by simpa [forTriples] using h
  | (netName, entries) :: rest, P, comps, h => by
    rw [List.foldl_cons]
    dsimp only
    have hstep := populateEntriesFold_inv comps0 netName entries P comps h
    have hrec := populateNetsFold_inv comps0 rest _ _ hstep
    have hflat : forTriples ((netName, entries) :: rest) =
        entries.flatMap (fun rp =>
          (forOfPins rp.2).map (fun pin => (netName, rp.1, pin))) ++
          forTriples rest := by
      simp [forTriples]
    rw [hflat, ← List.append_assoc]
    exact hrec

/-- `populatePinNets` establishes the invariant over all iterated
triples. -/
theorem populatePinNets_inv (components : ComponentDetails)
    (nets : NetConnections) :
    AltInv components (forTriples nets) (populatePinNets components nets) := by
  unfold populatePinNets
  have hbase : AltInv components [] components := by
    refine ⟨fun r => rfl, ?_, ?_⟩
    · intro r comp hlk q hq
      exact Or.inl ⟨comp, hlk, hq⟩
    · intro r pin n hlast _
      exact absurd hlast (by simp [lastNet?])
  have h := populateNetsFold_inv components nets [] components hbase
  simpa using h

/-- When every pin value of one net is an array, the iterated triples are
the listed ones. -/
theorem forTriples_entry_eq (netName : String) :
    ∀ (entries : List (String × PinsVal)),
      (∀ rp ∈ entries, ∃ l, rp.2 = PinsVal.many l) →
      entries.flatMap (fun rp =>
          (forOfPins rp.2).map (fun pin => (netName, rp.1, pin))) =
        entries.flatMap (fun rp =>
          (pinsArray rp.2).map (fun pin => (netName, rp.1, pin)))
  | [], _ => rfl
  | rp :: rest, h => by
    obtain ⟨l, hl⟩ := h rp (List.mem_cons_self _ _)
    rw [List.flatMap_cons, List.flatMap_cons]
    rw [forTriples_entry_eq netName rest
      (fun rp' h' => h rp' (List.mem_cons_of_mem _ h'))]
    rw [hl]
    rfl

/-- When every pin value of the net index is an array — as the Altium
`convertNets` always produces — the iterated triples are exactly the
listed ones. -/
theorem forTriples_eq_netTriples :
    ∀ (nets : NetConnections),
      (∀ nc ∈ nets, ∀ rp ∈ nc.2, ∃ l, rp.2 = PinsVal.many l) →
      forTriples nets = netTriples nets
  | [], _ => rfl
  | nc :: rest, h => by
    have hr := forTriples_eq_netTriples rest
      (fun nc' h' rp h2 => h nc' (List.mem_cons_of_mem _ h') rp h2)
    have e1 : forTriples (nc :: rest) =
        nc.2.flatMap (fun rp =>
          (forOfPins rp.2).map (fun pin => (nc.1, rp.1, pin))) ++
          forTriples rest := by
      simp [forTriples]
    have e2 : netTriples (nc :: rest) =
        nc.2.flatMap (fun rp =>
          (pinsArray rp.2).map (fun pin => (nc.1, rp.1, pin))) ++
          netTriples rest := by
      simp [netTriples]
    rw [e1, e2, hr, forTriples_entry_eq nc.1 nc.2 (h nc (List.mem_cons_self _ _))]

/-- C2 (counterexample): model symmetry fails at both decoders. Cadence:
the instance-path node @BAD.X stays in the net index while the component
index stays empty, and a (refdes, pin) listed under two nets keeps only
the last net. Altium `populatePinNets`: a refdes with no component is
skipped rather than created, an unconnected pin keeps its empty-string
placeholder net which names no net of the index, and a bare-string pin
value is iterated character-wise so its listed triple never resolves. -/
theorem model_symmetry_counterexample :
    (netTriples (parseCadenceContent instancePathXnet "" "").nets =
        [("A", "@BAD.X", "1")] ∧
      isValidRefdes "@BAD.X" = false ∧
      (parseCadenceContent instancePathXnet "" "").components = []) ∧
    (netTriples (parseCadenceContent dupPinXnet "" "").nets =
        [("A", "R1", "1"), ("B", "R1", "1")] ∧
      ((lookupAssoc (parseCadenceContent dupPinXnet "" "").components
          "R1").map (fun c => (lookupAssoc c.pins "1").map getPinNet)) =
        some (some "B")) ∧
    (netTriples [("A", [("U9", PinsVal.many ["1"])])] = [("A", "U9", "1")] ∧
      populatePinNets [] [("A", [("U9", PinsVal.many ["1"])])] = []) ∧
    (populatePinNets [("U1", { pins := [("2", PinEntry.bare "")] })] [] =
        [("U1", { pins := [("2", PinEntry.bare "")] })] ∧
      getPinNet (PinEntry.bare "") = "" ∧
      netTriples ([] : NetConnections) = []) ∧
    (netTriples [("A", [("R1", PinsVal.one "12")])] = [("A", "R1", "12")] ∧
      ((lookupAssoc (populatePinNets [("R1", ({} : Component))]
          [("A", [("R1", PinsVal.one "12")])]) "R1").map
            (fun c => lookupAssoc c.pins "12")) = some none) := by
  exact ⟨⟨by decide, by decide, by decide⟩, ⟨by decide, by decide⟩,
    ⟨by decide, by decide⟩, ⟨by decide, by decide, by decide⟩,
    ⟨by decide, by decide⟩⟩

/-- C2 (amended): model symmetry in the restricted form each decoder's
pin-population step guarantees. Cadence: every stored pin entry is a
valid-refdes triple of the net index with its embedded net, and a triple
whose refdes is valid and whose `(refdes, pin)` pair is listed under no
other net resolves in the component index to a pin entry embedding its
net. Altium `populatePinNets`, for any component index and any net index
with array pin values: every pin entry of the populated components is an
untouched input entry or a triple of the net index with its embedded net,
and a triple whose refdes has a component and whose `(refdes, pin)` pair
is listed under no other net resolves to a pin entry embedding its net. -/
theorem model_symmetry_amended (xnet xprt xchip : String)
    (components : ComponentDetails) (nets : NetConnections)
    (hArr : ∀ nc ∈ nets, ∀ rp ∈ nc.2, ∃ l, rp.2 = PinsVal.many l) :
    (∀ refdes comp,
      lookupAssoc (parseCadenceContent xnet xprt xchip).components refdes =
        some comp →
      ∀ q ∈ comp.pins,
        isValidRefdes refdes = true ∧
        (getPinNet q.2, refdes, q.1) ∈
          netTriples (parseCadenceContent xnet xprt xchip).nets) ∧
    (∀ n refdes pin,
      (n, refdes, pin) ∈ netTriples (parseCadenceContent xnet xprt xchip).nets →
      isValidRefdes refdes = true →
      (∀ t ∈ netTriples (parseCadenceContent xnet xprt xchip).nets,
        t.2.1 = refdes → t.2.2 = pin → t.1 = n) →
      ∃ comp pe,
        lookupAssoc (parseCadenceContent xnet xprt xchip).components refdes =
          some comp ∧
        lookupAssoc comp.pins pin = some pe ∧ getPinNet pe = n) ∧
    (∀ refdes comp,
      lookupAssoc (populatePinNets components nets) refdes = some comp →
      ∀ q ∈ comp.pins,
        (∃ comp0, lookupAssoc components refdes = some comp0 ∧
          q ∈ comp0.pins) ∨
        (getPinNet q.2, refdes, q.1) ∈ netTriples nets) ∧
    (∀ n refdes pin,
      (n, refdes, pin) ∈ netTriples nets →
      (lookupAssoc components refdes).isSome = true →
      (∀ t ∈ netTriples nets, t.2.1 = refdes → t.2.2 = pin → t.1 = n) →
      ∃ comp pe,
        lookupAssoc (populatePinNets components nets) refdes = some comp ∧
        lookupAssoc comp.pins pin = some pe ∧ getPinNet pe = n) := by
  have h0 : CadInv [] (parsePstxprtContent xprt).components :=
    cadInv_base _ (xprt_pins_empty xprt)
  obtain ⟨h1, h2⟩ := buildCadencePinMap_inv (parsePstxnetContent xnet)
    (parsePstxprtContent xprt).components (parsePstchipContent xchip)
    (parsePstxprtContent xprt).partNames h0
  have hT : forTriples nets = netTriples nets :=
    forTriples_eq_netTriples nets hArr
  obtain ⟨hA, hB, hC⟩ := populatePinNets_inv components nets
  refine ⟨?_, ?_, ?_, ?_⟩
  · intro refdes comp hlk q hq
    have hlk' : lookupAssoc (buildCadencePinMap (parsePstxnetContent xnet)
        (parsePstxprtContent xprt).components (parsePstchipContent xchip)
        (parsePstxprtContent xprt).partNames) refdes = some comp := hlk
    obtain ⟨hv, hmem⟩ := h1 refdes comp hlk' q hq
    refine ⟨hv, ?_⟩
    show (getPinNet q.2, refdes, q.1) ∈
      netTriples (cadenceNets (parsePstxnetContent xnet))
    rw [netTriples_cadenceNets]
    exact hmem
  · intro n refdes pin hmem hv huniq
    have hmem' : (n, refdes, pin) ∈ cadTriples (parsePstxnetContent xnet) := by
      rw [← netTriples_cadenceNets]
      exact hmem
    have hlast : lastNet? (cadTriples (parsePstxnetContent xnet)) refdes pin =
        some n := by
      unfold lastNet?
      have hiss : ((cadTriples (parsePstxnetContent xnet)).reverse.find?
          (fun t => t.2.1 == refdes && t.2.2 == pin)).isSome := by
        rw [List.find?_isSome]
        exact ⟨(n, refdes, pin), by rw [List.mem_reverse]; exact hmem',
          by simp⟩
      obtain ⟨t, ht⟩ := Option.isSome_iff_exists.mp hiss
      have htm := List.mem_reverse.mp (List.mem_of_find?_eq_some ht)
      have htp := List.find?_some ht
      simp only [Bool.and_eq_true, beq_iff_eq] at htp
      have htn : t.1 = n := by
        refine huniq t ?_ htp.1 htp.2
        show t ∈ netTriples (cadenceNets (parsePstxnetContent xnet))
        rw [netTriples_cadenceNets]
        exact htm
      rw [ht]
      simp [htn]
    obtain ⟨comp, pe, hlkc, hlkp, hpen⟩ := h2 refdes pin n hv hlast
    exact ⟨comp, pe, hlkc, hlkp, hpen⟩
  · intro refdes comp hlk q hq
    rcases hB refdes comp hlk q hq with h' | h'
    · exact Or.inl h'
    · rw [hT] at h'
      exact Or.inr h'
  · intro n refdes pin hmem hsome huniq
    have hmem' : (n, refdes, pin) ∈ forTriples nets := by
      rw [hT]
      exact hmem
    have hlast : lastNet? (forTriples nets) refdes pin = some n := by
      unfold lastNet?
      have hiss : ((forTriples nets).reverse.find?
          (fun t => t.2.1 == refdes && t.2.2 == pin)).isSome := by
        rw [List.find?_isSome]
        exact ⟨(n, refdes, pin), by rw [List.mem_reverse]; exact hmem',
          by simp⟩
      obtain ⟨t, ht⟩ := Option.isSome_iff_exists.mp hiss
      have htm := List.mem_reverse.mp (List.mem_of_find?_eq_some ht)
      have htp := List.find?_some ht
      simp only [Bool.and_eq_true, beq_iff_eq] at htp
      have htn : t.1 = n := by
        refine huniq t ?_ htp.1 htp.2
        rw [← hT]
        exact htm
      rw [ht]
      simp [htn]
    exact hC refdes pin n hlast hsome

/-- C2 witness: on a one-net, one-node design with the valid refdes R1,
the amended symmetry resolves pin 1 of R1 to net A under either decoder's
pin-population step. -/
theorem model_symmetry_amended_witness :
    (∃ comp pe,
      lookupAssoc (parseCadenceContent "NET_NAME\n'A'\nNODE_NAME\tR1 1\n"
        "" "").components "R1" = some comp ∧
      lookupAssoc comp.pins "1" = some pe ∧ getPinNet pe = "A") ∧
    (∃ comp pe,
      lookupAssoc (populatePinNets [("R1", ({} : Component))]
        [("A", [("R1", PinsVal.many ["1"])])]) "R1" = some comp ∧
      lookupAssoc comp.pins "1" = some pe ∧ getPinNet pe = "A") :=
  ⟨(model_symmetry_amended "NET_NAME\n'A'\nNODE_NAME\tR1 1\n" "" ""
      [("R1", ({} : Component))] [("A", [("R1", PinsVal.many ["1"])])]
      (by simp)).2.1 "A" "R1" "1" (by decide) (by decide) (by decide),
   (model_symmetry_amended "NET_NAME\n'A'\nNODE_NAME\tR1 1\n" "" ""
      [("R1", ({} : Component))] [("A", [("R1", PinsVal.many ["1"])])]
      (by simp)).2.2.2 "A" "R1" "1" (by decide) (by decide) (by decide)⟩

/-! ## C6: the fingerprint under tie-free comparators -/

/-- Code-point comparison is reflexive-zero. -/
theorem cmpCharList_self : ∀ a, cmpCharList a a = 0
  | [] => rfl
  | c :: cs => by
    rw [cmpCharList]
    simp [cmpCharList_self cs]

/-- Code-point comparison flips sign under argument swap. -/
theorem cmpCharList_flip : ∀ a b, cmpCharList b a = -cmpCharList a b
  | [], [] => by simp [cmpCharList]
  | [], b :: bs => by simp [cmpCharList]
  | a :: as, [] => by simp [cmpCharList]
  | a :: as, b :: bs => by
    rw [cmpCharList, cmpCharList]
    by_cases h1 : a < b
    · have h2 : ¬b < a := asymm h1
      simp [h1, h2]
    · by_cases h2 : b < a
      · simp [h1, h2]
      · simp [h1, h2, cmpCharList_flip as bs]

/-- Code-point comparison separates points. -/
theorem cmpCharList_eq_zero : ∀ a b, cmpCharList a b = 0 → a = b
  | [], [], _ => rfl
  | [], _ :: _, h => by simp [cmpCharList] at h
  | _ :: _, [], h => by simp [cmpCharList] at h
  | a :: as, b :: bs, h => by
    rw [cmpCharList] at h
    by_cases h1 : a < b
    · rw [if_pos h1] at h
      exact absurd h (by decide)
    · rw [if_neg h1] at h
      by_cases h2 : b < a
      · rw [if_pos h2] at h
        exact absurd h (by decide)
      · rw [if_neg h2] at h
        have hab : a = b := le_antisymm (not_lt.mp h2) (not_lt.mp h1)
        rw [hab, cmpCharList_eq_zero as bs h]

/-- Code-point comparison is transitive in the nonpositive cone. -/
theorem cmpCharList_le_trans :
    ∀ a b c, cmpCharList a b ≤ 0 → cmpCharList b c ≤ 0 → cmpCharList a c ≤ 0
  | [], _, c, _, _ => by
    cases c with
    | nil => simp [cmpCharList]
    | cons x xs => simp [cmpCharList]
  | _ :: _, [], _, h1, _ => absurd h1 (by simp [cmpCharList])
  | _ :: _, _ :: _, [], _, h2 => absurd h2 (by simp [cmpCharList])
  | a :: as, b :: bs, c :: cs, h1, h2 => by
    rw [cmpCharList] at h1 h2 ⊢
    by_cases hab : a < b
    · by_cases hbc : b < c
      · simp [lt_trans hab hbc]
      · by_cases hcb : c < b
        · rw [if_neg hbc, if_pos hcb] at h2
          exact absurd h2 (by decide)
        · have hbceq : b = c := le_antisymm (not_lt.mp hcb) (not_lt.mp hbc)
          subst hbceq
          simp [hab]
    · by_cases hba : b < a
      · rw [if_neg hab, if_pos hba] at h1
        exact absurd h1 (by decide)
      · have habq : a = b := le_antisymm (not_lt.mp hba) (not_lt.mp hab)
        subst habq
        simp only [lt_irrefl, if_false] at h1
        by_cases hac : a < c
        · simp [hac]
        · by_cases hca : c < a
          · rw [if_neg hac, if_pos hca] at h2
            exact absurd h2 (by decide)
          · simp only [hac, hca, if_false] at h2 ⊢
            exact cmpCharList_le_trans as bs cs h1 h2

/-- Code-point comparison is transitive in the negative cone. -/
theorem cmpCharList_lt_trans (a b c : List Char)
    (h1 : cmpCharList a b < 0) (h2 : cmpCharList b c < 0) :
    cmpCharList a c < 0 := by
  have hle := cmpCharList_le_trans a b c (le_of_lt h1) (le_of_lt h2)
  rcases lt_or_eq_of_le hle with h | h
  · exact h
  · exfalso
    have hac := cmpCharList_eq_zero a c h
    subst hac
    rw [cmpCharList_flip] at h2
    omega

/-- `cmpStr` separates points. -/
theorem cmpStr_eq_zero (a b : String) (h : cmpStr a b = 0) : a = b := by
  have hl := cmpCharList_eq_zero a.toList b.toList h
  cases a with
  | mk d1 =>
    cases b with
    | mk d2 =>
      have hd : d1 = d2 := by simpa using hl
      rw [hd]

/-- The produced key parts alternate, starting opposite the current run
kind. -/
theorem altKey_naturalKeyGo :
    ∀ (cs : List Char) (inNum : Bool) (run : List Char),
      altKey (!inNum) (naturalKeyGo inNum run cs) = true
  | [], inNum, run => by
    rw [naturalKeyGo]
    cases inNum with
    | true => simp [altKey]
    | false => simp [altKey]
  | c :: cs, inNum, run => by
    rw [naturalKeyGo]
    by_cases hd : c.isDigit
    · rw [if_pos hd]
      cases inNum with
      | true => exact altKey_naturalKeyGo cs true (c :: run)
      | false =>
        have hk := altKey_naturalKeyGo cs true [c]
        simp only [Bool.not_true] at hk
        simp [altKey, hk]
    · rw [if_neg hd]
      cases inNum with
      | true =>
        have hk := altKey_naturalKeyGo cs false [c]
        simp only [Bool.not_false] at hk
        simp [altKey, hk]
      | false => exact altKey_naturalKeyGo cs false (c :: run)

/-- Natural sort keys alternate starting with a text part. -/
theorem altKey_naturalSortKey (s : String) :
    altKey true (naturalSortKey s) = true :=
  altKey_naturalKeyGo s.toList false []

/-- Key-part comparison flips sign under argument swap. -/
theorem cmpKeyPart_flip : ∀ p q, cmpKeyPart q p = -cmpKeyPart p q
  | .txt a, .txt b => by
    show cmpStr b a = -cmpStr a b
    exact cmpCharList_flip _ _
  | .num a, .num b => by
    rw [cmpKeyPart, cmpKeyPart]
    rcases lt_trichotomy a b with h | h | h
    · simp [h, asymm h]
    · simp [h]
    · simp [h, asymm h]
  | .txt _, .num _ => by simp [cmpKeyPart]
  | .num _, .txt _ => by simp [cmpKeyPart]

/-- Key-list comparison flips sign under argument swap. -/
theorem cmpKeyList_flip : ∀ k l, cmpKeyList l k = -cmpKeyList k l
  | [], [] => by simp [cmpKeyList]
  | [], _ :: _ => by simp [cmpKeyList]
  | _ :: _, [] => by simp [cmpKeyList]
  | p :: as, q :: bs => by
    rw [cmpKeyList, cmpKeyList]
    rw [cmpKeyPart_flip p q]
    by_cases h : cmpKeyPart p q = 0
    · simp [h, cmpKeyList_flip as bs]
    · have h' : ¬(-cmpKeyPart p q = 0) := by omega
      rw [if_neg h', if_neg h]

/-- The natural sort comparator flips sign under argument swap. -/
theorem naturalSort_flip (a b : String) :
    naturalSort b a = -naturalSort a b :=
  cmpKeyList_flip _ _

/-- Numeric key parts compare nonpositively exactly by ≤. -/
theorem cmpKeyPart_num_le (x y : Nat) :
    cmpKeyPart (.num x) (.num y) ≤ 0 ↔ x ≤ y := by
  rw [cmpKeyPart]
  repeat' split
  all_goals omega

/-- Numeric key parts compare to zero exactly on equality. -/
theorem cmpKeyPart_num_eq (x y : Nat) :
    cmpKeyPart (.num x) (.num y) = 0 ↔ x = y := by
  rw [cmpKeyPart]
  repeat' split
  all_goals omega

/-- The nil-left equation of `cmpKeyList`. -/
theorem cmpKeyList_nil_left (bs : List KeyPart) :
    cmpKeyList [] bs = -(bs.length : Int) := by
  cases bs <;> rfl

/-- The cons-nil equation of `cmpKeyList`. -/
theorem cmpKeyList_cons_nil (p : KeyPart) (as : List KeyPart) :
    cmpKeyList (p :: as) [] = ((p :: as).length : Int) := rfl

/-- The cons-cons equation of `cmpKeyList`. -/
theorem cmpKeyList_cons_cons (p q : KeyPart) (as bs : List KeyPart) :
    cmpKeyList (p :: as) (q :: bs) =
      if cmpKeyPart p q = 0 then cmpKeyList as bs else cmpKeyPart p q := rfl

/-- Key-list comparison is transitive in the nonpositive cone on keys of
one alternation parity. -/
theorem cmpKeyList_le_trans :
    ∀ (b : Bool) (k₁ k₂ k₃ : List KeyPart),
      altKey b k₁ = true → altKey b k₂ = true → altKey b k₃ = true →
      cmpKeyList k₁ k₂ ≤ 0 → cmpKeyList k₂ k₃ ≤ 0 → cmpKeyList k₁ k₃ ≤ 0
  | _, [], _, k₃, _, _, _, _, _ => by
    rw [cmpKeyList_nil_left]
    omega
  | _, p :: as, [], _, _, _, _, h1, _ => by
    exfalso
    rw [cmpKeyList_cons_nil] at h1
    simp at h1
    omega
  | _, p :: as, q :: bs, [], _, _, _, _, h2 => by
    exfalso
    rw [cmpKeyList_cons_nil] at h2
    simp at h2
    omega
  | b, p :: as, q :: bs, r :: cs, ha1, ha2, ha3, h1, h2 => by
    cases b with
    | true =>
      cases p with
      | num n1 => simp [altKey] at ha1
      | txt s1 =>
        cases q with
        | num n2 => simp [altKey] at ha2
        | txt s2 =>
          cases r with
          | num n3 => simp [altKey] at ha3
          | txt s3 =>
            simp only [altKey, Bool.true_and] at ha1 ha2 ha3
            rw [cmpKeyList_cons_cons] at h1 h2 ⊢
            by_cases e1 : cmpKeyPart (.txt s1) (.txt s2) = 0
            · have hs12 : s1 = s2 := cmpStr_eq_zero _ _ e1
              subst hs12
              rw [if_pos e1] at h1
              by_cases e2 : cmpKeyPart (.txt s1) (.txt s3) = 0
              · rw [if_pos e2] at h2 ⊢
                exact cmpKeyList_le_trans false as bs cs ha1 ha2 ha3 h1 h2
              · rw [if_neg e2] at h2 ⊢
                exact h2
            · rw [if_neg e1] at h1
              by_cases e2 : cmpKeyPart (.txt s2) (.txt s3) = 0
              · have hs23 : s2 = s3 := cmpStr_eq_zero _ _ e2
                subst hs23
                rw [if_neg e1]
                exact h1
              · rw [if_neg e2] at h2
                have hlt1 : cmpStr s1 s2 < 0 := lt_of_le_of_ne h1 e1
                have hlt2 : cmpStr s2 s3 < 0 := lt_of_le_of_ne h2 e2
                have hlt3 : cmpStr s1 s3 < 0 :=
                  cmpCharList_lt_trans _ _ _ hlt1 hlt2
                have e3 : ¬(cmpKeyPart (.txt s1) (.txt s3) = 0) := by
                  intro hc
                  have hc' : cmpStr s1 s3 = 0 := hc
                  omega
                rw [if_neg e3]
                exact le_of_lt hlt3
    | false =>
      cases p with
      | txt s1 => simp [altKey] at ha1
      | num n1 =>
        cases q with
        | txt s2 => simp [altKey] at ha2
        | num n2 =>
          cases r with
          | txt s3 => simp [altKey] at ha3
          | num n3 =>
            simp only [altKey, Bool.not_false, Bool.true_and] at ha1 ha2 ha3
            rw [cmpKeyList_cons_cons] at h1 h2 ⊢
            by_cases e1 : cmpKeyPart (.num n1) (.num n2) = 0
            · have h12 := (cmpKeyPart_num_eq n1 n2).mp e1
              subst h12
              rw [if_pos e1] at h1
              by_cases e2 : cmpKeyPart (.num n1) (.num n3) = 0
              · rw [if_pos e2] at h2 ⊢
                exact cmpKeyList_le_trans true as bs cs ha1 ha2 ha3 h1 h2
              · rw [if_neg e2] at h2 ⊢
                exact h2
            · rw [if_neg e1] at h1
              by_cases e2 : cmpKeyPart (.num n2) (.num n3) = 0
              · have h23 := (cmpKeyPart_num_eq n2 n3).mp e2
                subst h23
                rw [if_neg e1]
                exact h1
              · rw [if_neg e2] at h2
                have l1 := (cmpKeyPart_num_le n1 n2).mp h1
                have l2 := (cmpKeyPart_num_le n2 n3).mp h2
                have ne1 : n1 ≠ n2 :=
                  fun hc => e1 ((cmpKeyPart_num_eq n1 n2).mpr hc)
                have e3 : ¬(cmpKeyPart (.num n1) (.num n3) = 0) := by
                  intro hc
                  have := (cmpKeyPart_num_eq n1 n3).mp hc
                  omega
                rw [if_neg e3, cmpKeyPart_num_le]
                omega

/-- The natural sort comparator is transitive in the nonpositive cone. -/
theorem naturalSort_le_trans (a b c : String)
    (h1 : naturalSort a b ≤ 0) (h2 : naturalSort b c ≤ 0) :
    naturalSort a c ≤ 0 :=
  cmpKeyList_le_trans true _ _ _ (altKey_naturalSortKey a)
    (altKey_naturalSortKey b) (altKey_naturalSortKey c) h1 h2

/-- The natural sort comparator is total for the sort's order. -/
theorem naturalSort_total (a b : String) :
    naturalSort a b ≤ 0 ∨ naturalSort b a ≤ 0 := by
  rw [naturalSort_flip a b]
  omega

/-- Stable insertion keeps the output sorted for a total transitive
order. -/
theorem insertSorted_pairwise {α : Type} (le : α → α → Bool)
    (htot : ∀ a b, le a b = true ∨ le b a = true)
    (htrans : ∀ a b c, le a b = true → le b c = true → le a c = true)
    (x : α) :
    ∀ l : List α, l.Pairwise (fun a b => le a b = true) →
      (insertSorted le x l).Pairwise (fun a b => le a b = true)
  | [], _ => by simp [insertSorted]
  | y :: ys, h => by
    rw [insertSorted]
    rcases List.pairwise_cons.mp h with ⟨hy, hys⟩
    by_cases hxy : le x y = true
    · rw [if_pos hxy]
      rw [List.pairwise_cons]
      refine ⟨?_, h⟩
      intro z hz
      rcases List.mem_cons.mp hz with hz | hz
      · subst hz
        exact hxy
      · exact htrans x y z hxy (hy z hz)
    · rw [if_neg hxy]
      have hyx : le y x = true := by
        rcases htot x y with h' | h'
        · exact absurd h' hxy
        · exact h'
      rw [List.pairwise_cons]
      refine ⟨?_, insertSorted_pairwise le htot htrans x ys hys⟩
      intro z hz
      have hz' := (insertSorted_perm le x ys).mem_iff.mp hz
      rcases List.mem_cons.mp hz' with hz' | hz'
      · subst hz'
        exact hyx
      · exact hy z hz'

/-- The modelled JS sort outputs a list sorted by the comparator when the
comparator is total and transitive. -/
theorem jsSortBy_pairwise {α : Type} (cmp : α → α → Int)
    (htot : ∀ a b, cmp a b ≤ 0 ∨ cmp b a ≤ 0)
    (htrans : ∀ a b c, cmp a b ≤ 0 → cmp b c ≤ 0 → cmp a c ≤ 0) :
    ∀ l : List α, (jsSortBy cmp l).Pairwise (fun a b => cmp a b ≤ 0)
  | [] => by simp [jsSortBy]
  | x :: xs => by
    rw [jsSortBy]
    have hb := insertSorted_pairwise (fun a b => decide (cmp a b ≤ 0))
      (fun a b => by
        rcases htot a b with h | h
        · exact Or.inl (decide_eq_true h)
        · exact Or.inr (decide_eq_true h))
      (fun a b c h1 h2 => decide_eq_true
        (htrans a b c (of_decide_eq_true h1) (of_decide_eq_true h2)))
      x (jsSortBy cmp xs)
      ((jsSortBy_pairwise cmp htot htrans xs).imp
        (fun h => decide_eq_true h))
    exact hb.imp (fun h => of_decide_eq_true h)

/-- Two sorted permutations of one list are equal when ties among its
members force equality. -/
theorem sorted_perm_eq {α : Type} (le : α → α → Prop) :
    ∀ (l₁ l₂ : List α), l₁.Perm l₂ →
      l₁.Pairwise le → l₂.Pairwise le →
      (∀ a ∈ l₁, ∀ b ∈ l₁, le a b → le b a → a = b) →
      l₁ = l₂
  | [], _, hp, _, _, _ => (hp.symm.eq_nil).symm
  | a :: l₁, l₂, hp, hs₁, hs₂, hanti => by
    cases l₂ with
    | nil => exact absurd hp.eq_nil (by simp)
    | cons b l₂' =>
      by_cases hab : a = b
      · subst hab
        have hp' := hp.cons_inv
        rcases List.pairwise_cons.mp hs₁ with ⟨_, hs₁'⟩
        rcases List.pairwise_cons.mp hs₂ with ⟨_, hs₂'⟩
        have hanti' : ∀ x ∈ l₁, ∀ y ∈ l₁, le x y → le y x → x = y :=
          fun x hx y hy => hanti x (List.mem_cons_of_mem _ hx) y
            (List.mem_cons_of_mem _ hy)
        rw [sorted_perm_eq le l₁ l₂' hp' hs₁' hs₂' hanti']
      · exfalso
        have ha2 : a ∈ l₂' := by
          have hm : a ∈ b :: l₂' := hp.mem_iff.mp (List.mem_cons_self _ _)
          rcases List.mem_cons.mp hm with h | h
          · exact absurd h hab
          · exact h
        have hb1 : b ∈ l₁ := by
          have hm : b ∈ a :: l₁ := hp.symm.mem_iff.mp (List.mem_cons_self _ _)
          rcases List.mem_cons.mp hm with h | h
          · exact absurd h.symm hab
          · exact h
        have hle1 : le a b := (List.pairwise_cons.mp hs₁).1 b hb1
        have hle2 : le b a := (List.pairwise_cons.mp hs₂).1 a ha2
        exact hab (hanti a (List.mem_cons_self _ _) b
          (List.mem_cons_of_mem _ hb1) hle1 hle2)

/-- The modelled JS sort maps over a comparator-preserving function. -/
theorem map_insertSorted {α β : Type} (f : α → β) (le : α → α → Bool)
    (le' : β → β → Bool) (hle : ∀ x y, le' (f x) (f y) = le x y) (x : α) :
    ∀ l : List α, (insertSorted le x l).map f = insertSorted le' (f x) (l.map f)
  | [] => rfl
  | y :: ys => by
    rw [insertSorted, List.map_cons, insertSorted, hle x y]
    by_cases h : le x y = true
    · rw [if_pos h, if_pos h]
      simp
    · rw [if_neg h, if_neg h]
      rw [List.map_cons, map_insertSorted f le le' hle x ys]

/-- Mapping a comparator-preserving function commutes with the modelled
JS sort. -/
theorem map_jsSortBy {α β : Type} (f : α → β) (cmp : α → α → Int)
    (cmp' : β → β → Int) (hc : ∀ x y, cmp' (f x) (f y) = cmp x y) :
    ∀ l : List α, (jsSortBy cmp l).map f = jsSortBy cmp' (l.map f)
  | [] => rfl
  | x :: xs => by
    rw [jsSortBy, List.map_cons, jsSortBy]
    rw [map_insertSorted f (fun a b => decide (cmp a b ≤ 0))
      (fun a b => decide (cmp' a b ≤ 0)) (fun a b => by dsimp only; rw [hc]) x
      (jsSortBy cmp xs)]
    rw [map_jsSortBy f cmp cmp' hc xs]

/-- Sorting two permuted lists with a total transitive comparator whose
ties among the members force equality yields the same output. -/
theorem jsSortBy_perm_congr {α : Type} (cmp : α → α → Int)
    (htot : ∀ a b, cmp a b ≤ 0 ∨ cmp b a ≤ 0)
    (htrans : ∀ a b c, cmp a b ≤ 0 → cmp b c ≤ 0 → cmp a c ≤ 0)
    (l₁ l₂ : List α) (hp : l₁.Perm l₂)
    (hanti : ∀ a ∈ l₁, ∀ b ∈ l₁, cmp a b ≤ 0 → cmp b a ≤ 0 → a = b) :
    jsSortBy cmp l₁ = jsSortBy cmp l₂ := by
  refine sorted_perm_eq (fun a b => cmp a b ≤ 0) _ _
    (((jsSortBy_perm cmp l₁).trans hp).trans (jsSortBy_perm cmp l₂).symm)
    (jsSortBy_pairwise cmp htot htrans l₁)
    (jsSortBy_pairwise cmp htot htrans l₂) ?_
  intro a ha b hb
  exact hanti a ((jsSortBy_perm cmp l₁).mem_iff.mp ha) b
    ((jsSortBy_perm cmp l₁).mem_iff.mp hb)

/-- `localeCompare` is transitive in the nonpositive cone. -/
theorem localeCompare_le_trans (a b c : String)
    (h1 : localeCompare a b ≤ 0) (h2 : localeCompare b c ≤ 0) :
    localeCompare a c ≤ 0 :=
  cmpCharList_le_trans _ _ _ h1 h2

/-- `localeCompare` is total for the sort's order. -/
theorem localeCompare_total (a b : String) :
    localeCompare a b ≤ 0 ∨ localeCompare b a ≤ 0 := by
  have h := cmpCharList_flip a.toList b.toList
  show cmpCharList a.toList b.toList ≤ 0 ∨
    cmpCharList b.toList a.toList ≤ 0
  omega

/-- `localeCompare` separates points. -/
theorem localeCompare_eq_zero (a b : String) (h : localeCompare a b = 0) :
    a = b :=
  cmpStr_eq_zero a b h

/-- C6 (amended): `computeCircuitHash` of the empty list is the zero
fingerprint, and the hash is invariant under permutation of the component
list when natural-sort ties among refdes only relate components of equal
canonical form; moreover the canonical form of one component is invariant
under permutation of its connections when nets are distinct, and the pin
sort is invariant under permutation when natural keys are tie-free. -/
theorem circuit_hash_tie_free_invariant (l₁ l₂ : List CircuitComponent)
    (hperm : l₁.Perm l₂)
    (hties : ∀ c₁ ∈ l₁, ∀ c₂ ∈ l₁,
      naturalSort c₁.refdes c₂.refdes = 0 → canonComp c₁ = canonComp c₂) :
    computeCircuitHash [] = "0000000000000000" ∧
    computeCircuitHash l₁ = computeCircuitHash l₂ ∧
    (∀ c₁ c₂ : CircuitComponent, c₁.refdes = c₂.refdes → c₁.mpn = c₂.mpn →
      c₁.connections.Perm c₂.connections →
      (∀ k ∈ c₁.connections, ∀ k' ∈ c₁.connections, k.net = k'.net → k = k') →
      canonComp c₁ = canonComp c₂) ∧
    (∀ pins₁ pins₂ : List String, pins₁.Perm pins₂ →
      (∀ p ∈ pins₁, ∀ p' ∈ pins₁, naturalSort p p' = 0 → p = p') →
      jsSortBy naturalSort pins₁ = jsSortBy naturalSort pins₂) := by
  have hlen := hperm.length_eq
  refine ⟨by decide, ?_, ?_, ?_⟩
  · unfold computeCircuitHash
    by_cases h0 : l₁.length = 0
    · rw [if_pos h0, if_pos (by omega)]
    · rw [if_neg h0, if_neg (by omega)]
      dsimp only
      have hmap : (jsSortBy (fun a b => naturalSort a.refdes b.refdes)
            l₁).map canonComp =
          (jsSortBy (fun a b => naturalSort a.refdes b.refdes) l₂).map
            canonComp := by
        rw [map_jsSortBy canonComp (fun a b => naturalSort a.refdes b.refdes)
          (fun a b => naturalSort a.refdes b.refdes) (fun x y => rfl) l₁]
        rw [map_jsSortBy canonComp (fun a b => naturalSort a.refdes b.refdes)
          (fun a b => naturalSort a.refdes b.refdes) (fun x y => rfl) l₂]
        apply jsSortBy_perm_congr
        · intro a b
          exact naturalSort_total a.refdes b.refdes
        · intro a b c
          exact naturalSort_le_trans a.refdes b.refdes c.refdes
        · exact hperm.map canonComp
        · intro a ha b hb h1 h2
          rcases List.mem_map.mp ha with ⟨c₁, hc₁, rfl⟩
          rcases List.mem_map.mp hb with ⟨c₂, hc₂, rfl⟩
          have h1' : naturalSort c₁.refdes c₂.refdes ≤ 0 := h1
          have h2' : naturalSort c₂.refdes c₁.refdes ≤ 0 := h2
          have hflip := naturalSort_flip c₁.refdes c₂.refdes
          have hz : naturalSort c₁.refdes c₂.refdes = 0 := by omega
          exact hties c₁ hc₁ c₂ hc₂ hz
      rw [hmap]
  · intro c₁ c₂ hr hm hcp huniq
    unfold canonComp
    have hconn : jsSortBy (fun a b => localeCompare a.net b.net)
        (c₁.connections.map (fun conn =>
          CanonConn.mk (jsSortBy naturalSort conn.pins) conn.net)) =
        jsSortBy (fun a b => localeCompare a.net b.net)
        (c₂.connections.map (fun conn =>
          CanonConn.mk (jsSortBy naturalSort conn.pins) conn.net)) := by
      apply jsSortBy_perm_congr
      · intro a b
        exact localeCompare_total a.net b.net
      · intro a b c
        exact localeCompare_le_trans a.net b.net c.net
      · exact hcp.map _
      · intro a ha b hb h1 h2
        rcases List.mem_map.mp ha with ⟨k, hk, rfl⟩
        rcases List.mem_map.mp hb with ⟨k', hk', rfl⟩
        have h1' : cmpCharList k.net.toList k'.net.toList ≤ 0 := h1
        have h2' : cmpCharList k'.net.toList k.net.toList ≤ 0 := h2
        have hflip := cmpCharList_flip k.net.toList k'.net.toList
        have hz : localeCompare k.net k'.net = 0 := by
          show cmpCharList k.net.toList k'.net.toList = 0
          omega
        have hnet : k.net = k'.net := localeCompare_eq_zero _ _ hz
        rw [huniq k hk k' hk' hnet]
    rw [hr, hm, hconn]
  · intro pins₁ pins₂ hp hanti
    apply jsSortBy_perm_congr
    · exact naturalSort_total
    · exact naturalSort_le_trans
    · exact hp
    · intro a ha b hb h1 h2
      refine hanti a ha b hb ?_
      have hflip := naturalSort_flip a b
      omega

/-- C6 witness: two tie-free resistors hash identically in either order. -/
theorem circuit_hash_tie_free_invariant_witness :
    computeCircuitHash
        [{ refdes := "R1", mpn := .str "10k", description := none,
           comment := none, value := none, dns := none,
           connections := [{ net := "A", pins := ["1"] }] },
         { refdes := "R2", mpn := .str "20k", description := none,
           comment := none, value := none, dns := none,
           connections := [{ net := "A", pins := ["1"] }] }] =
      computeCircuitHash
        [{ refdes := "R2", mpn := .str "20k", description := none,
           comment := none, value := none, dns := none,
           connections := [{ net := "A", pins := ["1"] }] },
         { refdes := "R1", mpn := .str "10k", description := none,
           comment := none, value := none, dns := none,
           connections := [{ net := "A", pins := ["1"] }] }] :=
  ((circuit_hash_tie_free_invariant _ _ (by decide) (by decide)).2).1

end UNetlist
